import Mathlib

/-!
Verification of the maze core of `src/main.py`: the grid model (`Direction`,
`Cell`, `Maze`), the recursive-backtracking generator (`Maze._generate_maze`),
and the three solvers (`Maze.solve_bfs`, `Maze.solve_dfs`, `Maze.solve_astar`).

Embedding conventions:
* Python `int` coordinates are `ℤ`; Python list indexing (which wraps negative
  indices and raises `IndexError` out of range) is `pyGet`/`pySetCell`
  returning `Option`.  The construction path (`mazeInit`) threads these
  failures, since `Maze.__init__` really does raise for non-positive sizes at
  `self.cells[0][0].visited = True`.
* Inside the generation loop and the solvers every cell access is
  bounds-checked before use (the coordinates come from `_get_neighbors` /
  `_get_connected_neighbors`, which clip to the grid), so those reads use the
  total accessor `cellAt` with an all-walls default; the default is
  unreachable on well-formed states, which the lemmas below establish.
* `random.choice(seq)` is modeled by an injected choice stream
  `rand : ℕ → ℕ`, selecting `seq[rand k % len seq]` at the k-th draw.
  Quantifying over all streams covers every behaviour of the ambient
  `random` module.
* Python grows its generator stack, BFS queue and DFS stack at the list ends;
  the stack/LIFO structures are represented with their top at the head (the
  code only ever pushes, pops and reads at the top, so this is the same
  abstract stack), while the BFS queue keeps Python's orientation
  (pop at the head, append at the tail).
* `while` loops are expressed with an explicit fuel argument; the chosen fuel
  is proved sufficient, so `none` (fuel exhaustion) never occurs on the
  states the program actually reaches.
-/

/-- The four compass directions of `Direction(Enum)`. -/
inductive Direction where
  | north
  | south
  | east
  | west
deriving DecidableEq

/-- The coordinate delta of each direction: NORTH = (0, -1), SOUTH = (0, 1),
EAST = (1, 0), WEST = (-1, 0). -/
def Direction.value : Direction → ℤ × ℤ
  | .north => (0, -1)
  | .south => (0, 1)
  | .east => (1, 0)
  | .west => (-1, 0)

/-- `Direction.opposite`. -/
def Direction.opposite : Direction → Direction
  | .north => .south
  | .south => .north
  | .east => .west
  | .west => .east

/-- Looking up the enum member by its value, `Direction((nx - x, ny - y))`;
raises (`none`) when the delta is not one of the four unit deltas. -/
def Direction.ofValue (v : ℤ × ℤ) : Option Direction :=
  if v = (0, -1) then some .north
  else if v = (0, 1) then some .south
  else if v = (1, 0) then some .east
  else if v = (-1, 0) then some .west
  else none

/-- Python's `for direction in Direction` iteration order. -/
def Direction.all : List Direction := [.north, .south, .east, .west]

instance : Fintype Direction :=
  ⟨⟨{.north, .south, .east, .west}, by decide⟩, by intro d; cases d <;> decide⟩

/-- A maze cell: position, wall flags (initially all present), the
generation-time `visited` flag and the start/end markers. -/
structure Cell where
  x : ℤ
  y : ℤ
  walls : Direction → Bool
  visited : Bool
  is_start : Bool
  is_end : Bool

/-- `Cell.__init__`. -/
def Cell.init (x y : ℤ) : Cell :=
  { x := x, y := y, walls := fun _ => true,
    visited := false, is_start := false, is_end := false }

/-- `Cell.remove_wall`: clear the wall flag in one direction. -/
def Cell.remove_wall (c : Cell) (d : Direction) : Cell :=
  { c with walls := fun e => if e = d then false else c.walls e }

/-- `Cell.has_wall`: `self.walls.get(direction, True)`; all four keys are
always present, so this is exactly the stored flag. -/
def Cell.has_wall (c : Cell) (d : Direction) : Bool :=
  c.walls d

/-- Normalise a Python list index of a list of length `n`: negative indices
count from the end, anything out of `[-n, n)` raises `IndexError` (`none`). -/
def pyIndexNat (n : ℕ) (i : ℤ) : Option ℕ :=
  let j := if i < 0 then i + n else i
  if 0 ≤ j ∧ j < n then some j.toNat else none

/-- Python list read `l[i]`. -/
def pyGet {α : Type _} (l : List α) (i : ℤ) : Option α :=
  (pyIndexNat l.length i).bind fun j => l.get? j

/-- Replace the element at (valid) position `j` by `f` of it. -/
def listModify {α : Type _} (f : α → α) : ℕ → List α → List α
  | _, [] => []
  | 0, a :: as => f a :: as
  | n + 1, a :: as => a :: listModify f n as

/-- Total in-place update `l[i] := f l[i]`; identity when the index is
invalid (used only where validity is separately guaranteed). -/
def pyModify {α : Type _} (l : List α) (i : ℤ) (f : α → α) : List α :=
  match pyIndexNat l.length i with
  | some j => listModify f j l
  | none => l

/-- Fallible update of the cell at `cells[x][y]` — models the Python
attribute assignment through two list subscripts, raising (`none`) exactly
when a subscript raises. -/
def pySetCell (cells : List (List Cell)) (x y : ℤ) (f : Cell → Cell) :
    Option (List (List Cell)) :=
  match pyGet cells x with
  | none => none
  | some col =>
    match pyGet col y with
    | none => none
    | some _ => some (pyModify cells x fun c => pyModify c y f)

/-- Total read of `cells[x][y]`.  Every call site is bounds-checked in the
source, so the all-walls default is unreachable there. -/
def cellAt (cells : List (List Cell)) (x y : ℤ) : Cell :=
  ((pyGet cells x).bind fun col => pyGet col y).getD (Cell.init x y)

/-- The maze object: dimensions, the `width × height` column-major cell
array, and the fixed start/end corners.  `end` is a Lean keyword, hence
`end_`. -/
structure Maze where
  width : ℤ
  height : ℤ
  cell_size : ℤ
  cells : List (List Cell)
  start : ℤ × ℤ
  end_ : ℤ × ℤ

/-- `Maze._get_neighbors`: the grid-adjacent coordinates clipped to the
grid, in Python's delta order `[(0, 1), (1, 0), (0, -1), (-1, 0)]`. -/
def get_neighbors (width height x y : ℤ) : List (ℤ × ℤ) :=
  [((0 : ℤ), (1 : ℤ)), (1, 0), (0, -1), (-1, 0)].filterMap fun dxy =>
    let nx := x + dxy.1
    let ny := y + dxy.2
    if 0 ≤ nx ∧ nx < width ∧ 0 ≤ ny ∧ ny < height then some (nx, ny) else none

/-- `Maze._get_neighbors` as a method. -/
def Maze._get_neighbors (m : Maze) (x y : ℤ) : List (ℤ × ℤ) :=
  get_neighbors m.width m.height x y

/-- `Maze._get_connected_neighbors`: in-grid neighbors with no wall from
`(x, y)` toward them, iterating directions in enum order. -/
def Maze._get_connected_neighbors (m : Maze) (x y : ℤ) : List (ℤ × ℤ) :=
  Direction.all.filterMap fun d =>
    let nx := x + d.value.1
    let ny := y + d.value.2
    if 0 ≤ nx ∧ nx < m.width ∧ 0 ≤ ny ∧ ny < m.height ∧
        (cellAt m.cells x y).has_wall d = false
    then some (nx, ny) else none

/-- The `while stack:` loop of `Maze._generate_maze`.  State: the cell
array, the stack (top at the head) and the position in the choice stream. -/
def genLoop (width height : ℤ) (rand : ℕ → ℕ) :
    ℕ → List (List Cell) → List (ℤ × ℤ) → ℕ → Option (List (List Cell))
  | 0, _, _, _ => none
  | _ + 1, cells, [], _ => some cells
  | fuel + 1, cells, (x, y) :: stk, k =>
    let neighbors := (get_neighbors width height x y).filter
      fun c => !(cellAt cells c.1 c.2).visited
    match neighbors with
    | [] => genLoop width height rand fuel cells stk k
    | n0 :: ns =>
      let chosen := (n0 :: ns).get
        ⟨rand k % (ns.length + 1), Nat.mod_lt _ (Nat.succ_pos _)⟩
      match Direction.ofValue (chosen.1 - x, chosen.2 - y) with
      | none => none
      | some d =>
        let cells1 := pyModify cells x fun col =>
          pyModify col y fun c => c.remove_wall d
        let cells2 := pyModify cells1 chosen.1 fun col =>
          pyModify col chosen.2 fun c => c.remove_wall d.opposite
        let cells3 := pyModify cells2 chosen.1 fun col =>
          pyModify col chosen.2 fun c => { c with visited := true }
        genLoop width height rand fuel cells3 (chosen :: (x, y) :: stk) (k + 1)

/-- The fresh all-walls grid built in `Maze.__init__`:
`[[Cell(x, y) for y in range(height)] for x in range(width)]`. -/
def initCells (width height : ℤ) : List (List Cell) :=
  (List.range width.toNat).map fun x =>
    (List.range height.toNat).map fun y => Cell.init (Int.ofNat x) (Int.ofNat y)

/-- Fuel sufficient for the generation loop (proved below): the measure
`2 · (unvisited cells) + stack length` strictly decreases each iteration. -/
def genFuel (width height : ℤ) : ℕ := 2 * (width.toNat * height.toNat) + 2

/-- `Maze.__init__` followed by `Maze._generate_maze`: build the grid, run
the carving loop from `(0, 0)`, then mark the start and end cells.  Returns
`none` exactly when Python raises (which happens iff a dimension is
non-positive, at `self.cells[0][0].visited = True`). -/
def mazeInit (width height cell_size : ℤ) (rand : ℕ → ℕ) : Option Maze :=
  let start : ℤ × ℤ := (0, 0)
  let stop : ℤ × ℤ := (width - 1, height - 1)
  let cells0 := initCells width height
  match pySetCell cells0 0 0 (fun c => { c with visited := true }) with
  | none => none
  | some cells1 =>
    match genLoop width height rand (genFuel width height) cells1 [(0, 0)] 0 with
    | none => none
    | some cells2 =>
      match pySetCell cells2 start.1 start.2 (fun c => { c with is_start := true }) with
      | none => none
      | some cells3 =>
        match pySetCell cells3 stop.1 stop.2 (fun c => { c with is_end := true }) with
        | none => none
        | some cells4 =>
          some { width := width, height := height, cell_size := cell_size,
                 cells := cells4, start := start, end_ := stop }

/-- One BFS/DFS frontier entry: `(cell, path-so-far)`. -/
abbrev SearchEntry := (ℤ × ℤ) × List (ℤ × ℤ)

/-- The `while queue:` loop of `Maze.solve_bfs`: pop at the head, test for
the end cell, push unvisited connected neighbors (marking them visited as
they are pushed) at the tail. -/
def bfsLoop (m : Maze) :
    ℕ → List SearchEntry → Finset (ℤ × ℤ) → Option (List (ℤ × ℤ))
  | 0, _, _ => none
  | _ + 1, [], _ => some []
  | fuel + 1, ((x, y), path) :: queue, visited =>
    if (x, y) = m.end_ then some path
    else
      let st := (m._get_connected_neighbors x y).foldl
        (fun (st : List SearchEntry × Finset (ℤ × ℤ)) nb =>
          if nb ∈ st.2 then st
          else (st.1 ++ [(nb, path ++ [nb])], insert nb st.2))
        (queue, visited)
      bfsLoop m fuel st.1 st.2

/-- Fuel sufficient for the search loops (proved below). -/
def searchFuel (m : Maze) : ℕ := m.width.toNat * m.height.toNat + 1

/-- `Maze.solve_bfs`. -/
def Maze.solve_bfs (m : Maze) : List (ℤ × ℤ) :=
  (bfsLoop m (searchFuel m) [(m.start, [m.start])] {m.start}).getD []

/-- The `while stack:` loop of `Maze.solve_dfs`: identical to BFS except
that both pops and pushes happen at the stack top (head here). -/
def dfsLoop (m : Maze) :
    ℕ → List SearchEntry → Finset (ℤ × ℤ) → Option (List (ℤ × ℤ))
  | 0, _, _ => none
  | _ + 1, [], _ => some []
  | fuel + 1, ((x, y), path) :: stack, visited =>
    if (x, y) = m.end_ then some path
    else
      let st := (m._get_connected_neighbors x y).foldl
        (fun (st : List SearchEntry × Finset (ℤ × ℤ)) nb =>
          if nb ∈ st.2 then st
          else ((nb, path ++ [nb]) :: st.1, insert nb st.2))
        (stack, visited)
      dfsLoop m fuel st.1 st.2

/-- `Maze.solve_dfs`. -/
def Maze.solve_dfs (m : Maze) : List (ℤ × ℤ) :=
  (dfsLoop m (searchFuel m) [(m.start, [m.start])] {m.start}).getD []

/-- The A* heuristic `abs(a[0] - b[0]) + abs(a[1] - b[1])`; its value on
integer points is a natural number. -/
def heuristic (a b : ℤ × ℤ) : ℕ :=
  (a.1 - b.1).natAbs + (a.2 - b.2).natAbs

/-- The mutable state of `Maze.solve_astar`: the heap contents and the
three dictionaries (as finitely-supported option-valued maps). -/
structure AStarState where
  open_set : List (ℕ × (ℤ × ℤ))
  came_from : (ℤ × ℤ) → Option (ℤ × ℤ)
  g_score : (ℤ × ℤ) → Option ℕ
  f_score : (ℤ × ℤ) → Option ℕ

/-- The strict order in which `heapq` compares its `(f, (x, y))` entries:
lexicographic tuple comparison. -/
def keyLt (a b : ℕ × (ℤ × ℤ)) : Prop :=
  a.1 < b.1 ∨ (a.1 = b.1 ∧ (a.2.1 < b.2.1 ∨ (a.2.1 = b.2.1 ∧ a.2.2 < b.2.2)))

instance (a b : ℕ × (ℤ × ℤ)) : Decidable (keyLt a b) :=
  inferInstanceAs (Decidable (a.1 < b.1 ∨ (a.1 = b.1 ∧ (a.2.1 < b.2.1 ∨
    (a.2.1 = b.2.1 ∧ a.2.2 < b.2.2)))))

/-- The least entry of a nonempty heap (what `heapq.heappop` returns;
entries that compare equal are identical tuples here, so popping any one of
them is observationally the same). -/
def findMin : List (ℕ × (ℤ × ℤ)) → Option (ℕ × (ℤ × ℤ))
  | [] => none
  | e :: es => some (es.foldl (fun acc x => if keyLt x acc then x else acc) e)

/-- `heapq.heappop`: the least entry together with the remaining heap. -/
def popMin (l : List (ℕ × (ℤ × ℤ))) :
    Option ((ℕ × (ℤ × ℤ)) × List (ℕ × (ℤ × ℤ))) :=
  (findMin l).map fun e => (e, l.erase e)

/-- The body of the `for neighbor in ...` relaxation loop of
`Maze.solve_astar`. -/
def relaxNeighbor (m : Maze) (current : ℤ × ℤ) (st : AStarState)
    (nb : ℤ × ℤ) : AStarState :=
  let tentative := (st.g_score current).getD 0 + 1
  let improves : Bool :=
    match st.g_score nb with
    | none => true
    | some gn => decide (tentative < gn)
  if improves then
    let fnew := tentative + heuristic nb m.end_
    { open_set := (fnew, nb) :: st.open_set,
      came_from := fun p => if p = nb then some current else st.came_from p,
      g_score := fun p => if p = nb then some tentative else st.g_score p,
      f_score := fun p => if p = nb then some fnew else st.f_score p }
  else st

/-- The `while current in came_from:` path-reconstruction loop: collect the
predecessor chain, append the start cell, reverse. -/
def reconstructPath (came_from : (ℤ × ℤ) → Option (ℤ × ℤ)) (start : ℤ × ℤ) :
    ℕ → (ℤ × ℤ) → List (ℤ × ℤ) → Option (List (ℤ × ℤ))
  | 0, current, path =>
    match came_from current with
    | none => some ((path ++ [start]).reverse)
    | some _ => none
  | fuel + 1, current, path =>
    match came_from current with
    | none => some ((path ++ [start]).reverse)
    | some prev => reconstructPath came_from start fuel prev (path ++ [current])

/-- Fuel sufficient for the reconstruction loop: the predecessor chain
visits pairwise distinct in-grid cells. -/
def reconFuel (m : Maze) : ℕ := m.width.toNat * m.height.toNat + 1

/-- The `while open_set:` loop of `Maze.solve_astar`. -/
def astarLoop (m : Maze) : ℕ → AStarState → Option (List (ℤ × ℤ))
  | 0, _ => none
  | fuel + 1, st =>
    match popMin st.open_set with
    | none => some []
    | some (entry, rest) =>
      let current := entry.2
      if current = m.end_ then
        reconstructPath st.came_from m.start (reconFuel m) current []
      else
        astarLoop m fuel
          ((m._get_connected_neighbors current.1 current.2).foldl
            (relaxNeighbor m current) { st with open_set := rest })

/-- The initial A* state: `heappush(open_set, (0, start))`,
`g_score = {start: 0}`, `f_score = {start: h(start, end)}`. -/
def astarInit (m : Maze) : AStarState :=
  { open_set := [(0, m.start)],
    came_from := fun _ => none,
    g_score := fun p => if p = m.start then some 0 else none,
    f_score := fun p => if p = m.start then some (heuristic m.start m.end_) else none }

/-- Fuel sufficient for the A* loop (proved below): every g-score write
strictly decreases a potential bounded by `cells²`. -/
def astarFuel (m : Maze) : ℕ :=
  m.width.toNat * m.height.toNat * (m.width.toNat * m.height.toNat) + 2

/-- `Maze.solve_astar`. -/
def Maze.solve_astar (m : Maze) : List (ℤ × ℤ) :=
  (astarLoop m (astarFuel m) (astarInit m)).getD []

/-! ## Specification-side notions -/

/-- Membership in the `[0, w) × [0, h)` grid. -/
def InB (width height : ℤ) (p : ℤ × ℤ) : Prop :=
  0 ≤ p.1 ∧ p.1 < width ∧ 0 ≤ p.2 ∧ p.2 < height

instance (w h : ℤ) (p : ℤ × ℤ) : Decidable (InB w h p) :=
  inferInstanceAs (Decidable (0 ≤ p.1 ∧ p.1 < w ∧ 0 ≤ p.2 ∧ p.2 < h))

/-- Membership in a maze's grid. -/
def inGrid (m : Maze) (p : ℤ × ℤ) : Prop :=
  InB m.width m.height p

instance (m : Maze) (p : ℤ × ℤ) : Decidable (inGrid m p) :=
  inferInstanceAs (Decidable (InB m.width m.height p))

/-- The finite set of grid coordinates. -/
def gridFinset (m : Maze) : Finset (ℤ × ℤ) :=
  Finset.Ico 0 m.width ×ˢ Finset.Ico 0 m.height

/-- The number of cells. -/
def gridN (m : Maze) : ℕ := m.width.toNat * m.height.toNat

/-- The cell array has the advertised `width × height` ragged shape. -/
def DimsCells (cells : List (List Cell)) (width height : ℤ) : Prop :=
  cells.length = width.toNat ∧ ∀ col ∈ cells, col.length = height.toNat

/-- Structural well-formedness of a maze value: positive dimensions, a
matching cell array, and the corner start/end cells of the source. -/
def WF (m : Maze) : Prop :=
  1 ≤ m.width ∧ 1 ≤ m.height ∧ DimsCells m.cells m.width m.height ∧
    m.start = (0, 0) ∧ m.end_ = (m.width - 1, m.height - 1)

instance (cells : List (List Cell)) (width height : ℤ) :
    Decidable (DimsCells cells width height) :=
  inferInstanceAs (Decidable (cells.length = width.toNat ∧
    ∀ col ∈ cells, col.length = height.toNat))

instance (m : Maze) : Decidable (WF m) :=
  inferInstanceAs (Decidable (1 ≤ m.width ∧ 1 ≤ m.height ∧
    DimsCells m.cells m.width m.height ∧
    m.start = (0, 0) ∧ m.end_ = (m.width - 1, m.height - 1)))

/-- The directed step relation of the connectivity graph: `b` is offered as
a connected neighbor of `a`. -/
def stepAdj (m : Maze) (a b : ℤ × ℤ) : Prop :=
  b ∈ m._get_connected_neighbors a.1 a.2

instance (m : Maze) (a b : ℤ × ℤ) : Decidable (stepAdj m a b) :=
  inferInstanceAs (Decidable (b ∈ m._get_connected_neighbors a.1 a.2))

/-- `p` is a path of the connectivity graph from `s` to `t`: nonempty,
starting at `s`, ending at `t`, each consecutive pair a connectivity step. -/
def PathFrom (m : Maze) (s t : ℤ × ℤ) (p : List (ℤ × ℤ)) : Prop :=
  p.head? = some s ∧ p.getLast? = some t ∧ p.Chain' (stepAdj m)

instance (m : Maze) (s t : ℤ × ℤ) (p : List (ℤ × ℤ)) :
    Decidable (PathFrom m s t p) :=
  inferInstanceAs (Decidable (p.head? = some s ∧ p.getLast? = some t ∧
    p.Chain' (stepAdj m)))

/-- A path from the maze's start to its end. -/
def ValidPath (m : Maze) (p : List (ℤ × ℤ)) : Prop :=
  PathFrom m m.start m.end_ p

instance (m : Maze) (p : List (ℤ × ℤ)) : Decidable (ValidPath m p) :=
  inferInstanceAs (Decidable (PathFrom m m.start m.end_ p))

/-- The end cell is reachable from the start cell. -/
def ReachesEnd (m : Maze) : Prop :=
  ∃ p, ValidPath m p

/-- `p` is a shortest start-to-end path of the connectivity graph. -/
def IsShortestPath (m : Maze) (p : List (ℤ × ℤ)) : Prop :=
  ValidPath m p ∧ ∀ q, ValidPath m q → p.length ≤ q.length

/-! ## Basic facts about the list primitives -/

theorem pyIndexNat_inb {n : ℕ} {i : ℤ} (h0 : 0 ≤ i) (h1 : i < (n : ℤ)) :
    pyIndexNat n i = some i.toNat := by
  have hneg : ¬ i < 0 := by omega
  simp only [pyIndexNat, if_neg hneg]
  rw [if_pos ⟨h0, h1⟩]

theorem pyGet_inb {α : Type _} (l : List α) {i : ℤ} (h0 : 0 ≤ i)
    (h1 : i < (l.length : ℤ)) : pyGet l i = l.get? i.toNat := by
  unfold pyGet
  rw [pyIndexNat_inb h0 h1]
  rfl

theorem listModify_length {α : Type _} (f : α → α) :
    ∀ (j : ℕ) (l : List α), (listModify f j l).length = l.length := by
  intro j l
  induction l generalizing j with
  | nil => cases j <;> rfl
  | cons a as ih => cases j with
    | zero => rfl
    | succ n => simp [listModify, ih]

theorem listModify_get?_self {α : Type _} (f : α → α) :
    ∀ (j : ℕ) (l : List α), (listModify f j l).get? j = (l.get? j).map f := by
  intro j l
  induction l generalizing j with
  | nil => cases j <;> rfl
  | cons a as ih => cases j with
    | zero => rfl
    | succ n => simpa [listModify] using ih n

theorem listModify_get?_ne {α : Type _} (f : α → α) :
    ∀ (j i : ℕ) (l : List α), i ≠ j → (listModify f j l).get? i = l.get? i := by
  intro j i l
  induction l generalizing i j with
  | nil => intro _; cases j <;> rfl
  | cons a as ih =>
    intro hne
    cases j with
    | zero => cases i with
      | zero => exact absurd rfl hne
      | succ n => rfl
    | succ n => cases i with
      | zero => rfl
      | succ k => simpa [listModify] using ih n k (by omega)

theorem listModify_mem {α : Type _} (f : α → α) :
    ∀ (j : ℕ) (l : List α) (a : α), a ∈ listModify f j l → a ∈ l ∨ ∃ b ∈ l, a = f b := by
  intro j l
  induction l generalizing j with
  | nil => intro a ha; cases j <;> simp [listModify] at ha
  | cons c cs ih =>
    intro a ha
    cases j with
    | zero =>
      simp only [listModify, List.mem_cons] at ha
      rcases ha with h | h
      · exact Or.inr ⟨c, List.mem_cons_self _ _, h⟩
      · exact Or.inl (List.mem_cons_of_mem _ h)
    | succ n =>
      simp only [listModify, List.mem_cons] at ha
      rcases ha with h | h
      · exact Or.inl (h ▸ List.mem_cons_self _ _)
      · rcases ih n a h with h' | ⟨b, hb, hab⟩
        · exact Or.inl (List.mem_cons_of_mem _ h')
        · exact Or.inr ⟨b, List.mem_cons_of_mem _ hb, hab⟩

theorem pyModify_length {α : Type _} (l : List α) (i : ℤ) (f : α → α) :
    (pyModify l i f).length = l.length := by
  unfold pyModify
  cases pyIndexNat l.length i with
  | none => rfl
  | some j => simp [listModify_length]

theorem pyModify_inb {α : Type _} (l : List α) {i : ℤ} (f : α → α) (h0 : 0 ≤ i)
    (h1 : i < (l.length : ℤ)) : pyModify l i f = listModify f i.toNat l := by
  unfold pyModify
  rw [pyIndexNat_inb h0 h1]

theorem pyModify_mem {α : Type _} (l : List α) (i : ℤ) (f : α → α) (a : α)
    (ha : a ∈ pyModify l i f) : a ∈ l ∨ ∃ b ∈ l, a = f b := by
  unfold pyModify at ha
  cases hidx : pyIndexNat l.length i with
  | none => rw [hidx] at ha; exact Or.inl ha
  | some j => rw [hidx] at ha; exact listModify_mem f j l a ha

theorem dimsCells_pyModify (cells : List (List Cell)) {w h : ℤ}
    (hd : DimsCells cells w h) (i : ℤ) {f : Cell → Cell} (j : ℤ) :
    DimsCells (pyModify cells i fun col => pyModify col j f) w h := by
  obtain ⟨hlen, hcols⟩ := hd
  constructor
  · rw [pyModify_length, hlen]
  · intro col hcol
    rcases pyModify_mem _ _ _ _ hcol with hmem | ⟨b, hb, rfl⟩
    · exact hcols col hmem
    · rw [pyModify_length]
      exact hcols b hb

/-! ## Facts about the grid built by the constructor -/

theorem initCells_dims (w h : ℤ) : DimsCells (initCells w h) w h := by
  constructor
  · unfold initCells
    rw [List.length_map, List.length_range]
  · intro col hcol
    unfold initCells at hcol
    rw [List.mem_map] at hcol
    obtain ⟨x, _, rfl⟩ := hcol
    rw [List.length_map, List.length_range]

theorem get?_of_lt_length {α : Type _} (l : List α) {n : ℕ} (h : n < l.length) :
    ∃ a, l.get? n = some a := by
  cases hg : l.get? n with
  | none => exact absurd (List.get?_eq_none.mp hg) (by omega)
  | some a => exact ⟨a, rfl⟩

theorem cellAt_inb_get {cells : List (List Cell)} {w h : ℤ}
    (hd : DimsCells cells w h) {x y : ℤ} (hx0 : 0 ≤ x) (hxw : x < w)
    (hy0 : 0 ≤ y) (hyh : y < h) :
    ∃ col c, cells.get? x.toNat = some col ∧ col.length = h.toNat ∧
      col.get? y.toNat = some c ∧ cellAt cells x y = c := by
  obtain ⟨hlen, hcols⟩ := hd
  have hxl : x < (cells.length : ℤ) := by rw [hlen]; omega
  obtain ⟨col, hcolEq⟩ := get?_of_lt_length cells (n := x.toNat) (by omega)
  have hmem : col ∈ cells := List.get?_mem hcolEq
  have hcl : col.length = h.toNat := hcols col hmem
  obtain ⟨c, hcEq⟩ := get?_of_lt_length col (n := y.toNat) (by omega)
  refine ⟨col, c, hcolEq, hcl, hcEq, ?_⟩
  unfold cellAt
  rw [pyGet_inb _ hx0 hxl, hcolEq]
  have hyl : y < (col.length : ℤ) := by rw [hcl]; omega
  simp only [Option.some_bind]
  rw [pyGet_inb _ hy0 hyl, hcEq]
  rfl

/-- Reading the modified cell back. -/
theorem cellAt_modify_self {cells : List (List Cell)} {w h : ℤ}
    (hd : DimsCells cells w h) {x y : ℤ} (f : Cell → Cell) (hx0 : 0 ≤ x)
    (hxw : x < w) (hy0 : 0 ≤ y) (hyh : y < h) :
    cellAt (pyModify cells x fun col => pyModify col y f) x y
      = f (cellAt cells x y) := by
  have hd' := dimsCells_pyModify cells hd x (f := f) y
  obtain ⟨col, c, hcolEq, hcl, hcEq, hca⟩ := cellAt_inb_get hd hx0 hxw hy0 hyh
  obtain ⟨col', c', hcolEq', hcl', hcEq', hca'⟩ := cellAt_inb_get hd' hx0 hxw hy0 hyh
  have hxl : x < (cells.length : ℤ) := by rw [hd.1]; omega
  rw [pyModify_inb _ _ hx0 hxl, listModify_get?_self, hcolEq,
    Option.map_some'] at hcolEq'
  injection hcolEq' with hcol'
  subst hcol'
  have hyl : y < (col.length : ℤ) := by rw [hcl]; omega
  rw [pyModify_inb _ _ hy0 hyl, listModify_get?_self, hcEq,
    Option.map_some'] at hcEq'
  injection hcEq' with hc'
  rw [hca', hca, hc']

/-- Reading an untouched in-grid cell after a modification. -/
theorem cellAt_modify_ne {cells : List (List Cell)} {w h : ℤ}
    (hd : DimsCells cells w h) {x y x' y' : ℤ} (f : Cell → Cell)
    (hx0 : 0 ≤ x) (hxw : x < w) (hy0 : 0 ≤ y) (hyh : y < h)
    (hx0' : 0 ≤ x') (hxw' : x' < w) (hy0' : 0 ≤ y') (hyh' : y' < h)
    (hne : (x', y') ≠ (x, y)) :
    cellAt (pyModify cells x fun col => pyModify col y f) x' y'
      = cellAt cells x' y' := by
  have hd' := dimsCells_pyModify cells hd x (f := f) y
  obtain ⟨col, c, hcolEq, hcl, hcEq, hca⟩ := cellAt_inb_get hd hx0' hxw' hy0' hyh'
  obtain ⟨col', c', hcolEq', hcl', hcEq', hca'⟩ := cellAt_inb_get hd' hx0' hxw' hy0' hyh'
  have hxl : x < (cells.length : ℤ) := by rw [hd.1]; omega
  rw [hca, hca']
  rw [pyModify_inb _ _ hx0 hxl] at hcolEq'
  by_cases hxx : x' = x
  · subst hxx
    rw [listModify_get?_self, hcolEq, Option.map_some'] at hcolEq'
    injection hcolEq' with hcol'
    subst hcol'
    have hyy : y'.toNat ≠ y.toNat := by
      have : y' ≠ y := fun hy => hne (by rw [hy])
      omega
    have hyl : y < (col.length : ℤ) := by rw [hcl]; omega
    rw [pyModify_inb _ _ hy0 hyl, listModify_get?_ne _ _ _ _ hyy, hcEq] at hcEq'
    injection hcEq' with hc'
    rw [hc']
  · have hxx' : x'.toNat ≠ x.toNat := by
      have : x' ≠ x := hxx
      omega
    rw [listModify_get?_ne _ _ _ _ hxx', hcolEq] at hcolEq'
    injection hcolEq' with hcol'
    subst hcol'
    rw [hcEq] at hcEq'
    injection hcEq' with hc'
    rw [hc']

/-! ## Claim C7: construction fails fast on non-positive dimensions -/

/-- Claim C7: for every `width ≤ 0` or `height ≤ 0`, construction fails
(Python raises `IndexError` at `self.cells[0][0].visited = True`), and no
maze value is produced. -/
theorem construction_fails_on_nonpositive_dims (w h cs : ℤ) (rand : ℕ → ℕ)
    (hwh : w ≤ 0 ∨ h ≤ 0) : mazeInit w h cs rand = none := by
  have hset : pySetCell (initCells w h) 0 0 (fun c => { c with visited := true })
      = none := by
    unfold pySetCell
    by_cases hw : w ≤ 0
    · have hlen : (initCells w h).length = 0 := by
        rw [(initCells_dims w h).1]; omega
      have hg : pyGet (initCells w h) 0 = none := by
        unfold pyGet pyIndexNat
        rw [hlen]
        norm_num
      rw [hg]
    · have hh : h ≤ 0 := by tauto
      have hlen : 0 < (initCells w h).length := by
        rw [(initCells_dims w h).1]; omega
      obtain ⟨col, hcol⟩ := get?_of_lt_length (initCells w h) hlen
      have hcollen : col.length = 0 := by
        have := (initCells_dims w h).2 col (List.get?_mem hcol)
        omega
      have h1 : pyGet (initCells w h) 0 = some col := by
        rw [pyGet_inb _ le_rfl (by exact_mod_cast hlen)]
        exact hcol
      have h2 : pyGet col 0 = none := by
        unfold pyGet pyIndexNat
        rw [hcollen]
        norm_num
      simp only [h1, h2]
  simp only [mazeInit]
  rw [hset]

/-! ## Claim C8: all three solvers return `[start]` when start = end -/

/-- Claim C8: when the start and end cells coincide (as in the degenerate
1×1 maze), BFS, DFS and A* each return the single-element path `[start]`. -/
theorem solvers_singleton_when_start_eq_end (m : Maze) (he : m.start = m.end_) :
    m.solve_bfs = [m.start] ∧ m.solve_dfs = [m.start] ∧ m.solve_astar = [m.start] := by
  rcases hm : m.start with ⟨sx, sy⟩
  rw [hm] at he
  refine ⟨?_, ?_, ?_⟩
  · unfold Maze.solve_bfs searchFuel
    rw [hm, bfsLoop, if_pos he]
    rfl
  · unfold Maze.solve_dfs searchFuel
    rw [hm, dfsLoop, if_pos he]
    rfl
  · unfold Maze.solve_astar astarFuel astarInit
    rw [hm]
    rw [show m.width.toNat * m.height.toNat * (m.width.toNat * m.height.toNat) + 2
        = (m.width.toNat * m.height.toNat * (m.width.toNat * m.height.toNat) + 1) + 1
        from rfl]
    rw [astarLoop]
    simp only [popMin, findMin, List.foldl_nil, Option.map_some', List.erase_cons_head]
    rw [if_pos he]
    simp [reconstructPath, reconFuel, hm]

/-- Witness for C7 at the concrete input `width = 0, height = 5`. -/
theorem construction_fails_on_nonpositive_dims_witness :
    mazeInit 0 5 20 (fun _ => 0) = none :=
  construction_fails_on_nonpositive_dims 0 5 20 (fun _ => 0) (Or.inl (by decide))

/-- A concrete degenerate 1×1 maze value (its start and end coincide). -/
def unitMaze : Maze :=
  { width := 1, height := 1, cell_size := 20,
    cells := [[Cell.init 0 0]], start := (0, 0), end_ := (0, 0) }

/-- Witness for C8 on the concrete 1×1 maze. -/
theorem solvers_singleton_when_start_eq_end_witness :
    unitMaze.solve_bfs = [unitMaze.start] ∧ unitMaze.solve_dfs = [unitMaze.start] ∧
      unitMaze.solve_astar = [unitMaze.start] :=
  solvers_singleton_when_start_eq_end unitMaze (by decide)

/-! ## Claim C6: the constructor takes no random source -/

/-- Claim C6 (code_bug evidence): `Maze.__init__(width, height, cell_size)`
exposes no seed or random-source parameter; generation draws from the
ambient `random` module, so two constructions with identical constructor
arguments (`2, 2, 20`) can produce different wall layouts depending on the
ambient draw sequence — here the south wall of cell `(0, 0)` differs. -/
theorem ambient_randomness_changes_layout :
    (mazeInit 2 2 20 fun _ => 0).map (fun m => (cellAt m.cells 0 0).has_wall .south)
      = some false ∧
    (mazeInit 2 2 20 fun _ => 1).map (fun m => (cellAt m.cells 0 0).has_wall .south)
      = some true := by
  constructor
  · decide
  · decide

/-! ## Generation: invariants of the carving loop -/

/-- Direction facts. -/
theorem Direction.ofValue_value (d : Direction) : Direction.ofValue d.value = some d := by
  cases d <;> decide

theorem Direction.opposite_opposite (d : Direction) : d.opposite.opposite = d := by
  cases d <;> rfl

theorem Direction.value_opposite (d : Direction) :
    d.opposite.value = (-d.value.1, -d.value.2) := by
  cases d <;> rfl

/-- Move one step from `p` in direction `d`. -/
def padd (p : ℤ × ℤ) (d : Direction) : ℤ × ℤ :=
  (p.1 + d.value.1, p.2 + d.value.2)

theorem padd_padd_opposite (p : ℤ × ℤ) (d : Direction) :
    padd (padd p d) d.opposite = p := by
  obtain ⟨a, b⟩ := p
  cases d <;> simp [padd, Direction.value, Direction.opposite]

theorem padd_ne (p : ℤ × ℤ) (d : Direction) : padd p d ≠ p := by
  obtain ⟨a, b⟩ := p
  cases d <;> simp [padd, Direction.value]

/-- The generation-time `visited` flag of the cell at `p`. -/
def visitedAt (cells : List (List Cell)) (p : ℤ × ℤ) : Bool :=
  (cellAt cells p.1 p.2).visited

/-- The wall flag of the cell at `p` toward `d`. -/
def wallAt (cells : List (List Cell)) (p : ℤ × ℤ) (d : Direction) : Bool :=
  (cellAt cells p.1 p.2).walls d

/-- One directed traversable step of the carved (in-progress) grid. -/
def carveStep (w h : ℤ) (cells : List (List Cell)) (a b : ℤ × ℤ) : Prop :=
  InB w h a ∧ InB w h b ∧ ∃ d : Direction, b = padd a d ∧ wallAt cells a d = false

/-- The grid rectangle as a finite set. -/
def gridF (w h : ℤ) : Finset (ℤ × ℤ) :=
  Finset.Ico 0 w ×ˢ Finset.Ico 0 h

theorem mem_gridF {w h : ℤ} {p : ℤ × ℤ} : p ∈ gridF w h ↔ InB w h p := by
  obtain ⟨a, b⟩ := p
  simp [gridF, InB, Finset.mem_product, and_assoc]

theorem card_gridF {w h : ℤ} : (gridF w h).card = w.toNat * h.toNat := by
  simp [gridF, Finset.card_product, Int.card_Ico]

/-- The visited cells. -/
def visitedF (w h : ℤ) (cells : List (List Cell)) : Finset (ℤ × ℤ) :=
  (gridF w h).filter fun p => visitedAt cells p = true

/-- The removed directed wall slots. -/
def removedF (w h : ℤ) (cells : List (List Cell)) : Finset ((ℤ × ℤ) × Direction) :=
  ((gridF w h) ×ˢ (Finset.univ : Finset Direction)).filter
    fun pd => wallAt cells pd.1 pd.2 = false

/-- Acyclicity certificate: an injective age over the visited cells under
which every carved wall-pair is the unique "parent" edge of its younger
endpoint. -/
def GenCert (w h : ℤ) (cells : List (List Cell)) : Prop :=
  ∃ (B : ℕ) (ord : (ℤ × ℤ) → ℕ) (par : (ℤ × ℤ) → (ℤ × ℤ)),
    (∀ p, InB w h p → visitedAt cells p = true → ord p < B) ∧
    (∀ p q, InB w h p → visitedAt cells p = true → InB w h q →
      visitedAt cells q = true → ord p = ord q → p = q) ∧
    (∀ p, InB w h p → ∀ d, wallAt cells p d = false →
      (p ≠ (0, 0) ∧ par p = padd p d ∧ ord (padd p d) < ord p) ∨
      (padd p d ≠ (0, 0) ∧ par (padd p d) = p ∧ ord p < ord (padd p d)))

/-- The loop invariant of `Maze._generate_maze`. -/
structure GenInv (w h : ℤ) (cells : List (List Cell)) (stack : List (ℤ × ℤ)) : Prop where
  dims : DimsCells cells w h
  stack_inb : ∀ p ∈ stack, InB w h p
  stack_vis : ∀ p ∈ stack, visitedAt cells p = true
  root_vis : visitedAt cells (0, 0) = true
  wall_side : ∀ p, InB w h p → ∀ d, wallAt cells p d = false →
    InB w h (padd p d) ∧ visitedAt cells p = true ∧ visitedAt cells (padd p d) = true ∧
      wallAt cells (padd p d) d.opposite = false
  count : (removedF w h cells).card = 2 * ((visitedF w h cells).card - 1)
  reach : ∀ p, InB w h p → visitedAt cells p = true →
    Relation.ReflTransGen (carveStep w h cells) (0, 0) p
  closed : ∀ p, InB w h p → visitedAt cells p = true → p ∉ stack →
    ∀ n ∈ get_neighbors w h p.1 p.2, visitedAt cells n = true
  cert : GenCert w h cells
  no_marks : ∀ p, InB w h p →
    (cellAt cells p.1 p.2).is_start = false ∧ (cellAt cells p.1 p.2).is_end = false

/-- Membership in `_get_neighbors`: the in-grid cells one unit step away. -/
theorem mem_get_neighbors {w h x y : ℤ} {c : ℤ × ℤ} :
    c ∈ get_neighbors w h x y ↔ InB w h c ∧ ∃ d : Direction, c = padd (x, y) d := by
  constructor
  · intro hc
    simp only [get_neighbors, List.mem_filterMap, List.mem_cons,
      List.mem_singleton] at hc
    obtain ⟨dxy, hmem, hif⟩ := hc
    split at hif
    · next hins =>
      obtain rfl := Option.some_injective _ hif
      refine ⟨⟨hins.1, hins.2.1, hins.2.2.1, hins.2.2.2⟩, ?_⟩
      rcases hmem with rfl | rfl | rfl | rfl | hfalse
      · exact ⟨.south, rfl⟩
      · exact ⟨.east, rfl⟩
      · exact ⟨.north, rfl⟩
      · exact ⟨.west, rfl⟩
      · simp at hfalse
    · exact absurd hif (by simp)
  · rintro ⟨hin, d, rfl⟩
    simp only [get_neighbors, List.mem_filterMap]
    refine ⟨d.value, ?_, ?_⟩
    · cases d <;> simp [Direction.value]
    · rw [if_pos]
      · rfl
      · exact hin

/-- The three in-place updates of one carving step (source lines 95–98):
remove the wall on the current cell, remove the opposite wall on the chosen
neighbor, mark the neighbor visited. -/
def carveCells (cells : List (List Cell)) (x y cx cy : ℤ) (d : Direction) :
    List (List Cell) :=
  let cells1 := pyModify cells x fun col => pyModify col y fun c => c.remove_wall d
  let cells2 := pyModify cells1 cx fun col =>
    pyModify col cy fun c => c.remove_wall d.opposite
  pyModify cells2 cx fun col => pyModify col cy fun c => { c with visited := true }

theorem carve_dims {w h : ℤ} {cells : List (List Cell)}
    (hd : DimsCells cells w h) (x y cx cy : ℤ) (d : Direction) :
    DimsCells (carveCells cells x y cx cy d) w h :=
  dimsCells_pyModify _ (dimsCells_pyModify _ (dimsCells_pyModify _ hd x y) cx cy) cx cy

theorem cellAt_carve_cur {w h : ℤ} {cells : List (List Cell)}
    (hd : DimsCells cells w h) {x y cx cy : ℤ} (d : Direction)
    (hxy : InB w h (x, y)) (hc : InB w h (cx, cy)) (hne : (cx, cy) ≠ (x, y)) :
    cellAt (carveCells cells x y cx cy d) x y = (cellAt cells x y).remove_wall d := by
  obtain ⟨hx0, hxw, hy0, hyh⟩ := hxy
  obtain ⟨hcx0, hcxw, hcy0, hcyh⟩ := hc
  have hd1 := dimsCells_pyModify cells hd (f := fun c => c.remove_wall d) x y
  have hd2 := dimsCells_pyModify _ hd1 (f := fun c => c.remove_wall d.opposite) cx cy
  unfold carveCells
  rw [cellAt_modify_ne hd2 _ hcx0 hcxw hcy0 hcyh hx0 hxw hy0 hyh (Ne.symm hne),
    cellAt_modify_ne hd1 _ hcx0 hcxw hcy0 hcyh hx0 hxw hy0 hyh (Ne.symm hne),
    cellAt_modify_self hd _ hx0 hxw hy0 hyh]

theorem cellAt_carve_chosen {w h : ℤ} {cells : List (List Cell)}
    (hd : DimsCells cells w h) {x y cx cy : ℤ} (d : Direction)
    (hxy : InB w h (x, y)) (hc : InB w h (cx, cy)) (hne : (cx, cy) ≠ (x, y)) :
    cellAt (carveCells cells x y cx cy d) cx cy
      = { (cellAt cells cx cy).remove_wall d.opposite with visited := true } := by
  obtain ⟨hx0, hxw, hy0, hyh⟩ := hxy
  obtain ⟨hcx0, hcxw, hcy0, hcyh⟩ := hc
  have hd1 := dimsCells_pyModify cells hd (f := fun c => c.remove_wall d) x y
  have hd2 := dimsCells_pyModify _ hd1 (f := fun c => c.remove_wall d.opposite) cx cy
  unfold carveCells
  rw [cellAt_modify_self hd2 _ hcx0 hcxw hcy0 hcyh,
    cellAt_modify_self hd1 _ hcx0 hcxw hcy0 hcyh,
    cellAt_modify_ne hd _ hx0 hxw hy0 hyh hcx0 hcxw hcy0 hcyh hne]

theorem cellAt_carve_other {w h : ℤ} {cells : List (List Cell)}
    (hd : DimsCells cells w h) {x y cx cy : ℤ} (d : Direction)
    (hxy : InB w h (x, y)) (hc : InB w h (cx, cy)) {p : ℤ × ℤ}
    (hp : InB w h p) (hp1 : p ≠ (x, y)) (hp2 : p ≠ (cx, cy)) :
    cellAt (carveCells cells x y cx cy d) p.1 p.2 = cellAt cells p.1 p.2 := by
  obtain ⟨hx0, hxw, hy0, hyh⟩ := hxy
  obtain ⟨hcx0, hcxw, hcy0, hcyh⟩ := hc
  obtain ⟨hp0, hpw, hq0, hqh⟩ := hp
  have hne1 : (p.1, p.2) ≠ (x, y) := by simpa using hp1
  have hne2 : (p.1, p.2) ≠ (cx, cy) := by simpa using hp2
  have hd1 := dimsCells_pyModify cells hd (f := fun c => c.remove_wall d) x y
  have hd2 := dimsCells_pyModify _ hd1 (f := fun c => c.remove_wall d.opposite) cx cy
  unfold carveCells
  rw [cellAt_modify_ne hd2 _ hcx0 hcxw hcy0 hcyh hp0 hpw hq0 hqh hne2,
    cellAt_modify_ne hd1 _ hcx0 hcxw hcy0 hcyh hp0 hpw hq0 hqh hne2,
    cellAt_modify_ne hd _ hx0 hxw hy0 hyh hp0 hpw hq0 hqh hne1]

theorem visitedAt_carve {w h : ℤ} {cells : List (List Cell)}
    (hd : DimsCells cells w h) {x y cx cy : ℤ} (d : Direction)
    (hxy : InB w h (x, y)) (hc : InB w h (cx, cy)) (hne : (cx, cy) ≠ (x, y))
    {p : ℤ × ℤ} (hp : InB w h p) :
    visitedAt (carveCells cells x y cx cy d) p
      = if p = (cx, cy) then true else visitedAt cells p := by
  by_cases h1 : p = (cx, cy)
  · subst h1
    rw [if_pos rfl]
    unfold visitedAt
    rw [cellAt_carve_chosen hd d hxy hc hne]
  · rw [if_neg h1]
    by_cases h2 : p = (x, y)
    · subst h2
      unfold visitedAt
      rw [cellAt_carve_cur hd d hxy hc hne]
      rfl
    · unfold visitedAt
      rw [cellAt_carve_other hd d hxy hc hp h2 h1]

theorem wallAt_carve {w h : ℤ} {cells : List (List Cell)}
    (hd : DimsCells cells w h) {x y cx cy : ℤ} (d : Direction)
    (hxy : InB w h (x, y)) (hc : InB w h (cx, cy)) (hne : (cx, cy) ≠ (x, y))
    {p : ℤ × ℤ} (hp : InB w h p) (e : Direction) :
    wallAt (carveCells cells x y cx cy d) p e
      = if p = (x, y) ∧ e = d then false
        else if p = (cx, cy) ∧ e = d.opposite then false
        else wallAt cells p e := by
  by_cases h1 : p = (x, y)
  · subst h1
    unfold wallAt
    rw [cellAt_carve_cur hd d hxy hc hne]
    by_cases h2 : e = d
    · subst h2
      rw [if_pos ⟨rfl, rfl⟩]
      simp [Cell.remove_wall]
    · rw [if_neg (by tauto), if_neg (by rintro ⟨hcc, _⟩; exact hne hcc.symm)]
      simp [Cell.remove_wall, h2]
  · by_cases h2 : p = (cx, cy)
    · subst h2
      unfold wallAt
      rw [cellAt_carve_chosen hd d hxy hc hne]
      rw [if_neg (by tauto)]
      by_cases h3 : e = d.opposite
      · subst h3
        rw [if_pos ⟨rfl, rfl⟩]
        simp [Cell.remove_wall]
      · rw [if_neg (by tauto)]
        simp [Cell.remove_wall, h3]
    · rw [if_neg (by tauto), if_neg (by tauto)]
      unfold wallAt
      rw [cellAt_carve_other hd d hxy hc hp h1 h2]

theorem visitedF_carve {w h : ℤ} {cells : List (List Cell)}
    (hd : DimsCells cells w h) {x y cx cy : ℤ} (d : Direction)
    (hxy : InB w h (x, y)) (hc : InB w h (cx, cy)) (hne : (cx, cy) ≠ (x, y)) :
    visitedF w h (carveCells cells x y cx cy d)
      = insert (cx, cy) (visitedF w h cells) := by
  ext p
  simp only [visitedF, Finset.mem_filter, Finset.mem_insert, mem_gridF]
  constructor
  · rintro ⟨hpg, hv⟩
    rw [visitedAt_carve hd d hxy hc hne hpg] at hv
    by_cases hpq : p = (cx, cy)
    · exact Or.inl hpq
    · rw [if_neg hpq] at hv
      exact Or.inr ⟨hpg, hv⟩
  · rintro (rfl | ⟨hpg, hv⟩)
    · exact ⟨hc, by rw [visitedAt_carve hd d hxy hc hne hc, if_pos rfl]⟩
    · refine ⟨hpg, ?_⟩
      rw [visitedAt_carve hd d hxy hc hne hpg]
      split_ifs with hpq
      · rfl
      · exact hv

theorem removedF_carve {w h : ℤ} {cells : List (List Cell)}
    (hd : DimsCells cells w h) {x y cx cy : ℤ} (d : Direction)
    (hxy : InB w h (x, y)) (hc : InB w h (cx, cy)) (hne : (cx, cy) ≠ (x, y)) :
    removedF w h (carveCells cells x y cx cy d)
      = insert ((x, y), d) (insert ((cx, cy), d.opposite) (removedF w h cells)) := by
  ext pe
  obtain ⟨p, e⟩ := pe
  simp only [removedF, Finset.mem_filter, Finset.mem_product, Finset.mem_univ,
    and_true, Finset.mem_insert, mem_gridF, Prod.mk.injEq]
  constructor
  · rintro ⟨hpg, hwf⟩
    rw [wallAt_carve hd d hxy hc hne hpg e] at hwf
    split_ifs at hwf with h1 h2
    · exact Or.inl ⟨h1.1, h1.2⟩
    · exact Or.inr (Or.inl ⟨h2.1, h2.2⟩)
    · exact Or.inr (Or.inr ⟨hpg, hwf⟩)
  · rintro (⟨hp1, hp2⟩ | ⟨hp1, hp2⟩ | ⟨hpg, hwf⟩)
    · rw [hp1, hp2]
      refine ⟨hxy, ?_⟩
      rw [wallAt_carve hd d hxy hc hne hxy d, if_pos ⟨rfl, rfl⟩]
    · rw [hp1, hp2]
      refine ⟨hc, ?_⟩
      rw [wallAt_carve hd d hxy hc hne hc d.opposite,
        if_neg (by rintro ⟨hcc, _⟩; exact hne hcc), if_pos ⟨rfl, rfl⟩]
    · refine ⟨hpg, ?_⟩
      rw [wallAt_carve hd d hxy hc hne hpg e]
      split_ifs with h1 h2
      · rfl
      · rfl
      · exact hwf

theorem carveStep_mono {w h : ℤ} {cells : List (List Cell)}
    (hd : DimsCells cells w h) {x y cx cy : ℤ} (d : Direction)
    (hxy : InB w h (x, y)) (hc : InB w h (cx, cy)) (hne : (cx, cy) ≠ (x, y)) :
    ∀ a b, carveStep w h cells a b
      → carveStep w h (carveCells cells x y cx cy d) a b := by
  rintro a b ⟨ha, hb, e, rfl, hwf⟩
  refine ⟨ha, hb, e, rfl, ?_⟩
  rw [wallAt_carve hd d hxy hc hne ha e]
  split_ifs with h1 h2
  · rfl
  · rfl
  · exact hwf

theorem genInv_carve {w h : ℤ} {cells : List (List Cell)} {x y : ℤ}
    {stk : List (ℤ × ℤ)} (hw : 1 ≤ w) (hh : 1 ≤ h)
    (inv : GenInv w h cells ((x, y) :: stk)) {cx cy : ℤ} {d : Direction}
    (hc : InB w h (cx, cy)) (hq : (cx, cy) = padd (x, y) d)
    (hunvis : visitedAt cells (cx, cy) = false) :
    GenInv w h (carveCells cells x y cx cy d) ((cx, cy) :: (x, y) :: stk) := by
  have hxy : InB w h (x, y) := inv.stack_inb _ (List.mem_cons_self _ _)
  have hne : (cx, cy) ≠ (x, y) := by rw [hq]; exact padd_ne _ _
  have hd := inv.dims
  have hvcur : visitedAt cells (x, y) = true := inv.stack_vis _ (List.mem_cons_self _ _)
  have hq0 : (cx, cy) ≠ ((0 : ℤ), (0 : ℤ)) := by
    intro hz
    rw [hz, inv.root_vis] at hunvis
    exact Bool.noConfusion hunvis
  refine ⟨carve_dims hd x y cx cy d, ?_, ?_, ?_, ?_, ?_, ?_, ?_, ?_, ?_⟩
  · -- stack_inb
    intro p hp
    rcases List.mem_cons.mp hp with rfl | hp'
    · exact hc
    · exact inv.stack_inb _ hp'
  · -- stack_vis
    intro p hp
    have hpin : InB w h p := by
      rcases List.mem_cons.mp hp with rfl | hp'
      · exact hc
      · exact inv.stack_inb _ hp'
    rw [visitedAt_carve hd d hxy hc hne hpin]
    split_ifs with hpq
    · rfl
    · rcases List.mem_cons.mp hp with rfl | hp'
      · exact absurd rfl hpq
      · exact inv.stack_vis _ hp'
  · -- root_vis
    have h00 : InB w h ((0 : ℤ), (0 : ℤ)) := ⟨le_refl 0, by omega, le_refl 0, by omega⟩
    rw [visitedAt_carve hd d hxy hc hne h00, if_neg (Ne.symm hq0)]
    exact inv.root_vis
  · -- wall_side
    intro p hp e hwf
    rw [wallAt_carve hd d hxy hc hne hp e] at hwf
    split_ifs at hwf with h1 h2
    · obtain ⟨hp1, hp2⟩ := h1
      have hpadd : padd p e = (cx, cy) := by rw [hp1, hp2, ← hq]
      refine ⟨hpadd ▸ hc, ?_, ?_, ?_⟩
      · rw [visitedAt_carve hd d hxy hc hne hp,
          if_neg (by rw [hp1]; exact Ne.symm hne), hp1]
        exact hvcur
      · rw [visitedAt_carve hd d hxy hc hne (hpadd ▸ hc), hpadd, if_pos rfl]
      · rw [hpadd, hp2]
        rw [wallAt_carve hd d hxy hc hne hc d.opposite,
          if_neg (by rintro ⟨hcc, _⟩; exact hne hcc), if_pos ⟨rfl, rfl⟩]
    · obtain ⟨hp1, hp2⟩ := h2
      have hpadd : padd p e = (x, y) := by
        rw [hp1, hp2, hq, padd_padd_opposite]
      refine ⟨hpadd ▸ hxy, ?_, ?_, ?_⟩
      · rw [visitedAt_carve hd d hxy hc hne hp, if_pos hp1]
      · rw [visitedAt_carve hd d hxy hc hne (hpadd ▸ hxy), hpadd,
          if_neg (Ne.symm hne)]
        exact hvcur
      · rw [hpadd, hp2, Direction.opposite_opposite]
        rw [wallAt_carve hd d hxy hc hne hxy d, if_pos ⟨rfl, rfl⟩]
    · obtain ⟨hinb', hvp, hvq', hwop⟩ := inv.wall_side p hp e hwf
      refine ⟨hinb', ?_, ?_, ?_⟩
      · rw [visitedAt_carve hd d hxy hc hne hp]
        split_ifs with hpq
        · rfl
        · exact hvp
      · rw [visitedAt_carve hd d hxy hc hne hinb']
        split_ifs with hpq
        · rfl
        · exact hvq'
      · rw [wallAt_carve hd d hxy hc hne hinb' e.opposite]
        split_ifs with ha hb
        · rfl
        · rfl
        · exact hwop
  · -- count
    rw [removedF_carve hd d hxy hc hne, visitedF_carve hd d hxy hc hne]
    have hnm1 : ((x, y), d) ∉ insert ((cx, cy), d.opposite) (removedF w h cells) := by
      simp only [Finset.mem_insert, Prod.mk.injEq, not_or]
      constructor
      · rintro ⟨⟨hxx, hyy⟩, _⟩
        exact hne (by rw [← hxx, ← hyy])
      · intro hmem
        rw [removedF, Finset.mem_filter] at hmem
        obtain ⟨hinb', hvp, hvq', hwop⟩ := inv.wall_side (x, y) hxy d hmem.2
        rw [← hq] at hvq'
        rw [hvq'] at hunvis
        exact Bool.noConfusion hunvis
    have hnm2 : ((cx, cy), d.opposite) ∉ removedF w h cells := by
      intro hmem
      rw [removedF, Finset.mem_filter] at hmem
      obtain ⟨hinb', hvp, hvq', hwop⟩ := inv.wall_side (cx, cy) hc d.opposite hmem.2
      rw [hvp] at hunvis
      exact Bool.noConfusion hunvis
    have hnm3 : (cx, cy) ∉ visitedF w h cells := by
      intro hmem
      rw [visitedF, Finset.mem_filter] at hmem
      rw [hmem.2] at hunvis
      exact Bool.noConfusion hunvis
    rw [Finset.card_insert_of_not_mem hnm1, Finset.card_insert_of_not_mem hnm2,
      Finset.card_insert_of_not_mem hnm3]
    have hroot : ((0 : ℤ), (0 : ℤ)) ∈ visitedF w h cells := by
      rw [visitedF, Finset.mem_filter, mem_gridF]
      exact ⟨⟨le_refl 0, by omega, le_refl 0, by omega⟩, inv.root_vis⟩
    have hpos : 0 < (visitedF w h cells).card := Finset.card_pos.mpr ⟨_, hroot⟩
    have := inv.count
    omega
  · -- reach
    have mono := carveStep_mono hd d hxy hc hne
    intro p hp hv
    rw [visitedAt_carve hd d hxy hc hne hp] at hv
    split_ifs at hv with hpq
    · subst hpq
      have hreach : Relation.ReflTransGen (carveStep w h cells) (0, 0) (x, y) :=
        inv.reach (x, y) hxy hvcur
      refine Relation.ReflTransGen.tail (hreach.mono mono) ?_
      refine ⟨hxy, hc, d, hq, ?_⟩
      rw [wallAt_carve hd d hxy hc hne hxy d, if_pos ⟨rfl, rfl⟩]
    · exact (inv.reach p hp hv).mono mono
  · -- closed
    intro p hp hv hnot n hn
    have hpq : p ≠ (cx, cy) := fun hcc => hnot (hcc ▸ List.mem_cons_self _ _)
    rw [visitedAt_carve hd d hxy hc hne hp, if_neg hpq] at hv
    have hnot' : p ∉ (x, y) :: stk := fun hmem => hnot (List.mem_cons_of_mem _ hmem)
    have hnin : InB w h n := (mem_get_neighbors.mp hn).1
    rw [visitedAt_carve hd d hxy hc hne hnin]
    split_ifs with hnq
    · rfl
    · exact inv.closed p hp hv hnot' n hn
  · -- cert
    obtain ⟨B, ord, par, hB, hinj, hedge⟩ := inv.cert
    refine ⟨B + 1, Function.update ord (cx, cy) B,
      Function.update par (cx, cy) (x, y), ?_, ?_, ?_⟩
    · intro p hp hv
      rw [visitedAt_carve hd d hxy hc hne hp] at hv
      rw [Function.update_apply]
      split_ifs with hpq
      · omega
      · rw [if_neg hpq] at hv
        exact Nat.lt_trans (hB p hp hv) (Nat.lt_succ_self _)
    · intro p p' hp hv hp' hv'
      rw [visitedAt_carve hd d hxy hc hne hp] at hv
      rw [visitedAt_carve hd d hxy hc hne hp'] at hv'
      rw [Function.update_apply, Function.update_apply]
      split_ifs with hpq hpq' hpq'
      · intro _; rw [hpq, hpq']
      · rw [if_neg hpq'] at hv'
        intro hBeq
        exact absurd (hBeq ▸ hB p' hp' hv') (lt_irrefl B)
      · rw [if_neg hpq] at hv
        intro hBeq
        exact absurd (hBeq.symm ▸ hB p hp hv) (lt_irrefl B)
      · rw [if_neg hpq] at hv
        rw [if_neg hpq'] at hv'
        exact hinj p p' hp hv hp' hv'
    · intro p hp e hwf
      rw [wallAt_carve hd d hxy hc hne hp e] at hwf
      split_ifs at hwf with h1 h2
      · obtain ⟨hp1, hp2⟩ := h1
        have hpadd : padd p e = (cx, cy) := by rw [hp1, hp2, ← hq]
        right
        refine ⟨hpadd ▸ hq0, ?_, ?_⟩
        · rw [hpadd, Function.update_apply, if_pos rfl, hp1]
        · rw [hpadd, Function.update_apply, Function.update_apply,
            if_pos rfl, if_neg (by rw [hp1]; exact Ne.symm hne), hp1]
          exact hB (x, y) hxy hvcur
      · obtain ⟨hp1, hp2⟩ := h2
        have hpadd : padd p e = (x, y) := by
          rw [hp1, hp2, hq, padd_padd_opposite]
        left
        refine ⟨by rw [hp1]; exact hq0, ?_, ?_⟩
        · rw [hp1, Function.update_apply, if_pos rfl, ← hp1, hpadd]
        · rw [hpadd, hp1, Function.update_apply, Function.update_apply,
            if_pos rfl, if_neg (Ne.symm hne)]
          exact hB (x, y) hxy hvcur
      · obtain ⟨hinb', hvp, hvq', hwop⟩ := inv.wall_side p hp e hwf
        have hpne : p ≠ (cx, cy) := by
          intro hcc
          rw [hcc] at hvp
          rw [hvp] at hunvis
          exact Bool.noConfusion hunvis
        have hpne' : padd p e ≠ (cx, cy) := by
          intro hcc
          rw [hcc] at hvq'
          rw [hvq'] at hunvis
          exact Bool.noConfusion hunvis
        rcases hedge p hp e hwf with ⟨hz, hpar, hord⟩ | ⟨hz, hpar, hord⟩
        · left
          rw [Function.update_apply, Function.update_apply, Function.update_apply,
            if_neg hpne, if_neg hpne', if_neg hpne]
          exact ⟨hz, hpar, hord⟩
        · right
          rw [Function.update_apply, Function.update_apply, Function.update_apply,
            if_neg hpne', if_neg hpne, if_neg hpne']
          exact ⟨hz, hpar, hord⟩
  · -- no_marks
    intro p hp
    by_cases h1 : p = (x, y)
    · have hcell : cellAt (carveCells cells x y cx cy d) p.1 p.2
          = (cellAt cells x y).remove_wall d := by
        rw [h1]; exact cellAt_carve_cur hd d hxy hc hne
      rw [hcell]
      have hm := inv.no_marks p hp
      rw [h1] at hm
      exact hm
    · by_cases h2 : p = (cx, cy)
      · have hcell : cellAt (carveCells cells x y cx cy d) p.1 p.2
            = { (cellAt cells cx cy).remove_wall d.opposite with visited := true } := by
          rw [h2]; exact cellAt_carve_chosen hd d hxy hc hne
        rw [hcell]
        have hm := inv.no_marks p hp
        rw [h2] at hm
        exact hm
      · rw [cellAt_carve_other hd d hxy hc hp h1 h2]
        exact inv.no_marks p hp

theorem genInv_pop {w h : ℤ} {cells : List (List Cell)} {x y : ℤ}
    {stk : List (ℤ × ℤ)} (inv : GenInv w h cells ((x, y) :: stk))
    (hnb : (get_neighbors w h x y).filter
      (fun c => !(cellAt cells c.1 c.2).visited) = []) :
    GenInv w h cells stk := by
  have hall : ∀ n ∈ get_neighbors w h x y, visitedAt cells n = true := by
    intro n hn
    have := List.filter_eq_nil_iff.mp hnb n hn
    unfold visitedAt
    simpa using this
  refine ⟨inv.dims, fun p hp => inv.stack_inb _ (List.mem_cons_of_mem _ hp),
    fun p hp => inv.stack_vis _ (List.mem_cons_of_mem _ hp), inv.root_vis,
    inv.wall_side, inv.count, inv.reach, ?_, inv.cert, inv.no_marks⟩
  intro p hp hv hnot n hn
  by_cases hpxy : p = (x, y)
  · refine hall n ?_
    rw [hpxy] at hn
    exact hn
  · refine inv.closed p hp hv ?_ n hn
    intro hmem
    rcases List.mem_cons.mp hmem with h' | h'
    · exact hpxy h'
    · exact hnot h'

theorem cellAt_initCells {w h : ℤ} {x y : ℤ} (hx0 : 0 ≤ x) (hxw : x < w)
    (hy0 : 0 ≤ y) (hyh : y < h) : cellAt (initCells w h) x y = Cell.init x y := by
  obtain ⟨col, c, hcolEq, hcl, hcEq, hca⟩ :=
    cellAt_inb_get (initCells_dims w h) hx0 hxw hy0 hyh
  rw [hca]
  unfold initCells at hcolEq
  rw [List.get?_map] at hcolEq
  rw [List.get?_range (by omega : x.toNat < w.toNat)] at hcolEq
  simp only [Option.map_some'] at hcolEq
  injection hcolEq with hcol
  rw [← hcol] at hcEq
  rw [List.get?_map, List.get?_range (by omega : y.toNat < h.toNat)] at hcEq
  simp only [Option.map_some'] at hcEq
  injection hcEq with hcell
  rw [← hcell]
  have hx : (Int.ofNat x.toNat) = x := by
    rw [Int.ofNat_eq_natCast]
    exact Int.toNat_of_nonneg hx0
  have hy : (Int.ofNat y.toNat) = y := by
    rw [Int.ofNat_eq_natCast]
    exact Int.toNat_of_nonneg hy0
  rw [hx, hy]

/-- The state immediately before the carving loop: the fresh grid with the
start cell marked visited, and `[(0, 0)]` on the stack. -/
theorem genInv_init {w h : ℤ} (hw : 1 ≤ w) (hh : 1 ≤ h) :
    GenInv w h
      (pyModify (initCells w h) 0 fun col =>
        pyModify col 0 fun c => { c with visited := true })
      [((0 : ℤ), (0 : ℤ))] := by
  have hd0 := initCells_dims w h
  have h00 : InB w h ((0 : ℤ), (0 : ℤ)) := ⟨le_refl 0, by omega, le_refl 0, by omega⟩
  have hd1 := dimsCells_pyModify _ hd0 (f := fun c => { c with visited := true }) 0 0
  have hcell : ∀ p : ℤ × ℤ, InB w h p →
      cellAt (pyModify (initCells w h) 0 fun col =>
        pyModify col 0 fun c => { c with visited := true }) p.1 p.2
        = (if p = (0, 0) then { Cell.init 0 0 with visited := true }
           else Cell.init p.1 p.2) := by
    intro p hp
    obtain ⟨hp0, hpw, hp1, hph⟩ := hp
    by_cases hpz : p = (0, 0)
    · rw [if_pos hpz]
      obtain ⟨a, b⟩ := p
      injection hpz with ha hb
      subst ha
      subst hb
      rw [cellAt_modify_self hd0 _ (le_refl 0) (by omega) (le_refl 0) (by omega)]
      rw [cellAt_initCells (le_refl 0) (by omega) (le_refl 0) (by omega)]
    · rw [if_neg hpz]
      have hne : (p.1, p.2) ≠ ((0 : ℤ), (0 : ℤ)) := by
        intro hcc
        exact hpz (by obtain ⟨a, b⟩ := p; exact hcc)
      rw [cellAt_modify_ne hd0 _ (le_refl 0) (by omega) (le_refl 0) (by omega)
        hp0 hpw hp1 hph hne]
      exact cellAt_initCells hp0 hpw hp1 hph
  have hvis : ∀ p : ℤ × ℤ, InB w h p →
      visitedAt (pyModify (initCells w h) 0 fun col =>
        pyModify col 0 fun c => { c with visited := true }) p
        = decide (p = (0, 0)) := by
    intro p hp
    unfold visitedAt
    rw [hcell p hp]
    by_cases hpz : p = (0, 0)
    · rw [if_pos hpz, decide_eq_true hpz]
    · rw [if_neg hpz]
      show false = decide (p = (0, 0))
      rw [decide_eq_false hpz]
  have hwall : ∀ (p : ℤ × ℤ), InB w h p → ∀ e : Direction,
      wallAt (pyModify (initCells w h) 0 fun col =>
        pyModify col 0 fun c => { c with visited := true }) p e = true := by
    intro p hp e
    unfold wallAt
    rw [hcell p hp]
    split_ifs <;> simp [Cell.init]
  refine ⟨hd1, ?_, ?_, ?_, ?_, ?_, ?_, ?_, ?_, ?_⟩
  · intro p hp
    rcases List.mem_singleton.mp hp with rfl
    exact h00
  · intro p hp
    rcases List.mem_singleton.mp hp with rfl
    rw [hvis _ h00]
    simp
  · rw [hvis _ h00]
    simp
  · intro p hp e hwf
    rw [hwall p hp e] at hwf
    exact Bool.noConfusion hwf
  · have hrem : removedF w h (pyModify (initCells w h) 0 fun col =>
        pyModify col 0 fun c => { c with visited := true }) = ∅ := by
      rw [Finset.eq_empty_iff_forall_not_mem]
      rintro ⟨p, e⟩ hmem
      rw [removedF, Finset.mem_filter, Finset.mem_product, mem_gridF] at hmem
      obtain ⟨⟨hpg, _⟩, hwf⟩ := hmem
      rw [hwall p hpg e] at hwf
      exact Bool.noConfusion hwf
    have hvf : visitedF w h (pyModify (initCells w h) 0 fun col =>
        pyModify col 0 fun c => { c with visited := true }) = {((0 : ℤ), (0 : ℤ))} := by
      ext p
      rw [visitedF, Finset.mem_filter, mem_gridF, Finset.mem_singleton]
      constructor
      · rintro ⟨hpg, hv⟩
        rw [hvis p hpg] at hv
        simpa using hv
      · rintro rfl
        refine ⟨h00, ?_⟩
        rw [hvis _ h00]
        simp
    rw [hrem, hvf]
    simp
  · intro p hp hv
    rw [hvis p hp] at hv
    have : p = (0, 0) := by simpa using hv
    rw [this]
  · intro p hp hv hnot n hn
    rw [hvis p hp] at hv
    have : p = (0, 0) := by simpa using hv
    exact absurd (this ▸ List.mem_singleton.mpr rfl) hnot
  · refine ⟨1, fun _ => 0, id, ?_, ?_, ?_⟩
    · intro p hp hv
      exact Nat.zero_lt_one
    · intro p q hp hv hq hv'
      rw [hvis p hp] at hv
      rw [hvis q hq] at hv'
      intro _
      have h1 : p = (0, 0) := by simpa using hv
      have h2 : q = (0, 0) := by simpa using hv'
      rw [h1, h2]
    · intro p hp e hwf
      rw [hwall p hp e] at hwf
      exact Bool.noConfusion hwf
  · intro p hp
    rw [hcell p hp]
    split_ifs <;> simp [Cell.init]

theorem genLoop_run {w h : ℤ} (rand : ℕ → ℕ) (hw : 1 ≤ w) (hh : 1 ≤ h) :
    ∀ (fuel : ℕ) (cells : List (List Cell)) (stack : List (ℤ × ℤ)) (k : ℕ),
      GenInv w h cells stack →
      2 * ((gridF w h).card - (visitedF w h cells).card) + stack.length < fuel →
      ∃ cells2, genLoop w h rand fuel cells stack k = some cells2 ∧
        GenInv w h cells2 [] := by
  intro fuel
  induction fuel with
  | zero =>
    intro cells stack k _ hm
    omega
  | succ fuel ih =>
    intro cells stack k inv hm
    rcases stack with _ | ⟨⟨x, y⟩, stk⟩
    · exact ⟨cells, rfl, inv⟩
    cases hnb : (get_neighbors w h x y).filter
        (fun c => !(cellAt cells c.1 c.2).visited) with
    | nil =>
      have hstep : genLoop w h rand (fuel + 1) cells ((x, y) :: stk) k
          = genLoop w h rand fuel cells stk k := by
        rw [genLoop, hnb]
      rw [hstep]
      refine ih cells stk k (genInv_pop inv hnb) ?_
      simp only [List.length_cons] at hm
      omega
    | cons n0 ns =>
      have hchlt : rand k % (ns.length + 1) < (n0 :: ns).length :=
        Nat.mod_lt _ (Nat.succ_pos _)
      set chosen : ℤ × ℤ := (n0 :: ns).get ⟨rand k % (ns.length + 1), hchlt⟩
        with hchdef
      have hchmem : chosen ∈ (get_neighbors w h x y).filter
          (fun c => !(cellAt cells c.1 c.2).visited) := by
        rw [hnb, hchdef]
        exact List.get_mem _ _ _
      obtain ⟨hmemN, hfilt⟩ := List.mem_filter.mp hchmem
      have hunvis : visitedAt cells chosen = false := by
        unfold visitedAt
        simpa using hfilt
      obtain ⟨hInB, d, hd⟩ := mem_get_neighbors.mp hmemN
      have hdelta : (chosen.1 - x, chosen.2 - y) = d.value := by
        rw [hd]
        cases d <;> simp [padd, Direction.value, Prod.ext_iff]
      have hstep : genLoop w h rand (fuel + 1) cells ((x, y) :: stk) k
          = genLoop w h rand fuel (carveCells cells x y chosen.1 chosen.2 d)
            (chosen :: (x, y) :: stk) (k + 1) := by
        rw [genLoop, hnb]
        dsimp only
        rw [← hchdef, hdelta, Direction.ofValue_value]
        rfl
      rw [hstep]
      have hxy : InB w h (x, y) := inv.stack_inb _ (List.mem_cons_self _ _)
      have hne : (chosen.1, chosen.2) ≠ (x, y) := by
        rw [hd]
        exact padd_ne _ _
      have hvc := @visitedF_carve w h cells inv.dims x y chosen.1 chosen.2 d hxy
        hInB hne
      have hnotmem : chosen ∉ visitedF w h cells := by
        intro hmem
        rw [visitedF, Finset.mem_filter] at hmem
        rw [hmem.2] at hunvis
        exact Bool.noConfusion hunvis
      have hsub : visitedF w h cells ⊆ gridF w h := Finset.filter_subset _ _
      have hins : insert chosen (visitedF w h cells) ⊆ gridF w h := by
        intro q hq
        rcases Finset.mem_insert.mp hq with rfl | hq'
        · exact mem_gridF.mpr hInB
        · exact hsub hq'
      have hcard : (insert chosen (visitedF w h cells)).card ≤ (gridF w h).card :=
        Finset.card_le_card hins
      rw [Finset.card_insert_of_not_mem hnotmem] at hcard
      refine ih _ _ _ (genInv_carve hw hh inv hInB hd hunvis) ?_
      rw [hvc, Finset.card_insert_of_not_mem hnotmem]
      simp only [List.length_cons] at hm ⊢
      omega

theorem pySetCell_inb {cells : List (List Cell)} {w h : ℤ} (hd : DimsCells cells w h)
    {x y : ℤ} (f : Cell → Cell) (hx0 : 0 ≤ x) (hxw : x < w) (hy0 : 0 ≤ y)
    (hyh : y < h) :
    pySetCell cells x y f = some (pyModify cells x fun col => pyModify col y f) := by
  obtain ⟨col, c, hcolEq, hcl, hcEq, hca⟩ := cellAt_inb_get hd hx0 hxw hy0 hyh
  have h1 : pyGet cells x = some col := by
    rw [pyGet_inb _ hx0 (by rw [hd.1]; omega)]
    exact hcolEq
  have h2 : pyGet col y = some c := by
    rw [pyGet_inb _ hy0 (by rw [hcl]; omega)]
    exact hcEq
  unfold pySetCell
  simp only [h1, h2]

set_option maxHeartbeats 2000000 in
/-- The full constructor on positive dimensions: it succeeds, and its result
is the loop's final grid with the two corner markings; the wall and visited
state of the marked grid agrees with the loop's final grid, the invariant
holds there, and the start/end flags are set exactly at the two corners. -/
theorem mazeInit_eq {w h cs : ℤ} (rand : ℕ → ℕ) (hw : 1 ≤ w) (hh : 1 ≤ h) :
    ∃ (m : Maze) (cells2 : List (List Cell)),
      mazeInit w h cs rand = some m ∧
      GenInv w h cells2 [] ∧
      m.width = w ∧ m.height = h ∧ m.cell_size = cs ∧ m.start = (0, 0) ∧
      m.end_ = (w - 1, h - 1) ∧ DimsCells m.cells w h ∧
      (∀ p : ℤ × ℤ, InB w h p → ∀ e, wallAt m.cells p e = wallAt cells2 p e) ∧
      (∀ p : ℤ × ℤ, InB w h p → visitedAt m.cells p = visitedAt cells2 p) ∧
      (∀ p : ℤ × ℤ, InB w h p →
        (cellAt m.cells p.1 p.2).is_start = decide (p = (0, 0)) ∧
        (cellAt m.cells p.1 p.2).is_end = decide (p = (w - 1, h - 1))) := by
  have h00w : (0 : ℤ) < w := by omega
  have h00h : (0 : ℤ) < h := by omega
  have hset1 := pySetCell_inb (initCells_dims w h)
    (fun c => { c with visited := true }) (le_refl 0) h00w (le_refl 0) h00h
  have hinv1 := genInv_init (w := w) (h := h) hw hh
  have hroot1 : ((0 : ℤ), (0 : ℤ)) ∈ visitedF w h
      (pyModify (initCells w h) 0 fun col =>
        pyModify col 0 fun c => { c with visited := true }) := by
    rw [visitedF, Finset.mem_filter, mem_gridF]
    exact ⟨⟨le_refl 0, h00w, le_refl 0, h00h⟩, hinv1.root_vis⟩
  have hv1pos : 0 < (visitedF w h
      (pyModify (initCells w h) 0 fun col =>
        pyModify col 0 fun c => { c with visited := true })).card :=
    Finset.card_pos.mpr ⟨_, hroot1⟩
  obtain ⟨cells2, hloop, hinv2⟩ := genLoop_run rand hw hh (genFuel w h) _
    [((0 : ℤ), (0 : ℤ))] 0 hinv1
    (by
      have hle : (visitedF w h (pyModify (initCells w h) 0 fun col =>
          pyModify col 0 fun c => { c with visited := true })).card
          ≤ (gridF w h).card :=
        Finset.card_le_card (Finset.filter_subset _ _)
      rw [card_gridF]
      unfold genFuel
      rw [card_gridF] at hle
      simp only [List.length_singleton]
      omega)
  have hd2 : DimsCells cells2 w h := hinv2.dims
  have hmark1 := pySetCell_inb hd2 (fun c => { c with is_start := true })
    (le_refl 0) h00w (le_refl 0) h00h
  have hd3 : DimsCells (pyModify cells2 0 fun col =>
      pyModify col 0 fun c => { c with is_start := true }) w h :=
    dimsCells_pyModify _ hd2 (f := fun c => { c with is_start := true }) 0 0
  have hmark2 := pySetCell_inb hd3 (fun c => { c with is_end := true })
    (show (0 : ℤ) ≤ w - 1 by omega) (by omega)
    (show (0 : ℤ) ≤ h - 1 by omega) (by omega)
  have hd4 : DimsCells (pyModify (pyModify cells2 0 fun col =>
      pyModify col 0 fun c => { c with is_start := true}) (w - 1) fun col =>
      pyModify col (h - 1) fun c => { c with is_end := true }) w h :=
    dimsCells_pyModify _ hd3 (f := fun c => { c with is_end := true }) (w - 1) (h - 1)
  -- pointwise descriptions of the two markings
  have hcell3 : ∀ p : ℤ × ℤ, InB w h p →
      cellAt (pyModify cells2 0 fun col =>
        pyModify col 0 fun c => { c with is_start := true }) p.1 p.2
      = (if p = (0, 0) then { cellAt cells2 0 0 with is_start := true }
         else cellAt cells2 p.1 p.2) := by
    intro p hp
    obtain ⟨hp0, hpw, hp1, hph⟩ := hp
    by_cases hpz : p = (0, 0)
    · rw [if_pos hpz]
      obtain ⟨a, b⟩ := p
      injection hpz with ha hb
      subst ha
      subst hb
      rw [cellAt_modify_self hd2 _ (le_refl 0) h00w (le_refl 0) h00h]
    · rw [if_neg hpz]
      have hne : (p.1, p.2) ≠ ((0 : ℤ), (0 : ℤ)) := by
        intro hcc
        exact hpz (by obtain ⟨a, b⟩ := p; exact hcc)
      exact cellAt_modify_ne hd2 _ (le_refl 0) h00w (le_refl 0) h00h
        hp0 hpw hp1 hph hne
  have hcell4 : ∀ p : ℤ × ℤ, InB w h p →
      cellAt (pyModify (pyModify cells2 0 fun col =>
        pyModify col 0 fun c => { c with is_start := true }) (w - 1) fun col =>
        pyModify col (h - 1) fun c => { c with is_end := true }) p.1 p.2
      = (if p = (w - 1, h - 1) then
          { cellAt (pyModify cells2 0 fun col =>
              pyModify col 0 fun c => { c with is_start := true }) (w - 1) (h - 1)
            with is_end := true }
         else cellAt (pyModify cells2 0 fun col =>
              pyModify col 0 fun c => { c with is_start := true }) p.1 p.2) := by
    intro p hp
    obtain ⟨hp0, hpw, hp1, hph⟩ := hp
    by_cases hpz : p = (w - 1, h - 1)
    · rw [if_pos hpz]
      obtain ⟨a, b⟩ := p
      injection hpz with ha hb
      subst ha
      subst hb
      rw [cellAt_modify_self hd3 _ (by omega) (by omega) (by omega) (by omega)]
    · rw [if_neg hpz]
      have hne : (p.1, p.2) ≠ (w - 1, h - 1) := by
        intro hcc
        exact hpz (by obtain ⟨a, b⟩ := p; exact hcc)
      exact cellAt_modify_ne hd3 _ (by omega) (by omega) (by omega) (by omega)
        hp0 hpw hp1 hph hne
  refine ⟨{ width := w, height := h, cell_size := cs,
            cells := pyModify (pyModify cells2 0 fun col =>
              pyModify col 0 fun c => { c with is_start := true }) (w - 1) fun col =>
              pyModify col (h - 1) fun c => { c with is_end := true },
            start := (0, 0), end_ := (w - 1, h - 1) }, cells2,
    ?_, hinv2, rfl, rfl, rfl, rfl, rfl, hd4, ?_, ?_, ?_⟩
  · -- the constructor equation
    simp only [mazeInit, hset1, hloop, hmark1, hmark2]
  · -- walls preserved by the markings
    intro p hp e
    unfold wallAt
    rw [hcell4 p hp]
    split_ifs with h4
    · subst h4
      show (cellAt (pyModify cells2 0 fun col =>
        pyModify col 0 fun c => { c with is_start := true }) (w - 1) (h - 1)).walls e
          = (cellAt cells2 (w - 1) (h - 1)).walls e
      have hin : InB w h ((w - 1 : ℤ), (h - 1 : ℤ)) := ⟨by omega, by omega, by omega, by omega⟩
      rw [hcell3 _ hin]
      split_ifs with h3
      · injection h3 with ha hb
        rw [ha, hb]
      · rfl
    · rw [hcell3 p hp]
      split_ifs with h3
      · subst h3
        rfl
      · rfl
  · -- visited flags preserved by the markings
    intro p hp
    unfold visitedAt
    rw [hcell4 p hp]
    split_ifs with h4
    · subst h4
      show (cellAt (pyModify cells2 0 fun col =>
        pyModify col 0 fun c => { c with is_start := true }) (w - 1) (h - 1)).visited
          = (cellAt cells2 (w - 1) (h - 1)).visited
      have hin : InB w h ((w - 1 : ℤ), (h - 1 : ℤ)) := ⟨by omega, by omega, by omega, by omega⟩
      rw [hcell3 _ hin]
      split_ifs with h3
      · injection h3 with ha hb
        rw [ha, hb]
      · rfl
    · rw [hcell3 p hp]
      split_ifs with h3
      · subst h3
        rfl
      · rfl
  · -- the start/end flags
    intro p hp
    have hstart3 : ∀ q : ℤ × ℤ, InB w h q →
        (cellAt (pyModify cells2 0 fun col =>
          pyModify col 0 fun c => { c with is_start := true }) q.1 q.2).is_start
        = decide (q = (0, 0)) := by
      intro q hq
      rw [hcell3 q hq]
      by_cases hqz : q = (0, 0)
      · rw [if_pos hqz, decide_eq_true hqz]
      · rw [if_neg hqz]
        show (cellAt cells2 q.1 q.2).is_start = decide (q = (0, 0))
        rw [(hinv2.no_marks q hq).1, decide_eq_false hqz]
    have hend3 : ∀ q : ℤ × ℤ, InB w h q →
        (cellAt (pyModify cells2 0 fun col =>
          pyModify col 0 fun c => { c with is_start := true }) q.1 q.2).is_end
        = false := by
      intro q hq
      rw [hcell3 q hq]
      by_cases hqz : q = (0, 0)
      · rw [if_pos hqz]
        show (cellAt cells2 0 0).is_end = false
        have hin : InB w h ((0 : ℤ), (0 : ℤ)) := ⟨le_refl 0, h00w, le_refl 0, h00h⟩
        exact (hinv2.no_marks _ hin).2
      · rw [if_neg hqz]
        exact (hinv2.no_marks q hq).2
    constructor
    · rw [hcell4 p hp]
      split_ifs with h4
      · subst h4
        have hin : InB w h ((w - 1 : ℤ), (h - 1 : ℤ)) := ⟨by omega, by omega, by omega, by omega⟩
        show (cellAt (pyModify cells2 0 fun col =>
          pyModify col 0 fun c => { c with is_start := true }) (w - 1) (h - 1)).is_start
            = decide ((w - 1, h - 1) = ((0 : ℤ), (0 : ℤ)))
        exact hstart3 ((w - 1 : ℤ), (h - 1 : ℤ)) hin
      · exact hstart3 p hp
    · rw [hcell4 p hp]
      split_ifs with h4
      · rw [decide_eq_true h4]
      · rw [decide_eq_false h4]
        exact hend3 p hp

/-- Membership in `_get_connected_neighbors`: one unit step away, in grid,
no wall from the source cell. -/
theorem mem_connected_neighbors {m : Maze} {x y : ℤ} {c : ℤ × ℤ} :
    c ∈ m._get_connected_neighbors x y ↔
      ∃ d : Direction, c = padd (x, y) d ∧ InB m.width m.height c ∧
        (cellAt m.cells x y).has_wall d = false := by
  constructor
  · intro hc
    simp only [Maze._get_connected_neighbors, List.mem_filterMap] at hc
    obtain ⟨d, _, hif⟩ := hc
    split at hif
    · next hins =>
      obtain rfl := Option.some_injective _ hif
      exact ⟨d, rfl, ⟨hins.1, hins.2.1, hins.2.2.1, hins.2.2.2.1⟩, hins.2.2.2.2⟩
    · exact absurd hif (by simp)
  · rintro ⟨d, rfl, hin, hw⟩
    simp only [Maze._get_connected_neighbors, List.mem_filterMap]
    refine ⟨d, ?_, ?_⟩
    · cases d <;> simp [Direction.all]
    · rw [if_pos]
      · rfl
      · exact ⟨hin.1, hin.2.1, hin.2.2.1, hin.2.2.2, hw⟩

theorem stepAdj_ne {m : Maze} {a b : ℤ × ℤ} (h : stepAdj m a b) : b ≠ a := by
  obtain ⟨d, hb, _, _⟩ := mem_connected_neighbors.mp h
  have : (a.1, a.2) = a := rfl
  rw [← this] at hb
  rw [hb]
  exact padd_ne _ _

theorem stepAdj_inGrid {m : Maze} {a b : ℤ × ℤ} (h : stepAdj m a b) : inGrid m b := by
  obtain ⟨d, _, hin, _⟩ := mem_connected_neighbors.mp h
  exact hin

/-- In a finished generation state every in-grid cell is visited. -/
theorem all_visited_final {w h : ℤ} {cells2 : List (List Cell)}
    (inv : GenInv w h cells2 []) :
    ∀ (n : ℕ) (p : ℤ × ℤ), (p.1 + p.2).toNat ≤ n → InB w h p →
      visitedAt cells2 p = true := by
  intro n
  induction n with
  | zero =>
    intro p hle hp
    obtain ⟨a, b⟩ := p
    obtain ⟨h1, h2, h3, h4⟩ := hp
    have ha : a = 0 := by simp only at h1 h3 hle ⊢; omega
    have hb : b = 0 := by simp only at h1 h3 hle ⊢; omega
    rw [ha, hb]
    exact inv.root_vis
  | succ n ih =>
    intro p hle hp
    obtain ⟨h1, h2, h3, h4⟩ := hp
    by_cases hp1 : 0 < p.1
    · have hq : InB w h (p.1 - 1, p.2) := ⟨by omega, by omega, by omega, by omega⟩
      have hqv := ih (p.1 - 1, p.2) (by simp only; omega) hq
      refine inv.closed (p.1 - 1, p.2) hq hqv (List.not_mem_nil _) p ?_
      refine mem_get_neighbors.mpr ⟨⟨h1, h2, h3, h4⟩, .east, ?_⟩
      obtain ⟨a, b⟩ := p
      simp only [padd, Direction.value]
      rw [Prod.ext_iff]
      constructor <;> simp <;> omega
    · by_cases hp2 : 0 < p.2
      · have hq : InB w h (p.1, p.2 - 1) := ⟨by omega, by omega, by omega, by omega⟩
        have hqv := ih (p.1, p.2 - 1) (by simp only; omega) hq
        refine inv.closed (p.1, p.2 - 1) hq hqv (List.not_mem_nil _) p ?_
        refine mem_get_neighbors.mpr ⟨⟨h1, h2, h3, h4⟩, .south, ?_⟩
        obtain ⟨a, b⟩ := p
        simp only [padd, Direction.value]
        rw [Prod.ext_iff]
        constructor <;> simp <;> omega
      · have hpz : p = (0, 0) := by
          obtain ⟨a, b⟩ := p
          simp only at h1 h3 hp1 hp2 ⊢
          rw [Prod.ext_iff]
          constructor <;> simp <;> omega
        rw [hpz]
        exact inv.root_vis

/-! ## Claim C2: wall symmetry of generated mazes -/

/-- Claim C2: in every constructed maze, for every pair of in-grid cells one
unit step apart, the wall flag of each toward the other agrees:
`hasWall(c1, dir_to_c2) = hasWall(c2, dir_to_c1)`.  (The embedding is purely
functional, and no source operation after `_generate_maze` writes a wall
flag, so the symmetry established by the generator persists.) -/
theorem maze_wall_symmetry (w h cs : ℤ) (rand : ℕ → ℕ) (hw : 1 ≤ w) (hh : 1 ≤ h) :
    ∃ m, mazeInit w h cs rand = some m ∧
      ∀ (p : ℤ × ℤ) (d : Direction), inGrid m p → inGrid m (padd p d) →
        (cellAt m.cells p.1 p.2).has_wall d
          = (cellAt m.cells (padd p d).1 (padd p d).2).has_wall d.opposite := by
  obtain ⟨m, cells2, hmi, hinv2, hmw, hmh, hcs, hst, hen, hdims, hwalls, hvis, hflags⟩ :=
    mazeInit_eq rand hw hh
  refine ⟨m, hmi, ?_⟩
  intro p d hp hpd
  have hp' : InB w h p := by rw [← hmw, ← hmh]; exact hp
  have hpd' : InB w h (padd p d) := by rw [← hmw, ← hmh]; exact hpd
  show wallAt m.cells p d = wallAt m.cells (padd p d) d.opposite
  rw [hwalls p hp' d, hwalls (padd p d) hpd' d.opposite]
  cases hb : wallAt cells2 p d with
  | false =>
    obtain ⟨_, _, _, hop⟩ := hinv2.wall_side p hp' d hb
    rw [hop]
  | true =>
    cases hb' : wallAt cells2 (padd p d) d.opposite with
    | true => rfl
    | false =>
      obtain ⟨_, _, _, hop⟩ := hinv2.wall_side (padd p d) hpd' d.opposite hb'
      rw [padd_padd_opposite, Direction.opposite_opposite] at hop
      rw [hop] at hb
      exact Bool.noConfusion hb

/-- Witness for C2 at the concrete input `2 × 2`, choice stream all-0. -/
theorem maze_wall_symmetry_witness :
    ∃ m, mazeInit 2 2 20 (fun _ => 0) = some m ∧
      ∀ (p : ℤ × ℤ) (d : Direction), inGrid m p → inGrid m (padd p d) →
        (cellAt m.cells p.1 p.2).has_wall d
          = (cellAt m.cells (padd p d).1 (padd p d).2).has_wall d.opposite :=
  maze_wall_symmetry 2 2 20 (fun _ => 0) (by decide) (by decide)

/-! ## Claim C9: start/end flags -/

/-- Claim C9 counterexample: the claim "isStart and isEnd are mutually
exclusive for every constructed maze" fails at the concrete input
`Maze(1, 1)`: the single cell of the generated 1×1 maze carries both flags
(lines 102–103 mark start `(0,0)` and end `(width-1, height-1)`, which
coincide). -/
theorem start_end_flags_both_set_in_1x1 :
    (mazeInit 1 1 20 fun _ => 0).map
      (fun m => (cellAt m.cells 0 0).is_start && (cellAt m.cells 0 0).is_end)
      = some true := by decide

/-- Claim C9 (amended): in every constructed maze each flag is set on
exactly one cell — `is_start` exactly at `(0,0)` and `is_end` exactly at
`(width-1, height-1)`, both set after generation — and whenever the maze is
not the degenerate 1×1 (where start and end coincide), no cell carries both
flags. -/
theorem start_end_flags_exclusive_unless_1x1 (w h cs : ℤ) (rand : ℕ → ℕ)
    (hw : 1 ≤ w) (hh : 1 ≤ h) (hne : ¬(w = 1 ∧ h = 1)) :
    ∃ m, mazeInit w h cs rand = some m ∧
      (∀ p : ℤ × ℤ, inGrid m p → ¬((cellAt m.cells p.1 p.2).is_start = true ∧
        (cellAt m.cells p.1 p.2).is_end = true)) ∧
      (∀ p : ℤ × ℤ, inGrid m p →
        ((cellAt m.cells p.1 p.2).is_start = true ↔ p = ((0 : ℤ), (0 : ℤ)))) ∧
      (∀ p : ℤ × ℤ, inGrid m p →
        ((cellAt m.cells p.1 p.2).is_end = true ↔ p = (w - 1, h - 1))) := by
  obtain ⟨m, cells2, hmi, hinv2, hmw, hmh, hcs, hst, hen, hdims, hwalls, hvis, hflags⟩ :=
    mazeInit_eq rand hw hh
  have hstart : ∀ p : ℤ × ℤ, inGrid m p →
      ((cellAt m.cells p.1 p.2).is_start = true ↔ p = ((0 : ℤ), (0 : ℤ))) := by
    intro p hp
    have hp' : InB w h p := by rw [← hmw, ← hmh]; exact hp
    rw [(hflags p hp').1]
    simp
  have hend : ∀ p : ℤ × ℤ, inGrid m p →
      ((cellAt m.cells p.1 p.2).is_end = true ↔ p = (w - 1, h - 1)) := by
    intro p hp
    have hp' : InB w h p := by rw [← hmw, ← hmh]; exact hp
    rw [(hflags p hp').2]
    simp
  refine ⟨m, hmi, ?_, hstart, hend⟩
  intro p hp ⟨h1, h2⟩
  have e1 := (hstart p hp).mp h1
  have e2 := (hend p hp).mp h2
  rw [e1] at e2
  injection e2 with ha hb
  exact hne ⟨by omega, by omega⟩

/-- Witness for the amended C9 at the concrete input `2 × 1`. -/
theorem start_end_flags_exclusive_unless_1x1_witness :
    ∃ m, mazeInit 2 1 20 (fun _ => 0) = some m ∧
      (∀ p : ℤ × ℤ, inGrid m p → ¬((cellAt m.cells p.1 p.2).is_start = true ∧
        (cellAt m.cells p.1 p.2).is_end = true)) ∧
      (∀ p : ℤ × ℤ, inGrid m p →
        ((cellAt m.cells p.1 p.2).is_start = true ↔ p = ((0 : ℤ), (0 : ℤ)))) ∧
      (∀ p : ℤ × ℤ, inGrid m p →
        ((cellAt m.cells p.1 p.2).is_end = true ↔ p = (2 - 1, 1 - 1))) :=
  start_end_flags_exclusive_unless_1x1 2 1 20 (fun _ => 0) (by decide) (by decide)
    (by decide)

/-! ## Claim C1: the generated connectivity graph is a spanning tree -/

/-- The grid coordinates of a vertex of the connectivity graph. -/
def toCoord (m : Maze) (v : Fin m.width.toNat × Fin m.height.toNat) : ℤ × ℤ :=
  ((v.1 : ℤ), (v.2 : ℤ))

/-- The connectivity graph of a maze: vertices are the grid cells, and two
cells are adjacent when each offers the other as a connected neighbor
(the two directions coincide for generated mazes by wall symmetry). -/
def mazeGraph (m : Maze) : SimpleGraph (Fin m.width.toNat × Fin m.height.toNat) where
  Adj u v := stepAdj m (toCoord m u) (toCoord m v) ∧ stepAdj m (toCoord m v) (toCoord m u)
  symm := by
    intro u v hadj
    exact ⟨hadj.2, hadj.1⟩
  loopless := by
    intro u hadj
    exact stepAdj_ne hadj.1 rfl

instance (m : Maze) : DecidableRel (mazeGraph m).Adj :=
  fun _ _ => And.decidable

theorem inGrid_toCoord (m : Maze) (v : Fin m.width.toNat × Fin m.height.toNat)
    (hw : 1 ≤ m.width) (hh : 1 ≤ m.height) : inGrid m (toCoord m v) := by
  have h1 := v.1.isLt
  have h2 := v.2.isLt
  refine ⟨?_, ?_, ?_, ?_⟩ <;> simp only [toCoord] <;> omega

theorem toCoord_inj {m : Maze} {u v : Fin m.width.toNat × Fin m.height.toNat}
    (hc : toCoord m u = toCoord m v) : u = v := by
  obtain ⟨hx, hy⟩ := Prod.mk.injEq .. ▸ hc
  have h1 : (u.1 : ℕ) = (v.1 : ℕ) := by exact_mod_cast hx
  have h2 : (u.2 : ℕ) = (v.2 : ℕ) := by exact_mod_cast hy
  rw [Prod.ext_iff]
  exact ⟨Fin.ext h1, Fin.ext h2⟩

/-- The vertex corresponding to an in-grid coordinate pair. -/
def toFin (m : Maze) (p : ℤ × ℤ) (hp : inGrid m p) :
    Fin m.width.toNat × Fin m.height.toNat :=
  (⟨p.1.toNat, by obtain ⟨a, b, c, d⟩ := hp; omega⟩,
   ⟨p.2.toNat, by obtain ⟨a, b, c, d⟩ := hp; omega⟩)

theorem toCoord_toFin {m : Maze} {p : ℤ × ℤ} (hp : inGrid m p) :
    toCoord m (toFin m p hp) = p := by
  obtain ⟨a, b, c, d⟩ := hp
  obtain ⟨p1, p2⟩ := p
  simp only [toCoord, toFin]
  rw [Prod.ext_iff]
  constructor <;> simp <;> omega

theorem toFin_toCoord {m : Maze} {v : Fin m.width.toNat × Fin m.height.toNat}
    (hv : inGrid m (toCoord m v)) : toFin m (toCoord m v) hv = v := by
  apply toCoord_inj
  exact toCoord_toFin hv

theorem Direction.value_inj : ∀ {d e : Direction}, d.value = e.value → d = e := by
  decide

theorem padd_dir_inj {p : ℤ × ℤ} {d e : Direction} (hp : padd p d = padd p e) :
    d = e := by
  apply Direction.value_inj
  obtain ⟨hx, hy⟩ := Prod.mk.injEq .. ▸ hp
  rw [Prod.ext_iff]
  constructor <;> omega

section MazeGraphFacts

variable {w h : ℤ} {m : Maze} {cells2 : List (List Cell)}

/-- A carved directed step of the final grid yields adjacency of the maze's
connectivity graph (in both directions, by wall symmetry). -/
theorem carve_to_stepAdj (hmw : m.width = w) (hmh : m.height = h)
    (hinv : GenInv w h cells2 [])
    (hwalls : ∀ p : ℤ × ℤ, InB w h p → ∀ e, wallAt m.cells p e = wallAt cells2 p e)
    {a b : ℤ × ℤ} (hstep : carveStep w h cells2 a b) :
    stepAdj m a b ∧ stepAdj m b a := by
  obtain ⟨ha, hb, d, hbe, hwf⟩ := hstep
  obtain ⟨hia, hib, hiaw, hibw⟩ := hinv.wall_side a ha d hwf
  constructor
  · refine mem_connected_neighbors.mpr ⟨d, ?_, ?_, ?_⟩
    · rw [hbe]
    · rw [hmw, hmh]
      exact hbe ▸ hb
    · show wallAt m.cells a d = false
      rw [hwalls a ha d]
      exact hwf
  · refine mem_connected_neighbors.mpr ⟨d.opposite, ?_, ?_, ?_⟩
    · rw [hbe, show ((padd a d).1, (padd a d).2) = padd a d from rfl,
        padd_padd_opposite]
    · rw [hmw, hmh]
      exact ha
    · show wallAt m.cells b d.opposite = false
      rw [hwalls b (hbe ▸ hb) d.opposite]
      rw [hbe]
      exact hibw

theorem rtg_carve_reachable (hmw : m.width = w) (hmh : m.height = h)
    (hinv : GenInv w h cells2 [])
    (hwalls : ∀ p : ℤ × ℤ, InB w h p → ∀ e, wallAt m.cells p e = wallAt cells2 p e)
    {a p : ℤ × ℤ} (hrtg : Relation.ReflTransGen (carveStep w h cells2) a p) :
    ∀ (u v : Fin m.width.toNat × Fin m.height.toNat),
      toCoord m u = a → toCoord m v = p → (mazeGraph m).Reachable u v := by
  induction hrtg with
  | refl =>
    intro u v hu hv
    have : u = v := toCoord_inj (by rw [hu, hv])
    rw [this]
  | @tail b c hab hbc ih =>
    intro u v hu hv
    have hbg : inGrid m b := by
      rw [inGrid, hmw, hmh]
      exact hbc.1
    have h1 := ih u (toFin m b hbg) hu (toCoord_toFin hbg)
    have hpair := carve_to_stepAdj hmw hmh hinv hwalls hbc
    have hadj : (mazeGraph m).Adj (toFin m b hbg) v := by
      refine ⟨?_, ?_⟩
      · rw [toCoord_toFin hbg, hv]
        exact hpair.1
      · rw [toCoord_toFin hbg, hv]
        exact hpair.2
    exact h1.trans hadj.reachable

/-- The generated connectivity graph is connected. -/
theorem mazeGraph_connected (hw : 1 ≤ w) (hh : 1 ≤ h)
    (hmw : m.width = w) (hmh : m.height = h)
    (hinv : GenInv w h cells2 [])
    (hwalls : ∀ p : ℤ × ℤ, InB w h p → ∀ e, wallAt m.cells p e = wallAt cells2 p e) :
    (mazeGraph m).Connected := by
  have hall : ∀ p : ℤ × ℤ, InB w h p → visitedAt cells2 p = true := by
    intro p hp
    exact all_visited_final hinv (p.1 + p.2).toNat p (le_refl _) hp
  have hwpos : 0 < m.width.toNat := by omega
  have hhpos : 0 < m.height.toNat := by omega
  rw [SimpleGraph.connected_iff]
  refine ⟨?_, ⟨(⟨0, hwpos⟩, ⟨0, hhpos⟩)⟩⟩
  intro u v
  have hu : inGrid m (toCoord m u) := inGrid_toCoord m u (by omega) (by omega)
  have hv : inGrid m (toCoord m v) := inGrid_toCoord m v (by omega) (by omega)
  have hu' : InB w h (toCoord m u) := by rw [← hmw, ← hmh]; exact hu
  have hv' : InB w h (toCoord m v) := by rw [← hmw, ← hmh]; exact hv
  have h00 : InB w h ((0 : ℤ), (0 : ℤ)) := ⟨le_refl 0, by omega, le_refl 0, by omega⟩
  have h00g : inGrid m ((0 : ℤ), (0 : ℤ)) := by rw [inGrid, hmw, hmh]; exact h00
  have hru := rtg_carve_reachable hmw hmh hinv hwalls
    (hinv.reach (toCoord m u) hu' (hall _ hu')) (toFin m _ h00g) u
    (toCoord_toFin h00g) rfl
  have hrv := rtg_carve_reachable hmw hmh hinv hwalls
    (hinv.reach (toCoord m v) hv' (hall _ hv')) (toFin m _ h00g) v
    (toCoord_toFin h00g) rfl
  exact hru.symm.trans hrv

end MazeGraphFacts

theorem mazeGraph_edge_card {w h : ℤ} {m : Maze} {cells2 : List (List Cell)}
    (hw : 1 ≤ w) (hh : 1 ≤ h) (hmw : m.width = w) (hmh : m.height = h)
    (hinv : GenInv w h cells2 [])
    (hwalls : ∀ p : ℤ × ℤ, InB w h p → ∀ e, wallAt m.cells p e = wallAt cells2 p e) :
    (mazeGraph m).edgeFinset.card + 1 = w.toNat * h.toNat := by
  have hall : ∀ p : ℤ × ℤ, InB w h p → visitedAt cells2 p = true := fun p hp =>
    all_visited_final hinv (p.1 + p.2).toNat p (le_refl _) hp
  have hvisF : visitedF w h cells2 = gridF w h :=
    Finset.filter_eq_self.mpr fun p hp => hall p (mem_gridF.mp hp)
  have hcount : (removedF w h cells2).card = 2 * (w.toNat * h.toNat - 1) := by
    rw [hinv.count, hvisF, card_gridF]
  have key : ∀ pd : (ℤ × ℤ) × Direction, pd ∈ removedF w h cells2 →
      carveStep w h cells2 pd.1 (padd pd.1 pd.2) := by
    intro pd hmem
    rw [removedF, Finset.mem_filter, Finset.mem_product, mem_gridF] at hmem
    obtain ⟨⟨hpg, _⟩, hwf⟩ := hmem
    obtain ⟨hpadd, _, _, _⟩ := hinv.wall_side pd.1 hpg pd.2 hwf
    exact ⟨hpg, hpadd, pd.2, rfl, hwf⟩
  have hg : ∀ pd : (ℤ × ℤ) × Direction, pd ∈ removedF w h cells2 →
      inGrid m pd.1 := by
    intro pd hmem
    rw [inGrid, hmw, hmh]
    exact (key pd hmem).1
  have hg' : ∀ pd : (ℤ × ℤ) × Direction, pd ∈ removedF w h cells2 →
      inGrid m (padd pd.1 pd.2) := by
    intro pd hmem
    rw [inGrid, hmw, hmh]
    exact (key pd hmem).2.1
  have hadj : ∀ (pd : (ℤ × ℤ) × Direction) (hmem : pd ∈ removedF w h cells2),
      (mazeGraph m).Adj (toFin m pd.1 (hg pd hmem))
        (toFin m (padd pd.1 pd.2) (hg' pd hmem)) := by
    intro pd hmem
    have hpair := carve_to_stepAdj hmw hmh hinv hwalls (key pd hmem)
    refine ⟨?_, ?_⟩
    · rw [toCoord_toFin, toCoord_toFin]
      exact hpair.1
    · rw [toCoord_toFin, toCoord_toFin]
      exact hpair.2
  have hbij : (removedF w h cells2).card
      = (Finset.univ : Finset (mazeGraph m).Dart).card := by
    refine Finset.card_bij (fun pd hmem => SimpleGraph.Dart.mk
      (toFin m pd.1 (hg pd hmem), toFin m (padd pd.1 pd.2) (hg' pd hmem))
      (hadj pd hmem)) (fun _ _ => Finset.mem_univ _) ?_ ?_
    · intro pd1 hm1 pd2 hm2 heq
      have hprod := congrArg SimpleGraph.Dart.toProd heq
      simp only at hprod
      obtain ⟨h1, h2⟩ := Prod.mk.injEq .. ▸ hprod
      have hp1 : pd1.1 = pd2.1 := by
        have e1 := toCoord_toFin (hg pd1 hm1)
        have e2 := toCoord_toFin (hg pd2 hm2)
        rw [← e1, ← e2, h1]
      have hp2 : pd1.2 = pd2.2 := by
        have e1 := toCoord_toFin (hg' pd1 hm1)
        have e2 := toCoord_toFin (hg' pd2 hm2)
        have : padd pd1.1 pd1.2 = padd pd2.1 pd2.2 := by
          rw [← e1, ← e2, h2]
        rw [← hp1] at this
        exact padd_dir_inj this
      obtain ⟨a1, b1⟩ := pd1
      obtain ⟨a2, b2⟩ := pd2
      simp only at hp1 hp2
      rw [hp1, hp2]
    · intro dart _
      obtain ⟨⟨u, v⟩, huv⟩ := dart
      obtain ⟨d, heq, hin, hwall⟩ := mem_connected_neighbors.mp huv.1
      have huInB : InB w h (toCoord m u) := by
        rw [← hmw, ← hmh]
        exact inGrid_toCoord m u (by omega) (by omega)
      have hmem : (toCoord m u, d) ∈ removedF w h cells2 := by
        rw [removedF, Finset.mem_filter, Finset.mem_product, mem_gridF]
        refine ⟨⟨huInB, Finset.mem_univ _⟩, ?_⟩
        rw [← hwalls (toCoord m u) huInB d]
        exact hwall
      refine ⟨(toCoord m u, d), hmem, ?_⟩
      have heq' : padd (toCoord m u) d = toCoord m v := by
        rw [heq]
      apply SimpleGraph.Dart.ext
      simp only
      rw [Prod.ext_iff]
      constructor
      · apply toCoord_inj
        rw [toCoord_toFin]
      · apply toCoord_inj
        rw [toCoord_toFin]
        exact heq'
  rw [Finset.card_univ, SimpleGraph.dart_card_eq_twice_card_edges] at hbij
  rw [hcount] at hbij
  have hN : 1 ≤ w.toNat * h.toNat := by
    have : 1 ≤ w.toNat := by omega
    have : 1 ≤ h.toNat := by omega
    exact Nat.one_le_iff_ne_zero.mpr (by positivity)
  omega

/-- A graph admitting an injective age function under which each vertex has
at most one neighbor "younger edge" parent is acyclic: on any cycle, the
oldest vertex would need two distinct parent edges. -/
theorem acyclic_of_parent {V : Type _} [DecidableEq V] {G : SimpleGraph V}
    (ordv : V → ℕ)
    (parv : V → V) (hinjV : ∀ u v : V, ordv u = ordv v → u = v)
    (hdown : ∀ u b : V, G.Adj u b → ordv b < ordv u → parv u = b) :
    G.IsAcyclic := by
  intro v c hc
  obtain ⟨u, humem, humax⟩ := Finset.exists_max_image c.support.toFinset ordv
    ⟨v, List.mem_toFinset.mpr c.start_mem_support⟩
  have humem' : u ∈ c.support := List.mem_toFinset.mp humem
  have hmax : ∀ x ∈ c.support, ordv x ≤ ordv u := fun x hx =>
    humax x (List.mem_toFinset.mpr hx)
  have hc' := hc.rotate humem'
  have hsupp : ∀ x, x ∈ (c.rotate humem').support → x ∈ c.support := by
    intro x hx
    rw [SimpleGraph.Walk.support_eq_cons] at hx
    rcases List.mem_cons.mp hx with rfl | hx'
    · exact humem'
    · have hrot := SimpleGraph.Walk.support_rotate c humem'
      have hxc : x ∈ c.support.tail := hrot.mem_iff.mp hx'
      exact List.mem_of_mem_tail hxc
  have h3 := hc'.three_le_length
  revert hc' hsupp h3
  generalize c.rotate humem' = w0
  intro hc' hsupp h3
  cases w0 with
  | nil => simp at h3
  | cons hub w1 =>
    rename_i b
    have htrail := hc'.toIsCircuit.toIsTrail
    have hfirst : s(u, b) ∉ w1.edges :=
      ((SimpleGraph.Walk.cons_isTrail_iff hub w1).mp htrail).2
    have hbmem : b ∈ c.support := by
      refine hsupp b ?_
      rw [SimpleGraph.Walk.support_cons]
      exact List.mem_cons_of_mem _ w1.start_mem_support
    cases hrev : w1.reverse with
    | nil =>
      have : w1 = SimpleGraph.Walk.nil := by
        have := congrArg SimpleGraph.Walk.reverse hrev
        rwa [SimpleGraph.Walk.reverse_reverse] at this
      subst this
      simp at h3
    | cons huc0 w2 =>
      rename_i c0
      have hc0mem : c0 ∈ c.support := by
        refine hsupp c0 ?_
        rw [SimpleGraph.Walk.support_cons]
        refine List.mem_cons_of_mem _ ?_
        have : c0 ∈ w1.reverse.support := by
          rw [hrev, SimpleGraph.Walk.support_cons]
          exact List.mem_cons_of_mem _ w2.start_mem_support
        rw [SimpleGraph.Walk.support_reverse, List.mem_reverse] at this
        exact this
      have hbe : s(u, c0) ∈ w1.edges := by
        have : s(u, c0) ∈ w1.reverse.edges := by
          rw [hrev, SimpleGraph.Walk.edges_cons]
          exact List.mem_cons_self _ _
        rw [SimpleGraph.Walk.edges_reverse, List.mem_reverse] at this
        exact this
      have hblt : ordv b < ordv u := by
        refine lt_of_le_of_ne (hmax b hbmem) fun hEq => ?_
        exact (G.ne_of_adj hub) (hinjV u b hEq.symm)
      have hc0lt : ordv c0 < ordv u := by
        refine lt_of_le_of_ne (hmax c0 hc0mem) fun hEq => ?_
        exact (G.ne_of_adj huc0) (hinjV u c0 hEq.symm)
      have hb := hdown u b hub hblt
      have hc0 := hdown u c0 huc0 hc0lt
      have hbc0 : b = c0 := hb.symm.trans hc0
      subst hbc0
      exact hfirst hbe

/-- The generated connectivity graph is acyclic: the generation certificate
provides an injective age and a parent map under which every edge is the
unique down-edge of its younger endpoint. -/
theorem mazeGraph_acyclic {w h : ℤ} {m : Maze} {cells2 : List (List Cell)}
    (hw : 1 ≤ w) (hh : 1 ≤ h) (hmw : m.width = w) (hmh : m.height = h)
    (hinv : GenInv w h cells2 [])
    (hwalls : ∀ p : ℤ × ℤ, InB w h p → ∀ e, wallAt m.cells p e = wallAt cells2 p e) :
    (mazeGraph m).IsAcyclic := by
  have hall : ∀ p : ℤ × ℤ, InB w h p → visitedAt cells2 p = true := fun p hp =>
    all_visited_final hinv (p.1 + p.2).toNat p (le_refl _) hp
  obtain ⟨B, ord, par, hB, hinj, hedge⟩ := hinv.cert
  have hInB : ∀ v : Fin m.width.toNat × Fin m.height.toNat, InB w h (toCoord m v) := by
    intro v
    rw [← hmw, ← hmh]
    exact inGrid_toCoord m v (by omega) (by omega)
  refine acyclic_of_parent (fun v => ord (toCoord m v))
    (fun v => if hp : inGrid m (par (toCoord m v)) then toFin m (par (toCoord m v)) hp
      else v) ?_ ?_
  · intro u v hEq
    apply toCoord_inj
    exact hinj _ _ (hInB u) (hall _ (hInB u)) (hInB v) (hall _ (hInB v)) hEq
  · intro u b hadj hlt
    have hlt' : ord (toCoord m b) < ord (toCoord m u) := hlt
    obtain ⟨d, hbe, hbin, hwuf⟩ := mem_connected_neighbors.mp hadj.1
    have hbe' : toCoord m b = padd (toCoord m u) d := hbe
    have hwuf' : wallAt cells2 (toCoord m u) d = false := by
      rw [← hwalls _ (hInB u) d]
      exact hwuf
    rcases hedge (toCoord m u) (hInB u) d hwuf' with ⟨_, hpar, _⟩ | ⟨_, _, hord⟩
    · have hparb : par (toCoord m u) = toCoord m b := hpar.trans hbe'.symm
      have hbg : inGrid m (toCoord m b) := inGrid_toCoord m b (by omega) (by omega)
      show (if hp : inGrid m (par (toCoord m u)) then toFin m (par (toCoord m u)) hp
        else u) = b
      simp only [hparb]
      rw [dif_pos hbg]
      exact toFin_toCoord hbg
    · rw [← hbe'] at hord
      omega

/-- Claim C1: for every requested positive width and height, construction
succeeds and the connectivity graph of the resulting maze — vertices the
grid cells, edges the wall-free grid adjacencies — is connected and acyclic
(a tree) with exactly `width * height - 1` edges. -/
theorem maze_generation_spanning_tree (w h cs : ℤ) (rand : ℕ → ℕ)
    (hw : 1 ≤ w) (hh : 1 ≤ h) :
    ∃ m, mazeInit w h cs rand = some m ∧ (mazeGraph m).IsTree ∧
      ((mazeGraph m).edgeFinset.card : ℤ) = w * h - 1 := by
  obtain ⟨m, cells2, hmi, hinv2, hmw, hmh, hcs, hst, hen, hdims, hwalls, hvis, hflags⟩ :=
    @mazeInit_eq w h cs rand hw hh
  have hconn := mazeGraph_connected hw hh hmw hmh hinv2 hwalls
  have hacyc := mazeGraph_acyclic hw hh hmw hmh hinv2 hwalls
  have hcard := mazeGraph_edge_card hw hh hmw hmh hinv2 hwalls
  refine ⟨m, hmi, ⟨hconn, hacyc⟩, ?_⟩
  have hN : ((w.toNat * h.toNat : ℕ) : ℤ) = w * h := by
    push_cast
    rw [Int.toNat_of_nonneg (by omega : (0:ℤ) ≤ w),
      Int.toNat_of_nonneg (by omega : (0:ℤ) ≤ h)]
  have hcard' : ((mazeGraph m).edgeFinset.card : ℤ) + 1 = ((w.toNat * h.toNat : ℕ) : ℤ) := by
    exact_mod_cast hcard
  rw [← hN, ← hcard']
  omega

theorem maze_generation_spanning_tree_witness :
    ∃ m, mazeInit 2 2 20 (fun _ => 0) = some m ∧ (mazeGraph m).IsTree ∧
      ((mazeGraph m).edgeFinset.card : ℤ) = 2 * 2 - 1 :=
  maze_generation_spanning_tree 2 2 20 (fun _ => 0) (by decide) (by decide)

/-! ## Path utilities shared by the three solvers -/

theorem pathFrom_ne_nil {m : Maze} {s t : ℤ × ℤ} {p : List (ℤ × ℤ)}
    (hp : PathFrom m s t p) : p ≠ [] := by
  intro h
  rw [h] at hp
  exact Option.noConfusion hp.1

theorem pathFrom_single {m : Maze} {s t c : ℤ × ℤ} (hp : PathFrom m s t [c]) :
    s = c ∧ t = c := by
  obtain ⟨h1, h2, _⟩ := hp
  simp only [List.head?_cons, List.getLast?_singleton, Option.some.injEq] at h1 h2
  exact ⟨h1.symm, h2.symm⟩

theorem pathFrom_self (m : Maze) (c : ℤ × ℤ) : PathFrom m c c [c] :=
  ⟨rfl, rfl, List.chain'_singleton c⟩

theorem pathFrom_cons {m : Maze} {s t a b : ℤ × ℤ} {q : List (ℤ × ℤ)}
    (hp : PathFrom m s t (a :: b :: q)) :
    a = s ∧ stepAdj m a b ∧ PathFrom m b t (b :: q) := by
  obtain ⟨h1, h2, h3⟩ := hp
  rw [List.chain'_cons] at h3
  have h2' : (b :: q).getLast? = some t := by
    rw [List.getLast?_cons_cons] at h2
    exact h2
  exact ⟨by simpa using h1, h3.1, rfl, h2', h3.2⟩

theorem pathFrom_closed_pred {m : Maze} (P : ℤ × ℤ → Prop)
    (hcl : ∀ c, P c → ∀ n, stepAdj m c n → P n) :
    ∀ (p : List (ℤ × ℤ)) (s c : ℤ × ℤ), PathFrom m s c p → P s → P c := by
  intro p
  induction p with
  | nil => exact fun s c hp _ => absurd rfl (pathFrom_ne_nil hp)
  | cons a t ih =>
    intro s c hp hs
    cases t with
    | nil =>
      obtain ⟨hsa, hca⟩ := pathFrom_single hp
      rw [hca, ← hsa]
      exact hs
    | cons b t' =>
      obtain ⟨has, hab, hp'⟩ := pathFrom_cons hp
      exact ih b c hp' (hcl a (has ▸ hs) b hab)

theorem pathFrom_append {m : Maze} {s c n : ℤ × ℤ} {p : List (ℤ × ℤ)}
    (hp : PathFrom m s c p) (hstep : stepAdj m c n) : PathFrom m s n (p ++ [n]) := by
  obtain ⟨h1, h2, h3⟩ := hp
  refine ⟨?_, ?_, ?_⟩
  · cases p with
    | nil => exact absurd h1 (by simp)
    | cons a t =>
      simp only [List.cons_append, List.head?_cons]
      simpa using h1
  · rw [List.getLast?_concat]
  · rw [List.chain'_append]
    refine ⟨h3, List.chain'_singleton n, ?_⟩
    intro x hx y hy
    rw [Option.mem_def, h2, Option.some.injEq] at hx
    rw [Option.mem_def, List.head?_cons, Option.some.injEq] at hy
    rw [← hx, ← hy]
    exact hstep

theorem pathFrom_snoc {m : Maze} {s c : ℤ × ℤ} {p : List (ℤ × ℤ)}
    (hp : PathFrom m s c p) (hlen : 2 ≤ p.length) :
    ∃ (q : List (ℤ × ℤ)) (y : ℤ × ℤ), p = q ++ [c] ∧ PathFrom m s y q ∧
      stepAdj m y c ∧ q.length + 1 = p.length := by
  obtain ⟨h1, h2, h3⟩ := hp
  have hne : p ≠ [] := by
    intro h
    rw [h] at hlen
    simp at hlen
  have hql : p.dropLast ++ [p.getLast hne] = p := List.dropLast_append_getLast hne
  have hlast : p.getLast hne = c := by
    have hg := List.getLast?_eq_getLast p hne
    rw [h2, Option.some.injEq] at hg
    exact hg.symm
  have hpq : p = p.dropLast ++ [c] := by
    rw [← hlast]
    exact hql.symm
  have hqlen : p.dropLast.length + 1 = p.length := by
    rw [List.length_dropLast]
    omega
  have hqne : p.dropLast ≠ [] := by
    intro h
    rw [h] at hqlen
    simp at hqlen
    omega
  refine ⟨p.dropLast, p.dropLast.getLast hqne, hpq, ⟨?_, List.getLast?_eq_getLast _ hqne, ?_⟩, ?_, hqlen⟩
  · cases hdq : p.dropLast with
    | nil => exact absurd hdq hqne
    | cons z q' =>
      rw [hpq, hdq] at h1
      simp only [List.cons_append, List.head?_cons] at h1
      rw [List.head?_cons]
      exact h1
  · rw [hpq] at h3
    exact (List.chain'_append.mp h3).1
  · rw [hpq] at h3
    refine (List.chain'_append.mp h3).2.2 _ ?_ c ?_
    · rw [Option.mem_def]
      exact List.getLast?_eq_getLast _ hqne
    · rw [Option.mem_def, List.head?_cons]

/-! ## The A* heuristic: consistency arithmetic -/

theorem heuristic_self (a : ℤ × ℤ) : heuristic a a = 0 := by
  simp [heuristic]

theorem heuristic_step {m : Maze} {a b : ℤ × ℤ} (h : stepAdj m a b) (t : ℤ × ℤ) :
    heuristic a t ≤ heuristic b t + 1 := by
  obtain ⟨d, hbe, _, _⟩ := mem_connected_neighbors.mp h
  have hbe' : b = padd a d := hbe
  subst hbe'
  obtain ⟨a1, a2⟩ := a
  obtain ⟨t1, t2⟩ := t
  cases d <;> simp only [heuristic, padd, Direction.value] <;> omega

theorem pathFrom_heuristic_le {m : Maze} :
    ∀ (p : List (ℤ × ℤ)) (c t : ℤ × ℤ), PathFrom m c t p → heuristic c t + 1 ≤ p.length := by
  intro p
  induction p with
  | nil => exact fun c t hp => absurd rfl (pathFrom_ne_nil hp)
  | cons a q ih =>
    intro c t hp
    cases q with
    | nil =>
      obtain ⟨hca, hta⟩ := pathFrom_single hp
      rw [hca, hta, heuristic_self]
      simp
    | cons b q' =>
      obtain ⟨hac, hab, hp'⟩ := pathFrom_cons hp
      have hb := ih b t hp'
      have hstep : heuristic c t ≤ heuristic b t + 1 := by
        refine heuristic_step (m := m) ?_ t
        rw [← hac]
        exact hab
      simp only [List.length_cons] at hb ⊢
      omega

/-! ## The heap order `keyLt` and `popMin` -/

theorem keyLt_irrefl (a : ℕ × (ℤ × ℤ)) : ¬ keyLt a a := by
  obtain ⟨a1, a2, a3⟩ := a
  simp only [keyLt]
  omega

theorem keyLt_total (a b : ℕ × (ℤ × ℤ)) : keyLt a b ∨ a = b ∨ keyLt b a := by
  obtain ⟨a1, a2, a3⟩ := a
  obtain ⟨b1, b2, b3⟩ := b
  simp only [keyLt, Prod.mk.injEq]
  omega

theorem keyLt_trans {a b c : ℕ × (ℤ × ℤ)} (h1 : keyLt a b) (h2 : keyLt b c) :
    keyLt a c := by
  obtain ⟨a1, a2, a3⟩ := a
  obtain ⟨b1, b2, b3⟩ := b
  obtain ⟨c1, c2, c3⟩ := c
  simp only [keyLt] at h1 h2 ⊢
  omega

theorem findMin_fold_spec :
    ∀ (es : List (ℕ × (ℤ × ℤ))) (e : ℕ × (ℤ × ℤ)),
      (es.foldl (fun acc x => if keyLt x acc then x else acc) e) ∈ e :: es ∧
      ∀ x ∈ e :: es, ¬ keyLt x (es.foldl (fun acc x => if keyLt x acc then x else acc) e) := by
  intro es
  induction es with
  | nil =>
    intro e
    refine ⟨List.mem_singleton.mpr rfl, ?_⟩
    intro x hx
    rw [List.mem_singleton] at hx
    rw [hx]
    exact keyLt_irrefl _
  | cons b bs ih =>
    intro e
    simp only [List.foldl_cons]
    obtain ⟨hmem, hmin⟩ := ih (if keyLt b e then b else e)
    constructor
    · rcases List.mem_cons.mp hmem with hr | hr
      · rw [hr]
        by_cases hbe : keyLt b e
        · rw [if_pos hbe]
          exact List.mem_cons_of_mem _ (List.mem_cons_self _ _)
        · rw [if_neg hbe]
          exact List.mem_cons_self _ _
      · exact List.mem_cons_of_mem _ (List.mem_cons_of_mem _ hr)
    · have hacc := hmin _ (List.mem_cons_self _ _)
      have he' : ¬ keyLt e (bs.foldl (fun acc x => if keyLt x acc then x else acc)
          (if keyLt b e then b else e)) := by
        by_cases hbe : keyLt b e
        · rw [if_pos hbe] at hacc ⊢
          intro her
          exact hacc (keyLt_trans hbe her)
        · rw [if_neg hbe] at hacc ⊢
          exact hacc
      have hb' : ¬ keyLt b (bs.foldl (fun acc x => if keyLt x acc then x else acc)
          (if keyLt b e then b else e)) := by
        by_cases hbe : keyLt b e
        · rw [if_pos hbe] at hacc ⊢
          exact hacc
        · rw [if_neg hbe] at hacc ⊢
          intro hbr
          rcases keyLt_total b e with h' | h' | h'
          · exact hbe h'
          · rw [h'] at hbr
            exact hacc hbr
          · exact hacc (keyLt_trans h' hbr)
      intro x hx
      rcases List.mem_cons.mp hx with hxe | hx'
      · rw [hxe]
        exact he'
      · rcases List.mem_cons.mp hx' with hxb | hx''
        · rw [hxb]
          exact hb'
        · exact hmin x (List.mem_cons_of_mem _ hx'')

theorem popMin_none {l : List (ℕ × (ℤ × ℤ))} : popMin l = none ↔ l = [] := by
  cases l with
  | nil => simp [popMin, findMin]
  | cons e es => simp [popMin, findMin]

theorem popMin_some {l : List (ℕ × (ℤ × ℤ))} {e : ℕ × (ℤ × ℤ)}
    {rest : List (ℕ × (ℤ × ℤ))} (h : popMin l = some (e, rest)) :
    e ∈ l ∧ rest = l.erase e ∧ ∀ x ∈ l, ¬ keyLt x e := by
  cases l with
  | nil => exact absurd h (by simp [popMin, findMin])
  | cons a as =>
    have hdef : popMin (a :: as) =
        some (as.foldl (fun acc x => if keyLt x acc then x else acc) a,
          (a :: as).erase (as.foldl (fun acc x => if keyLt x acc then x else acc) a)) := rfl
    rw [hdef, Option.some.injEq, Prod.mk.injEq] at h
    obtain ⟨he, hrest⟩ := h
    obtain ⟨hmem, hmin⟩ := findMin_fold_spec as a
    rw [he] at hmem hmin
    rw [he] at hrest
    exact ⟨hmem, hrest.symm, hmin⟩

/-! ## The BFS/DFS neighbor fold -/

/-- The body of the `for neighbor in ...` loop shared by `solve_bfs` and
`solve_dfs`, with the frontier-insertion discipline abstracted as `push`
(tail append for the BFS queue, head cons for the DFS stack). -/
def searchFold (push : SearchEntry → List SearchEntry → List SearchEntry)
    (path : List (ℤ × ℤ)) (st : List SearchEntry × Finset (ℤ × ℤ)) (nb : ℤ × ℤ) :
    List SearchEntry × Finset (ℤ × ℤ) :=
  if nb ∈ st.2 then st else (push (nb, path ++ [nb]) st.1, insert nb st.2)

theorem searchFold_spec (push : SearchEntry → List SearchEntry → List SearchEntry)
    (hpm : ∀ (e : SearchEntry) (q : List SearchEntry) (x : SearchEntry),
      x ∈ push e q ↔ x = e ∨ x ∈ q)
    (hpl : ∀ (e : SearchEntry) (q : List SearchEntry), (push e q).length = q.length + 1)
    (path : List (ℤ × ℤ)) :
    ∀ (ns : List (ℤ × ℤ)) (q : List SearchEntry) (v : Finset (ℤ × ℤ)),
      v ⊆ (ns.foldl (searchFold push path) (q, v)).2 ∧
      (∀ n ∈ ns, n ∈ (ns.foldl (searchFold push path) (q, v)).2) ∧
      (∀ x ∈ (ns.foldl (searchFold push path) (q, v)).2, x ∈ v ∨ x ∈ ns) ∧
      (∀ e ∈ (ns.foldl (searchFold push path) (q, v)).1, e ∈ q ∨
        (e.1 ∈ ns ∧ e.2 = path ++ [e.1] ∧ e.1 ∉ v ∧
          e.1 ∈ (ns.foldl (searchFold push path) (q, v)).2)) ∧
      (∀ e ∈ q, e ∈ (ns.foldl (searchFold push path) (q, v)).1) ∧
      (ns.foldl (searchFold push path) (q, v)).1.length + v.card =
        q.length + (ns.foldl (searchFold push path) (q, v)).2.card ∧
      (∀ x ∈ (ns.foldl (searchFold push path) (q, v)).2, x ∉ v →
        ∃ e ∈ (ns.foldl (searchFold push path) (q, v)).1, e.1 = x ∧ e.2 = path ++ [x]) := by
  intro ns
  induction ns with
  | nil =>
    intro q v
    refine ⟨fun x hx => hx, by simp, fun x hx => Or.inl hx, fun e he => Or.inl he,
      fun e he => he, rfl, ?_⟩
    intro x hx hnx
    exact absurd hx hnx
  | cons n ns ih =>
    intro q v
    simp only [List.foldl_cons]
    by_cases hn : n ∈ v
    · rw [searchFold, if_pos hn]
      obtain ⟨i1, i2, i3, i4, i5, i6, i7⟩ := ih q v
      refine ⟨i1, ?_, ?_, ?_, i5, i6, ?_⟩
      · intro x hx
        rcases List.mem_cons.mp hx with hx' | hx'
        · rw [hx']
          exact i1 hn
        · exact i2 x hx'
      · intro x hx
        rcases i3 x hx with h' | h'
        · exact Or.inl h'
        · exact Or.inr (List.mem_cons_of_mem _ h')
      · intro e he
        rcases i4 e he with h' | h'
        · exact Or.inl h'
        · exact Or.inr ⟨List.mem_cons_of_mem _ h'.1, h'.2⟩
      · exact i7
    · rw [searchFold, if_neg hn]
      dsimp only
      obtain ⟨i1, i2, i3, i4, i5, i6, i7⟩ := ih (push (n, path ++ [n]) q) (insert n v)
      have hsub : v ⊆ insert n v := Finset.subset_insert n v
      have hnmem : n ∈ (ns.foldl (searchFold push path) (push (n, path ++ [n]) q, insert n v)).2 :=
        i1 (Finset.mem_insert_self n v)
      refine ⟨fun x hx => i1 (hsub hx), ?_, ?_, ?_, ?_, ?_, ?_⟩
      · intro x hx
        rcases List.mem_cons.mp hx with hx' | hx'
        · rw [hx']
          exact hnmem
        · exact i2 x hx'
      · intro x hx
        rcases i3 x hx with h' | h'
        · rcases Finset.mem_insert.mp h' with h'' | h''
          · exact Or.inr (h'' ▸ List.mem_cons_self n ns)
          · exact Or.inl h''
        · exact Or.inr (List.mem_cons_of_mem _ h')
      · intro e he
        rcases i4 e he with h' | h'
        · rcases (hpm _ _ _).mp h' with h'' | h''
          · refine Or.inr ⟨?_, ?_, ?_, ?_⟩
            · rw [h'']
              exact List.mem_cons_self n ns
            · rw [h'']
            · rw [h'']
              exact hn
            · rw [h'']
              exact hnmem
          · exact Or.inl h''
        · refine Or.inr ⟨List.mem_cons_of_mem _ h'.1, h'.2.1, ?_, h'.2.2.2⟩
          intro hx
          exact h'.2.2.1 (Finset.mem_insert_of_mem hx)
      · intro e he
        exact i5 e ((hpm _ _ _).mpr (Or.inr he))
      · have hc : (insert n v).card = v.card + 1 := Finset.card_insert_of_not_mem hn
        have hl := hpl (n, path ++ [n]) q
        omega
      · intro x hx hnx
        by_cases hxn : x = n
        · refine ⟨(n, path ++ [n]), i5 _ ((hpm _ _ _).mpr (Or.inl rfl)), ?_, ?_⟩
          · rw [hxn]
          · rw [hxn]
        · refine i7 x hx ?_
          intro hx'
          rcases Finset.mem_insert.mp hx' with h'' | h''
          · exact hxn h''
          · exact hnx h''

theorem mem_gridFinset {m : Maze} {p : ℤ × ℤ} : p ∈ gridFinset m ↔ inGrid m p :=
  mem_gridF

theorem card_gridFinset (m : Maze) : (gridFinset m).card = gridN m :=
  card_gridF

/-- The loop invariant shared by `solve_bfs` and `solve_dfs`: every frontier
entry carries a duplicate-free start-to-cell path through visited cells, the
visited set is inside the grid, contains the start, is closed under
connectivity steps away from pending frontier cells, and a visited end cell
always has a pending frontier entry. -/
structure SearchInv (m : Maze) (queue : List SearchEntry)
    (visited : Finset (ℤ × ℤ)) : Prop where
  entries : ∀ e ∈ queue, PathFrom m m.start e.1 e.2 ∧ e.2.Nodup ∧ ∀ q ∈ e.2, q ∈ visited
  vis_grid : visited ⊆ gridFinset m
  start_vis : m.start ∈ visited
  closed : ∀ c ∈ visited, (∀ e ∈ queue, e.1 ≠ c) → ∀ n, stepAdj m c n → n ∈ visited
  end_pend : m.end_ ∈ visited → ∃ e ∈ queue, e.1 = m.end_

theorem searchInv_init (m : Maze) (hWF : WF m) :
    SearchInv m [(m.start, [m.start])] {m.start} := by
  refine ⟨?_, ?_, Finset.mem_singleton_self _, ?_, ?_⟩
  · intro e he
    rw [List.mem_singleton] at he
    subst he
    exact ⟨pathFrom_self m m.start, List.nodup_singleton _, by simp⟩
  · rw [Finset.singleton_subset_iff, mem_gridFinset]
    obtain ⟨hw, hh, _, hst, _⟩ := hWF
    rw [inGrid, hst]
    exact ⟨le_refl 0, by omega, le_refl 0, by omega⟩
  · intro c hc hq n _
    rw [Finset.mem_singleton] at hc
    exact absurd hc.symm (hq (m.start, [m.start]) (List.mem_singleton_self _))
  · intro hend
    rw [Finset.mem_singleton] at hend
    exact ⟨(m.start, [m.start]), List.mem_singleton_self _, hend.symm⟩

theorem searchInv_step (m : Maze)
    (push : SearchEntry → List SearchEntry → List SearchEntry)
    (hpm : ∀ (e : SearchEntry) (q : List SearchEntry) (x : SearchEntry),
      x ∈ push e q ↔ x = e ∨ x ∈ q)
    (hpl : ∀ (e : SearchEntry) (q : List SearchEntry), (push e q).length = q.length + 1)
    {x y : ℤ} {path : List (ℤ × ℤ)} {rest : List SearchEntry}
    {visited : Finset (ℤ × ℤ)}
    (hinv : SearchInv m (((x, y), path) :: rest) visited)
    (hne : (x, y) ≠ m.end_) :
    SearchInv m
      ((m._get_connected_neighbors x y).foldl (searchFold push path) (rest, visited)).1
      ((m._get_connected_neighbors x y).foldl (searchFold push path) (rest, visited)).2 ∧
    ((m._get_connected_neighbors x y).foldl (searchFold push path) (rest, visited)).1.length
        + visited.card =
      rest.length +
        ((m._get_connected_neighbors x y).foldl (searchFold push path) (rest, visited)).2.card ∧
    visited ⊆
      ((m._get_connected_neighbors x y).foldl (searchFold push path) (rest, visited)).2 ∧
    (∀ e ∈ ((m._get_connected_neighbors x y).foldl (searchFold push path) (rest, visited)).1,
      e ∈ rest ∨
        (e.1 ∈ m._get_connected_neighbors x y ∧ e.2 = path ++ [e.1] ∧ e.1 ∉ visited)) := by
  obtain ⟨i1, i2, i3, i4, i5, i6, i7⟩ :=
    searchFold_spec push hpm hpl path (m._get_connected_neighbors x y) rest visited
  obtain ⟨hpf, hnodup, hsub⟩ := hinv.entries ((x, y), path) (List.mem_cons_self _ _)
  refine ⟨⟨?_, ?_, i1 hinv.start_vis, ?_, ?_⟩, i6, i1, ?_⟩
  · intro e he
    rcases i4 e he with h' | h'
    · obtain ⟨hp, hn, hs⟩ := hinv.entries e (List.mem_cons_of_mem _ h')
      exact ⟨hp, hn, fun q hq => i1 (hs q hq)⟩
    · obtain ⟨hens, he2, henv, hest⟩ := h'
    -- a freshly pushed entry: its path is the popped path extended by its cell
      refine ⟨?_, ?_, ?_⟩
      · rw [he2]
        exact pathFrom_append hpf hens
      · rw [he2, List.nodup_append]
        refine ⟨hnodup, List.nodup_singleton _, ?_⟩
        intro a ha ha'
        rw [List.mem_singleton] at ha'
        rw [ha'] at ha
        exact henv (hsub _ ha)
      · intro q hq
        rw [he2, List.mem_append] at hq
        rcases hq with hq | hq
        · exact i1 (hsub q hq)
        · rw [List.mem_singleton] at hq
          rw [hq]
          exact hest
  · intro p hp
    rcases i3 p hp with h' | h'
    · exact hinv.vis_grid h'
    · rw [mem_gridFinset]
      obtain ⟨d, hceq, hib, _⟩ := mem_connected_neighbors.mp h'
      exact hib
  · intro c hc hq n hstep
    by_cases hcv : c ∈ visited
    · by_cases hcx : c = (x, y)
      · refine i2 n ?_
        rw [hcx] at hstep
        exact hstep
      · refine i1 (hinv.closed c hcv ?_ n hstep)
        intro e he
        rcases List.mem_cons.mp he with he' | he'
        · rw [he']
          intro hh
          exact hcx hh.symm
        · exact fun hh => absurd hh (hq e (i5 e he'))
    · obtain ⟨e, he, he1, _⟩ := i7 c hc hcv
      exact absurd he1 (hq e he)
  · intro hend
    by_cases hev : m.end_ ∈ visited
    · obtain ⟨e, he, he1⟩ := hinv.end_pend hev
      rcases List.mem_cons.mp he with he' | he'
      · rw [he'] at he1
        exact absurd he1 hne
      · exact ⟨e, i5 e he', he1⟩
    · obtain ⟨e, he, he1, _⟩ := i7 m.end_ hend hev
      exact ⟨e, he, he1⟩
  · intro e he
    rcases i4 e he with h' | h'
    · exact Or.inl h'
    · exact Or.inr ⟨h'.1, h'.2.1, h'.2.2.1⟩

theorem bfsLoop_nil (m : Maze) (fuel : ℕ) (visited : Finset (ℤ × ℤ)) :
    bfsLoop m (fuel + 1) [] visited = some [] := rfl

theorem dfsLoop_nil (m : Maze) (fuel : ℕ) (visited : Finset (ℤ × ℤ)) :
    dfsLoop m (fuel + 1) [] visited = some [] := rfl

theorem bfsLoop_cons (m : Maze) (fuel : ℕ) (x y : ℤ) (path : List (ℤ × ℤ))
    (rest : List SearchEntry) (visited : Finset (ℤ × ℤ)) :
    bfsLoop m (fuel + 1) (((x, y), path) :: rest) visited =
      if (x, y) = m.end_ then some path
      else
        bfsLoop m fuel
          ((m._get_connected_neighbors x y).foldl (searchFold (fun e q => q ++ [e]) path)
            (rest, visited)).1
          ((m._get_connected_neighbors x y).foldl (searchFold (fun e q => q ++ [e]) path)
            (rest, visited)).2 := rfl

theorem dfsLoop_cons (m : Maze) (fuel : ℕ) (x y : ℤ) (path : List (ℤ × ℤ))
    (rest : List SearchEntry) (visited : Finset (ℤ × ℤ)) :
    dfsLoop m (fuel + 1) (((x, y), path) :: rest) visited =
      if (x, y) = m.end_ then some path
      else
        dfsLoop m fuel
          ((m._get_connected_neighbors x y).foldl (searchFold (fun e q => e :: q) path)
            (rest, visited)).1
          ((m._get_connected_neighbors x y).foldl (searchFold (fun e q => e :: q) path)
            (rest, visited)).2 := rfl

theorem searchInv_nil_unreachable {m : Maze} {visited : Finset (ℤ × ℤ)}
    (hinv : SearchInv m [] visited) : ¬ ReachesEnd m := by
  rintro ⟨p, hp⟩
  have hcl : ∀ c, c ∈ visited → ∀ n, stepAdj m c n → n ∈ visited := by
    intro c hc n hstep
    exact hinv.closed c hc (fun e he => absurd he (List.not_mem_nil e)) n hstep
  have hend : m.end_ ∈ visited :=
    pathFrom_closed_pred (fun c => c ∈ visited) hcl p m.start m.end_ hp hinv.start_vis
  obtain ⟨e, he, _⟩ := hinv.end_pend hend
  exact absurd he (List.not_mem_nil e)

/-- Full correctness of the `solve_dfs` loop: with the invariant and enough
fuel it returns, an empty result means the end is unreachable, and a
nonempty result is a duplicate-free start-to-end path. -/
theorem dfsLoop_correct (m : Maze) :
    ∀ (fuel : ℕ) (queue : List SearchEntry) (visited : Finset (ℤ × ℤ)),
      SearchInv m queue visited →
      queue.length + (gridN m - visited.card) < fuel →
      ∃ r, dfsLoop m fuel queue visited = some r ∧
        (r = [] → ¬ ReachesEnd m) ∧ (r ≠ [] → ValidPath m r ∧ r.Nodup) := by
  intro fuel
  induction fuel with
  | zero =>
    intro queue visited _ hlt
    omega
  | succ fuel ih =>
    intro queue visited hinv hlt
    cases queue with
    | nil =>
      refine ⟨[], dfsLoop_nil m fuel visited, fun _ => searchInv_nil_unreachable hinv, ?_⟩
      intro h
      exact absurd rfl h
    | cons e rest =>
      obtain ⟨⟨x, y⟩, path⟩ := e
      by_cases hend : (x, y) = m.end_
      · refine ⟨path, ?_, ?_, ?_⟩
        · rw [dfsLoop_cons, if_pos hend]
        · intro hp
          obtain ⟨hpf, _, _⟩ := hinv.entries ((x, y), path) (List.mem_cons_self _ _)
          rw [hp] at hpf
          exact absurd rfl (pathFrom_ne_nil hpf)
        · intro _
          obtain ⟨hpf, hnd, _⟩ := hinv.entries ((x, y), path) (List.mem_cons_self _ _)
          refine ⟨?_, hnd⟩
          show PathFrom m m.start m.end_ path
          rw [← hend]
          exact hpf
      · obtain ⟨hinv', hlen, hsubv, _⟩ :=
          searchInv_step m (fun e q => e :: q) (fun e q x => List.mem_cons)
            (fun e q => rfl) hinv hend
        have hgrid := Finset.card_le_card hinv'.vis_grid
        rw [card_gridFinset] at hgrid
        have hsub := Finset.card_le_card hsubv
        simp only [List.length_cons] at hlt
        obtain ⟨r, hr, h1, h2⟩ := ih _ _ hinv' (by omega)
        refine ⟨r, ?_, h1, h2⟩
        rw [dfsLoop_cons, if_neg hend]
        exact hr

theorem solve_dfs_spec (m : Maze) (hWF : WF m) :
    (m.solve_dfs = [] → ¬ ReachesEnd m) ∧
    (m.solve_dfs ≠ [] → ValidPath m m.solve_dfs ∧ m.solve_dfs.Nodup) := by
  have h1 : (1 : ℕ) ≤ gridN m := by
    obtain ⟨hw, hh, _⟩ := hWF
    exact Nat.mul_pos (by omega) (by omega)
  have hcard : ({m.start} : Finset (ℤ × ℤ)).card = 1 := Finset.card_singleton _
  obtain ⟨r, hr, hempty, hval⟩ := dfsLoop_correct m (searchFuel m)
    [(m.start, [m.start])] {m.start} (searchInv_init m hWF)
    (by
      simp only [List.length_cons, List.length_nil, hcard, searchFuel, gridN]
      simp only [gridN] at h1
      omega)
  have hres : m.solve_dfs = r := by
    simp only [Maze.solve_dfs, hr, Option.getD_some]
  rw [hres]
  exact ⟨hempty, hval⟩

theorem searchFold_append (path : List (ℤ × ℤ)) :
    ∀ (ns : List (ℤ × ℤ)) (q : List SearchEntry) (v : Finset (ℤ × ℤ)),
      ∃ news, (ns.foldl (searchFold (fun e l => l ++ [e]) path) (q, v)).1 = q ++ news ∧
        ∀ e ∈ news, e.2 = path ++ [e.1] := by
  intro ns
  induction ns with
  | nil =>
    intro q v
    exact ⟨[], (List.append_nil q).symm, by simp⟩
  | cons n ns ih =>
    intro q v
    simp only [List.foldl_cons]
    by_cases hn : n ∈ v
    · rw [searchFold, if_pos hn]
      exact ih q v
    · rw [searchFold, if_neg hn]
      dsimp only
      obtain ⟨news, h1, h2⟩ := ih (q ++ [(n, path ++ [n])]) (insert n v)
      refine ⟨(n, path ++ [n]) :: news, ?_, ?_⟩
      · rw [h1, List.append_assoc]
        rfl
      · intro e he
        rcases List.mem_cons.mp he with he' | he'
        · rw [he']
        · exact h2 e he'

/-- The BFS refinement of `SearchInv`: stored paths are shortest, the queue
holds at most two consecutive path-length layers in order, and every cell
within the inner layer's distance is already visited. -/
structure BFSInv (m : Maze) (queue : List SearchEntry) (visited : Finset (ℤ × ℤ))
    (lv : ℕ) : Prop where
  base : SearchInv m queue visited
  short : ∀ e ∈ queue, ∀ p, PathFrom m m.start e.1 p → e.2.length ≤ p.length
  levels : ∃ A B, queue = A ++ B ∧ (∀ e ∈ A, e.2.length = lv + 1) ∧
    ∀ e ∈ B, e.2.length = lv + 2
  complete : ∀ c p, PathFrom m m.start c p → p.length ≤ lv + 1 → c ∈ visited

theorem bfsInv_shift {m : Maze} {queue : List SearchEntry}
    {visited : Finset (ℤ × ℤ)} {lv : ℕ} (h : BFSInv m queue visited lv)
    (hall : ∀ e ∈ queue, e.2.length = lv + 2) : BFSInv m queue visited (lv + 1) := by
  refine ⟨h.base, h.short, ⟨queue, [], (List.append_nil _).symm, hall, by simp⟩, ?_⟩
  intro c p hp hlen
  rcases Nat.lt_or_ge p.length (lv + 2) with hlt | hge
  · exact h.complete c p hp (by omega)
  · obtain ⟨q, y, hpq, hq, hstep, hqlen⟩ := pathFrom_snoc hp (by omega)
    have hy : y ∈ visited := h.complete y q hq (by omega)
    refine h.base.closed y hy ?_ c hstep
    intro e he
    intro hey
    have hq' : PathFrom m m.start e.1 q := by
      rw [hey]
      exact hq
    have h1 := h.short e he q hq'
    rw [hall e he] at h1
    omega

theorem bfsInv_init (m : Maze) (hWF : WF m) :
    BFSInv m [(m.start, [m.start])] {m.start} 0 := by
  refine ⟨searchInv_init m hWF, ?_, ?_, ?_⟩
  · intro e he p hp
    rw [List.mem_singleton] at he
    subst he
    simp only [List.length_cons, List.length_nil]
    cases p with
    | nil => exact absurd rfl (pathFrom_ne_nil hp)
    | cons a t => simp
  · refine ⟨[(m.start, [m.start])], [], (List.append_nil _).symm, ?_, by simp⟩
    intro e he
    rw [List.mem_singleton] at he
    subst he
    rfl
  · intro c p hp hlen
    cases p with
    | nil => exact absurd rfl (pathFrom_ne_nil hp)
    | cons a t =>
      cases t with
      | nil =>
        obtain ⟨hs, hc⟩ := pathFrom_single hp
        rw [Finset.mem_singleton, hc, hs]
      | cons b t' =>
        simp only [List.length_cons] at hlen
        omega

/-- Full correctness of the `solve_bfs` loop: with the level invariant and
enough fuel it returns, an empty result means the end is unreachable, and a
nonempty result is a duplicate-free shortest start-to-end path. -/
theorem bfsLoop_correct (m : Maze) :
    ∀ (fuel : ℕ) (queue : List SearchEntry) (visited : Finset (ℤ × ℤ)) (lv : ℕ),
      BFSInv m queue visited lv →
      queue.length + (gridN m - visited.card) < fuel →
      ∃ r, bfsLoop m fuel queue visited = some r ∧
        (r = [] → ¬ ReachesEnd m) ∧
        (r ≠ [] → IsShortestPath m r ∧ r.Nodup) := by
  intro fuel
  induction fuel with
  | zero =>
    intro queue visited lv _ hlt
    omega
  | succ fuel ih =>
    intro queue visited lv hbfs hlt
    cases queue with
    | nil =>
      refine ⟨[], bfsLoop_nil m fuel visited,
        fun _ => searchInv_nil_unreachable hbfs.base, ?_⟩
      intro h
      exact absurd rfl h
    | cons e0 rest =>
      have hmain : ∃ lv', BFSInv m (e0 :: rest) visited lv' ∧ e0.2.length = lv' + 1 ∧
          ∃ A B, rest = A ++ B ∧ (∀ e ∈ A, e.2.length = lv' + 1) ∧
            ∀ e ∈ B, e.2.length = lv' + 2 := by
        obtain ⟨A, B, hqe, hA, hB⟩ := hbfs.levels
        cases A with
        | nil =>
          simp only [List.nil_append] at hqe
          subst hqe
          refine ⟨lv + 1, bfsInv_shift hbfs hB, hB e0 (List.mem_cons_self _ _), rest, [],
            (List.append_nil _).symm, ?_, by simp⟩
          intro e he
          exact hB e (List.mem_cons_of_mem _ he)
        | cons a A' =>
          rw [List.cons_append] at hqe
          injection hqe with h1 h2
          subst h1
          subst h2
          refine ⟨lv, hbfs, hA _ (List.mem_cons_self _ _), A', B, rfl, ?_, hB⟩
          intro e he
          exact hA e (List.mem_cons_of_mem _ he)
      obtain ⟨lv', hbfs', hplen, A', B, hre, hA', hB'⟩ := hmain
      obtain ⟨⟨x, y⟩, path⟩ := e0
      dsimp only at hplen
      by_cases hend : (x, y) = m.end_
      · refine ⟨path, ?_, ?_, ?_⟩
        · rw [bfsLoop_cons, if_pos hend]
        · intro hp
          obtain ⟨hpf, _, _⟩ := hbfs'.base.entries ((x, y), path) (List.mem_cons_self _ _)
          rw [hp] at hpf
          exact absurd rfl (pathFrom_ne_nil hpf)
        · intro _
          obtain ⟨hpf, hnd, _⟩ := hbfs'.base.entries ((x, y), path) (List.mem_cons_self _ _)
          have hvp : ValidPath m path := by
            show PathFrom m m.start m.end_ path
            rw [← hend]
            exact hpf
          refine ⟨⟨hvp, ?_⟩, hnd⟩
          intro q hq
          have hq' : PathFrom m m.start (x, y) q := by
            rw [hend]
            exact hq
          exact hbfs'.short ((x, y), path) (List.mem_cons_self _ _) q hq'
      · obtain ⟨hinv', hlen, hsubv, hentry⟩ :=
          searchInv_step m (fun e q => q ++ [e])
            (fun e q x => by
              rw [List.mem_append, List.mem_singleton]
              exact or_comm)
            (fun e q => by simp) hbfs'.base hend
        obtain ⟨news, happ, hnews⟩ :=
          searchFold_append path (m._get_connected_neighbors x y) rest visited
        have hnew : BFSInv m
            ((m._get_connected_neighbors x y).foldl
              (searchFold (fun e l => l ++ [e]) path) (rest, visited)).1
            ((m._get_connected_neighbors x y).foldl
              (searchFold (fun e l => l ++ [e]) path) (rest, visited)).2 lv' := by
          refine ⟨hinv', ?_, ?_, ?_⟩
          · intro e he p hp
            rcases hentry e he with h' | h'
            · exact hbfs'.short e (List.mem_cons_of_mem _ h') p hp
            · obtain ⟨hens, he2, henv⟩ := h'
              rcases Nat.lt_or_ge p.length (lv' + 2) with hlt2 | hge2
              · exact absurd (hbfs'.complete e.1 p hp (by omega)) henv
              · rw [he2]
                simp only [List.length_append, List.length_cons, List.length_nil]
                omega
          · refine ⟨A', B ++ news, ?_, hA', ?_⟩
            · rw [happ, hre, List.append_assoc]
            · intro e he
              rcases List.mem_append.mp he with he' | he'
              · exact hB' e he'
              · rw [hnews e he']
                simp only [List.length_append, List.length_cons, List.length_nil]
                omega
          · intro c p hp hl
            exact hsubv (hbfs'.complete c p hp hl)
        have hgrid := Finset.card_le_card hinv'.vis_grid
        rw [card_gridFinset] at hgrid
        have hsub := Finset.card_le_card hsubv
        simp only [List.length_cons] at hlt
        obtain ⟨r, hr, h1, h2⟩ := ih _ _ lv' hnew (by omega)
        refine ⟨r, ?_, h1, h2⟩
        rw [bfsLoop_cons, if_neg hend]
        exact hr

theorem solve_bfs_spec (m : Maze) (hWF : WF m) :
    (m.solve_bfs = [] → ¬ ReachesEnd m) ∧
    (m.solve_bfs ≠ [] → IsShortestPath m m.solve_bfs ∧ m.solve_bfs.Nodup) := by
  have h1 : (1 : ℕ) ≤ gridN m := by
    obtain ⟨hw, hh, _⟩ := hWF
    exact Nat.mul_pos (by omega) (by omega)
  have hcard : ({m.start} : Finset (ℤ × ℤ)).card = 1 := Finset.card_singleton _
  obtain ⟨r, hr, hempty, hval⟩ := bfsLoop_correct m (searchFuel m)
    [(m.start, [m.start])] {m.start} 0 (bfsInv_init m hWF)
    (by
      simp only [List.length_cons, List.length_nil, hcard, searchFuel, gridN]
      simp only [gridN] at h1
      omega)
  have hres : m.solve_bfs = r := by
    simp only [Maze.solve_bfs, hr, Option.getD_some]
  rw [hres]
  exact ⟨hempty, hval⟩

/-! ## A* invariants -/

/-- The grid cells whose `g_score` entry is present. -/
def gDefined (m : Maze) (st : AStarState) : Finset (ℤ × ℤ) :=
  (gridFinset m).filter fun p => (st.g_score p).isSome

/-- Termination potential of the A* loop: heap size plus the sum of all
grid `g_score` values (absent entries counted as the cell count). -/
def phiA (m : Maze) (st : AStarState) : ℕ :=
  st.open_set.length + (gridFinset m).sum fun p => (st.g_score p).getD (gridN m)

/-- The core A* loop invariant. -/
structure AInv (m : Maze) (st : AStarState) : Prop where
  g_start : st.g_score m.start = some 0
  cf_step : ∀ n c, st.came_from n = some c → stepAdj m c n ∧
    ∃ gc gn, st.g_score c = some gc ∧ st.g_score n = some gn ∧ gc + 1 ≤ gn
  dom : ∀ n, (st.g_score n).isSome → n = m.start ∨ (st.came_from n).isSome
  g_grid : ∀ n, (st.g_score n).isSome → n ∈ gridFinset m
  open_g : ∀ e ∈ st.open_set, (st.g_score e.2).isSome
  open_f : ∀ e ∈ st.open_set,
    (∃ gx, st.g_score e.2 = some gx ∧ gx + heuristic e.2 m.end_ ≤ e.1) ∨ e = (0, m.start)
  g_bound : ∀ x gx, st.g_score x = some gx → gx + 1 ≤ (gDefined m st).card
  end_pend : (st.g_score m.end_).isSome → ∃ e ∈ st.open_set, e.2 = m.end_

/-- An open entry for `x` whose key is no larger than `g(x) + h(x)`. -/
def entryBound (m : Maze) (st : AStarState) (x : ℤ × ℤ) (gx : ℕ) : Prop :=
  ∃ e ∈ st.open_set, e.2 = x ∧ e.1 ≤ gx + heuristic x m.end_

/-- All connectivity successors of `x` already hold a `g` value at most
`g(x) + 1`. -/
def relaxedAt (m : Maze) (st : AStarState) (x : ℤ × ℤ) (gx : ℕ) : Prop :=
  ∀ n, stepAdj m x n → ∃ gn, st.g_score n = some gn ∧ gn ≤ gx + 1

/-- The A* progress invariant: every `g`-defined cell either has a faithful
open entry or has been fully relaxed. -/
def AStarA7 (m : Maze) (st : AStarState) : Prop :=
  ∀ x gx, st.g_score x = some gx → entryBound m st x gx ∨ relaxedAt m st x gx

/-- `AStarA7`, except possibly at the cell currently being expanded. -/
def A7except (m : Maze) (st : AStarState) (c : ℤ × ℤ) : Prop :=
  ∀ x gx, st.g_score x = some gx → x ≠ c → entryBound m st x gx ∨ relaxedAt m st x gx

theorem relaxNeighbor_none (m : Maze) (c nb : ℤ × ℤ) (st : AStarState)
    (hnb : st.g_score nb = none) :
    relaxNeighbor m c st nb =
      { open_set := ((st.g_score c).getD 0 + 1 + heuristic nb m.end_, nb) :: st.open_set,
        came_from := fun p => if p = nb then some c else st.came_from p,
        g_score := fun p => if p = nb then some ((st.g_score c).getD 0 + 1) else st.g_score p,
        f_score := fun p => if p = nb then some ((st.g_score c).getD 0 + 1 + heuristic nb m.end_)
          else st.f_score p } := by
  simp [relaxNeighbor, hnb]

theorem relaxNeighbor_some_lt (m : Maze) (c nb : ℤ × ℤ) (st : AStarState) (gn : ℕ)
    (hnb : st.g_score nb = some gn) (hlt : (st.g_score c).getD 0 + 1 < gn) :
    relaxNeighbor m c st nb =
      { open_set := ((st.g_score c).getD 0 + 1 + heuristic nb m.end_, nb) :: st.open_set,
        came_from := fun p => if p = nb then some c else st.came_from p,
        g_score := fun p => if p = nb then some ((st.g_score c).getD 0 + 1) else st.g_score p,
        f_score := fun p => if p = nb then some ((st.g_score c).getD 0 + 1 + heuristic nb m.end_)
          else st.f_score p } := by
  simp [relaxNeighbor, hnb, hlt]

theorem relaxNeighbor_some_ge (m : Maze) (c nb : ℤ × ℤ) (st : AStarState) (gn : ℕ)
    (hnb : st.g_score nb = some gn) (hge : ¬ (st.g_score c).getD 0 + 1 < gn) :
    relaxNeighbor m c st nb = st := by
  simp [relaxNeighbor, hnb, hge]

theorem sum_getD_if (s : Finset (ℤ × ℤ)) (g : (ℤ × ℤ) → Option ℕ) (a : ℤ × ℤ)
    (ha : a ∈ s) (t d : ℕ) :
    (s.sum fun p => (if p = a then some t else g p).getD d) + (g a).getD d =
      (s.sum fun p => (g p).getD d) + t := by
  rw [← Finset.add_sum_erase s (fun p => (if p = a then some t else g p).getD d) ha,
    ← Finset.add_sum_erase s (fun p => (g p).getD d) ha]
  have h1 : ((s.erase a).sum fun p => (if p = a then some t else g p).getD d) =
      (s.erase a).sum fun p => (g p).getD d := by
    refine Finset.sum_congr rfl ?_
    intro x hx
    rw [if_neg (Finset.ne_of_mem_erase hx)]
  rw [h1, if_pos rfl, Option.getD_some]
  omega

theorem relaxWrite_spec (m : Maze) (c nb : ℤ × ℤ) (hstep : stepAdj m c nb)
    (st : AStarState) (hinv : AInv m st) (gc : ℕ) (hgc : st.g_score c = some gc)
    (hfresh : st.g_score nb = none ∨ ∃ gn, st.g_score nb = some gn ∧ gc + 1 < gn)
    (st' : AStarState)
    (hst' : st' =
      { open_set := (gc + 1 + heuristic nb m.end_, nb) :: st.open_set,
        came_from := fun p => if p = nb then some c else st.came_from p,
        g_score := fun p => if p = nb then some (gc + 1) else st.g_score p,
        f_score := fun p => if p = nb then some (gc + 1 + heuristic nb m.end_)
          else st.f_score p }) :
    AInv m st' ∧
    st'.g_score c = st.g_score c ∧
    phiA m st' ≤ phiA m st ∧
    (∃ gn, st'.g_score nb = some gn ∧ gn ≤ gc + 1) ∧
    (∀ x gx, st.g_score x = some gx → ∃ gx', st'.g_score x = some gx' ∧ gx' ≤ gx) ∧
    (∀ e ∈ st.open_set, e ∈ st'.open_set) ∧
    (∀ x gx', st'.g_score x = some gx' → x ≠ nb → st.g_score x = some gx') ∧
    (A7except m st c → A7except m st' c) := by
  have hnbc : nb ≠ c := stepAdj_ne hstep
  have hnbgrid : nb ∈ gridFinset m := mem_gridFinset.mpr (stepAdj_inGrid hstep)
  have hg' : ∀ p, st'.g_score p = if p = nb then some (gc + 1) else st.g_score p := by
    intro p
    rw [hst']
  have hcf' : ∀ p, st'.came_from p = if p = nb then some c else st.came_from p := by
    intro p
    rw [hst']
  have hopen' : st'.open_set = (gc + 1 + heuristic nb m.end_, nb) :: st.open_set := by
    rw [hst']
  have hgnb' : st'.g_score nb = some (gc + 1) := by
    rw [hg' nb, if_pos rfl]
  have hgc' : st'.g_score c = st.g_score c := by
    rw [hg' c, if_neg (fun h => hnbc h.symm)]
  have hmono : ∀ x gx, st.g_score x = some gx →
      ∃ gx', st'.g_score x = some gx' ∧ gx' ≤ gx := by
    intro x gx hx
    by_cases hx' : x = nb
    · subst hx'
      rcases hfresh with hf | ⟨gn, hf, hlt⟩
      · rw [hf] at hx
        exact Option.noConfusion hx
      · rw [hf] at hx
        obtain rfl := Option.some_injective _ hx
        exact ⟨gc + 1, hgnb', by omega⟩
    · exact ⟨gx, by rw [hg' x, if_neg hx']; exact hx, le_refl gx⟩
  have hunch : ∀ x gx', st'.g_score x = some gx' → x ≠ nb → st.g_score x = some gx' := by
    intro x gx' hx hx'
    rw [hg' x, if_neg hx'] at hx
    exact hx
  have hold : ∀ e ∈ st.open_set, e ∈ st'.open_set := by
    intro e he
    rw [hopen']
    exact List.mem_cons_of_mem _ he
  have hstartnb : m.start ≠ nb := by
    intro h
    rw [← h] at hfresh
    rcases hfresh with hf | ⟨gn, hf, hlt⟩
    · rw [hinv.g_start] at hf
      exact Option.noConfusion hf
    · rw [hinv.g_start] at hf
      obtain rfl := Option.some_injective _ hf.symm
      omega
  have hD' : gDefined m st' = insert nb (gDefined m st) := by
    ext p
    by_cases hp : p = nb
    · subst hp
      simp only [gDefined, Finset.mem_insert, Finset.mem_filter]
      constructor
      · intro _
        exact Or.inl trivial
      · intro _
        refine ⟨hnbgrid, ?_⟩
        rw [hgnb']
        rfl
    · simp only [gDefined, Finset.mem_insert, Finset.mem_filter, hg' p, if_neg hp]
      constructor
      · intro h'
        exact Or.inr h'
      · intro h'
        rcases h' with h' | h'
        · exact absurd h' hp
        · exact h'
  have hDsub : gDefined m st ⊆ gridFinset m := Finset.filter_subset _ _
  have hDcard : (gDefined m st').card ≤ gridN m := by
    rw [← card_gridFinset m]
    refine Finset.card_le_card ?_
    rw [hD']
    exact Finset.insert_subset hnbgrid hDsub
  have hDmono : (gDefined m st).card ≤ (gDefined m st').card := by
    refine Finset.card_le_card ?_
    rw [hD']
    exact Finset.subset_insert _ _
  have hDnb : gc + 1 + 1 ≤ (gDefined m st').card := by
    rcases hfresh with hf | ⟨gn, hf, hlt⟩
    · have hnbD : nb ∉ gDefined m st := by
        simp only [gDefined, Finset.mem_filter, hf]
        intro h'
        exact Bool.noConfusion h'.2
      rw [hD', Finset.card_insert_of_not_mem hnbD]
      have := hinv.g_bound c gc hgc
      omega
    · have := hinv.g_bound nb gn hf
      omega
  refine ⟨⟨?_, ?_, ?_, ?_, ?_, ?_, ?_, ?_⟩, hgc', ?_, ⟨gc + 1, hgnb', le_refl _⟩,
    hmono, hold, hunch, ?_⟩
  · rw [hg' m.start, if_neg hstartnb]
    exact hinv.g_start
  · intro n c' hn
    rw [hcf' n] at hn
    by_cases hn' : n = nb
    · rw [if_pos hn'] at hn
      obtain rfl := Option.some_injective _ hn
      subst hn'
      refine ⟨hstep, gc, gc + 1, ?_, hgnb', le_refl _⟩
      rw [hgc']
      exact hgc
    · rw [if_neg hn'] at hn
      obtain ⟨hs, gc0, gn0, hgc0, hgn0, hle0⟩ := hinv.cf_step n c' hn
      obtain ⟨gc1, hgc1, hle1⟩ := hmono c' gc0 hgc0
      refine ⟨hs, gc1, gn0, hgc1, ?_, by omega⟩
      rw [hg' n, if_neg hn']
      exact hgn0
  · intro n hn
    by_cases hn' : n = nb
    · rw [hcf' n, if_pos hn']
      exact Or.inr rfl
    · rw [hg' n, if_neg hn'] at hn
      rcases hinv.dom n hn with h' | h'
      · exact Or.inl h'
      · rw [hcf' n, if_neg hn']
        exact Or.inr h'
  · intro n hn
    by_cases hn' : n = nb
    · subst hn'
      exact hnbgrid
    · rw [hg' n, if_neg hn'] at hn
      exact hinv.g_grid n hn
  · intro e he
    rw [hopen'] at he
    rcases List.mem_cons.mp he with he' | he'
    · rw [he', hgnb']
      rfl
    · have := hinv.open_g e he'
      by_cases he2 : e.2 = nb
      · rw [he2, hgnb']
        rfl
      · rw [hg' e.2, if_neg he2]
        exact this
  · intro e he
    rw [hopen'] at he
    rcases List.mem_cons.mp he with he' | he'
    · rw [he']
      exact Or.inl ⟨gc + 1, hgnb', le_refl _⟩
    · rcases hinv.open_f e he' with ⟨gx, hgx, hle⟩ | h'
      · by_cases he2 : e.2 = nb
        · rw [he2] at hgx
          rcases hfresh with hf | ⟨gn, hf, hlt⟩
          · rw [hf] at hgx
            exact absurd hgx (by simp)
          · rw [hf] at hgx
            obtain rfl := Option.some_injective _ hgx
            refine Or.inl ⟨gc + 1, by rw [he2]; exact hgnb', ?_⟩
            rw [he2] at hle ⊢
            omega
        · exact Or.inl ⟨gx, by rw [hg' e.2, if_neg he2]; exact hgx, hle⟩
      · exact Or.inr h'
  · intro x gx hx
    by_cases hx' : x = nb
    · subst hx'
      rw [hgnb'] at hx
      obtain rfl := Option.some_injective _ hx.symm
      exact hDnb
    · rw [hg' x, if_neg hx'] at hx
      have := hinv.g_bound x gx hx
      omega
  · intro hend
    by_cases he' : m.end_ = nb
    · refine ⟨(gc + 1 + heuristic nb m.end_, nb), ?_, he'.symm⟩
      rw [hopen']
      exact List.mem_cons_self _ _
    · rw [hg' m.end_, if_neg he'] at hend
      obtain ⟨e, he, he2⟩ := hinv.end_pend hend
      exact ⟨e, hold e he, he2⟩
  · -- the potential does not increase
    have hsum : ((gridFinset m).sum fun p => (st'.g_score p).getD (gridN m)) =
        (gridFinset m).sum fun p =>
          (if p = nb then some (gc + 1) else st.g_score p).getD (gridN m) := by
      refine Finset.sum_congr rfl ?_
      intro p _
      rw [hg' p]
    have heq := sum_getD_if (gridFinset m) st.g_score nb hnbgrid (gc + 1) (gridN m)
    have hgetd : gc + 1 + 1 ≤ (st.g_score nb).getD (gridN m) := by
      rcases hfresh with hf | ⟨gn, hf, hlt⟩
      · rw [hf]
        simp only [Option.getD_none]
        have hle := hDcard
        omega
      · rw [hf]
        simp only [Option.getD_some]
        omega
    have hlenopen : st'.open_set.length = st.open_set.length + 1 := by
      rw [hopen']
      rfl
    rw [phiA, phiA, hsum, hlenopen]
    omega
  · intro h7 x gx hx hxc
    by_cases hx' : x = nb
    · rw [hx', hgnb'] at hx
      obtain rfl := Option.some_injective _ hx.symm
      refine Or.inl ⟨(gc + 1 + heuristic nb m.end_, nb), ?_, hx'.symm, ?_⟩
      · rw [hopen']
        exact List.mem_cons_self _ _
      · rw [hx']
    · have hxold := hunch x gx hx hx'
      rcases h7 x gx hxold hxc with ⟨e, he, he2, hle⟩ | hrel
      · refine Or.inl ⟨e, hold e he, he2, hle⟩
      · refine Or.inr ?_
        intro n hsn
        obtain ⟨gn0, hgn0, hle0⟩ := hrel n hsn
        obtain ⟨gn1, hgn1, hle1⟩ := hmono n gn0 hgn0
        exact ⟨gn1, hgn1, by omega⟩

theorem relaxNeighbor_spec (m : Maze) (c nb : ℤ × ℤ) (hstep : stepAdj m c nb)
    (st : AStarState) (hinv : AInv m st) (gc : ℕ) (hgc : st.g_score c = some gc) :
    AInv m (relaxNeighbor m c st nb) ∧
    (relaxNeighbor m c st nb).g_score c = st.g_score c ∧
    phiA m (relaxNeighbor m c st nb) ≤ phiA m st ∧
    (∃ gn, (relaxNeighbor m c st nb).g_score nb = some gn ∧ gn ≤ gc + 1) ∧
    (∀ x gx, st.g_score x = some gx →
      ∃ gx', (relaxNeighbor m c st nb).g_score x = some gx' ∧ gx' ≤ gx) ∧
    (∀ e ∈ st.open_set, e ∈ (relaxNeighbor m c st nb).open_set) ∧
    (∀ x gx', (relaxNeighbor m c st nb).g_score x = some gx' → x ≠ nb →
      st.g_score x = some gx') ∧
    (A7except m st c → A7except m (relaxNeighbor m c st nb) c) := by
  have hgetd : (st.g_score c).getD 0 = gc := by
    rw [hgc]
    rfl
  rcases hnb : st.g_score nb with _ | gn
  · have heq := relaxNeighbor_none m c nb st hnb
    rw [hgetd] at heq
    exact relaxWrite_spec m c nb hstep st hinv gc hgc (Or.inl hnb) _ heq
  · by_cases hlt : gc + 1 < gn
    · have heq := relaxNeighbor_some_lt m c nb st gn hnb (by rw [hgetd]; exact hlt)
      rw [hgetd] at heq
      exact relaxWrite_spec m c nb hstep st hinv gc hgc (Or.inr ⟨gn, hnb, hlt⟩) _ heq
    · have heq := relaxNeighbor_some_ge m c nb st gn hnb (by rw [hgetd]; exact hlt)
      rw [heq]
      refine ⟨hinv, rfl, le_refl _, ⟨gn, hnb, by omega⟩, ?_, fun e he => he, ?_,
        fun h => h⟩
      · intro x gx hx
        exact ⟨gx, hx, le_refl _⟩
      · intro x gx' hx _
        exact hx

theorem relaxFold_spec (m : Maze) (c : ℤ × ℤ) (gc : ℕ) :
    ∀ (ns : List (ℤ × ℤ)), (∀ n ∈ ns, stepAdj m c n) →
    ∀ (st : AStarState), AInv m st → st.g_score c = some gc → A7except m st c →
      (∀ n, stepAdj m c n → n ∉ ns → ∃ gn, st.g_score n = some gn ∧ gn ≤ gc + 1) →
      AInv m (ns.foldl (relaxNeighbor m c) st) ∧
      (ns.foldl (relaxNeighbor m c) st).g_score c = some gc ∧
      phiA m (ns.foldl (relaxNeighbor m c) st) ≤ phiA m st ∧
      (∀ n, stepAdj m c n →
        ∃ gn, (ns.foldl (relaxNeighbor m c) st).g_score n = some gn ∧ gn ≤ gc + 1) ∧
      A7except m (ns.foldl (relaxNeighbor m c) st) c := by
  intro ns
  induction ns with
  | nil =>
    intro _ st hinv hgc h7 hrel
    exact ⟨hinv, hgc, le_refl _, fun n hn => hrel n hn (List.not_mem_nil n), h7⟩
  | cons n0 ns ih =>
    intro hns st hinv hgc h7 hrel
    simp only [List.foldl_cons]
    obtain ⟨j1, j2, j3, j4, j5, j6, j7, j8⟩ :=
      relaxNeighbor_spec m c n0 (hns n0 (List.mem_cons_self _ _)) st hinv gc hgc
    have hgc1 : (relaxNeighbor m c st n0).g_score c = some gc := by
      rw [j2]
      exact hgc
    have hrel1 : ∀ n, stepAdj m c n → n ∉ ns →
        ∃ gn, (relaxNeighbor m c st n0).g_score n = some gn ∧ gn ≤ gc + 1 := by
      intro n hn hnns
      by_cases hn0 : n = n0
      · rw [hn0]
        exact j4
      · obtain ⟨gn, hgn, hle⟩ := hrel n hn (by
          intro hmem
          rcases List.mem_cons.mp hmem with h' | h'
          · exact hn0 h'
          · exact hnns h')
        obtain ⟨gn', hgn', hle'⟩ := j5 n gn hgn
        exact ⟨gn', hgn', by omega⟩
    obtain ⟨k1, k2, k3, k4, k5⟩ := ih (fun n hn => hns n (List.mem_cons_of_mem _ hn))
      (relaxNeighbor m c st n0) j1 hgc1 (j8 h7) hrel1
    exact ⟨k1, k2, le_trans k3 j3, k4, k5⟩

theorem reconstructPath_succ (cf : (ℤ × ℤ) → Option (ℤ × ℤ)) (start : ℤ × ℤ)
    (fuel : ℕ) (current : ℤ × ℤ) (path : List (ℤ × ℤ)) :
    reconstructPath cf start (fuel + 1) current path =
      match cf current with
      | none => some ((path ++ [start]).reverse)
      | some prev => reconstructPath cf start fuel prev (path ++ [current]) := rfl

theorem reconstructPath_spec (m : Maze) (st : AStarState) (hinv : AInv m st) :
    ∀ (fuel : ℕ) (current : ℤ × ℤ) (gcur : ℕ), st.g_score current = some gcur →
      gcur < fuel →
      ∀ acc : List (ℤ × ℤ),
      ∃ chain, reconstructPath st.came_from m.start fuel current acc =
          some ((acc ++ chain).reverse) ∧
        chain.head? = some current ∧ chain.getLast? = some m.start ∧
        chain.reverse.Chain' (stepAdj m) ∧ chain.Nodup ∧ 1 ≤ chain.length ∧
        chain.length ≤ gcur + 1 ∧
        ∀ x ∈ chain, ∃ gx, st.g_score x = some gx ∧ gx ≤ gcur := by
  intro fuel
  induction fuel with
  | zero =>
    intro current gcur _ hlt
    omega
  | succ fuel ih =>
    intro current gcur hgcur hlt acc
    rcases hcf : st.came_from current with _ | prev
    · have hcur : current = m.start := by
        rcases hinv.dom current (by rw [hgcur]; rfl) with h' | h'
        · exact h'
        · rw [hcf] at h'
          exact absurd h' (by simp)
      refine ⟨[current], ?_, rfl, by rw [hcur]; rfl, List.chain'_singleton _,
        List.nodup_singleton _, by simp, by simp, ?_⟩
      · rw [reconstructPath_succ, hcf]
        dsimp only
        rw [hcur]
      · intro x hx
        rw [List.mem_singleton] at hx
        rw [hx]
        exact ⟨gcur, hgcur, le_refl _⟩
    · obtain ⟨hs, gp, gn, hgp, hgn, hle⟩ := hinv.cf_step current prev hcf
      have hgneq : gn = gcur := by
        rw [hgcur] at hgn
        exact (Option.some_injective _ hgn).symm
      have hgp' : gp < gcur := by omega
      obtain ⟨chain, hrec, hhead, hlast, hchain, hnodup, hlen1, hlenle, hmem⟩ :=
        ih prev gp hgp (by omega) (acc ++ [current])
      refine ⟨current :: chain, ?_, rfl, ?_, ?_, ?_, by simp, ?_, ?_⟩
      · rw [reconstructPath_succ, hcf]
        dsimp only
        rw [hrec, List.append_assoc]
        rfl
      · cases chain with
        | nil => exact absurd hlen1 (by simp)
        | cons z zs =>
          rw [List.getLast?_cons_cons]
          exact hlast
      · rw [List.reverse_cons, List.chain'_append]
        refine ⟨hchain, List.chain'_singleton _, ?_⟩
        intro a ha b hb
        rw [Option.mem_def] at ha hb
        have hrev : chain.reverse.getLast? = chain.head? := List.getLast?_reverse chain
        rw [hrev, hhead] at ha
        obtain rfl := Option.some_injective _ ha
        rw [List.head?_cons] at hb
        obtain rfl := Option.some_injective _ hb
        exact hs
      · rw [List.nodup_cons]
        refine ⟨?_, hnodup⟩
        intro hmemc
        obtain ⟨gx, hgx, hgxle⟩ := hmem current hmemc
        rw [hgcur] at hgx
        obtain rfl := Option.some_injective _ hgx.symm
        omega
      · simp only [List.length_cons]
        omega
      · intro x hx
        rcases List.mem_cons.mp hx with h' | h'
        · rw [h']
          exact ⟨gcur, hgcur, le_refl _⟩
        · obtain ⟨gx, hgx, hgxle⟩ := hmem x h'
          exact ⟨gx, hgx, by omega⟩

theorem keyLt_fst_le {x y : ℕ × (ℤ × ℤ)} (h : ¬ keyLt x y) : y.1 ≤ x.1 := by
  rcases Nat.lt_or_ge x.1 y.1 with h' | h'
  · exact absurd (Or.inl h') h
  · exact h'

/-- At any A* state whose heap minimum is `fv` and where the end cell holds
`g`-value `ge ≤ fv`: walking any remaining path to the end shows
`ge < L` for every length budget `L` covering the path from a `g`-bounded
cell, by the progress invariant and heuristic consistency. -/
theorem astar_reach_g_bound (m : Maze) (st : AStarState) (h7 : AStarA7 m st)
    (fv : ℕ) (hfmin : ∀ e ∈ st.open_set, fv ≤ e.1)
    (ge : ℕ) (hge : st.g_score m.end_ = some ge) (hgefv : ge ≤ fv) (L : ℕ) :
    ∀ (s : List (ℤ × ℤ)) (c : ℤ × ℤ), PathFrom m c m.end_ s →
      (∃ gc, st.g_score c = some gc ∧ gc + s.length ≤ L) → ge + 1 ≤ L := by
  intro s
  induction s with
  | nil =>
    intro c hp _
    exact absurd rfl (pathFrom_ne_nil hp)
  | cons a t ih =>
    intro c hp hgc
    obtain ⟨gc, hgcs, hbound⟩ := hgc
    cases t with
    | nil =>
      obtain ⟨hca, hea⟩ := pathFrom_single hp
      have hce : c = m.end_ := by rw [hca, ← hea]
      rw [hce, hge] at hgcs
      obtain rfl := Option.some_injective _ hgcs.symm
      simp only [List.length_cons, List.length_nil] at hbound
      omega
    | cons b t' =>
      obtain ⟨hac, hab, hp'⟩ := pathFrom_cons hp
      rcases h7 c gc hgcs with ⟨e, he, he2, hef⟩ | hrel
      · have hf := hfmin e he
        have hheur : heuristic c m.end_ + 1 ≤ (a :: b :: t').length :=
          pathFrom_heuristic_le (a :: b :: t') c m.end_ hp
        simp only [List.length_cons] at hbound hheur
        omega
      · obtain ⟨gb, hgb, hgble⟩ := hrel b (by rw [← hac]; exact hab)
        refine ih b hp' ⟨gb, hgb, ?_⟩
        simp only [List.length_cons] at hbound ⊢
        omega

theorem astarLoop_succ (m : Maze) (fuel : ℕ) (st : AStarState) :
    astarLoop m (fuel + 1) st =
      match popMin st.open_set with
      | none => some []
      | some (entry, rest) =>
        if entry.2 = m.end_ then
          reconstructPath st.came_from m.start (reconFuel m) entry.2 []
        else
          astarLoop m fuel
            ((m._get_connected_neighbors entry.2.1 entry.2.2).foldl
              (relaxNeighbor m entry.2) { st with open_set := rest }) := rfl

/-- Full correctness of the `solve_astar` loop: with the invariants and
enough fuel it returns, an empty result means the end is unreachable, and a
nonempty result is a duplicate-free shortest start-to-end path. -/
theorem astarLoop_correct (m : Maze) :
    ∀ (fuel : ℕ) (st : AStarState), AInv m st → AStarA7 m st → phiA m st < fuel →
      ∃ r, astarLoop m fuel st = some r ∧
        (r = [] → ¬ ReachesEnd m) ∧
        (r ≠ [] → ValidPath m r ∧ r.Nodup ∧
          ∀ q, ValidPath m q → r.length ≤ q.length) := by
  intro fuel
  induction fuel with
  | zero =>
    intro st _ _ hlt
    omega
  | succ fuel ih =>
    intro st hinv h7 hlt
    rcases hpop : popMin st.open_set with _ | ⟨e0, rest⟩
    · have hempty : st.open_set = [] := popMin_none.mp hpop
      refine ⟨[], ?_, ?_, fun h => absurd rfl h⟩
      · rw [astarLoop_succ, hpop]
      · intro _
        rintro ⟨p, hp⟩
        have hcl : ∀ c, (st.g_score c).isSome = true →
            ∀ n, stepAdj m c n → (st.g_score n).isSome = true := by
          intro c hc n hn
          rcases hgc : st.g_score c with _ | gc
          · rw [hgc] at hc
            exact Bool.noConfusion hc
          · rcases h7 c gc hgc with ⟨e, he, _⟩ | hrel
            · rw [hempty] at he
              exact absurd he (List.not_mem_nil e)
            · obtain ⟨gn, hgn, _⟩ := hrel n hn
              rw [hgn]
              rfl
        have henddef : (st.g_score m.end_).isSome = true :=
          pathFrom_closed_pred (fun c => (st.g_score c).isSome = true) hcl p
            m.start m.end_ hp (by show (st.g_score m.start).isSome = true; rw [hinv.g_start]; rfl)
        obtain ⟨e, he, _⟩ := hinv.end_pend henddef
        rw [hempty] at he
        exact absurd he (List.not_mem_nil e)
    · obtain ⟨hmem, hrest, hmin⟩ := popMin_some hpop
      rcases hcur : st.g_score e0.2 with _ | gcur
      · have hcurdef := hinv.open_g e0 hmem
        rw [hcur] at hcurdef
        exact absurd hcurdef (by simp)
      · by_cases hend : e0.2 = m.end_
        · have hgend : st.g_score m.end_ = some gcur := by
            rw [← hend]
            exact hcur
          have hfuelr : gcur < reconFuel m := by
            have hb := hinv.g_bound e0.2 gcur hcur
            have hsub : (gDefined m st).card ≤ gridN m := by
              rw [← card_gridFinset m]
              exact Finset.card_le_card (Finset.filter_subset _ _)
            have hrf : reconFuel m = gridN m + 1 := rfl
            omega
          obtain ⟨chain, hrec, hhead, hlast, hchain, hnodup, hlen1, hlenle, _⟩ :=
            reconstructPath_spec m st hinv (reconFuel m) e0.2 gcur hcur hfuelr []
          refine ⟨chain.reverse, ?_, ?_, ?_⟩
          · rw [astarLoop_succ, hpop]
            dsimp only
            rw [if_pos hend, hrec]
            rfl
          · intro hnil
            rw [List.reverse_eq_nil_iff] at hnil
            rw [hnil] at hlen1
            exact absurd hlen1 (by simp)
          · intro _
            have hvp : ValidPath m chain.reverse := by
              refine ⟨?_, ?_, hchain⟩
              · rw [List.head?_reverse]
                exact hlast
              · rw [List.getLast?_reverse, hhead, hend]
            refine ⟨hvp, List.nodup_reverse.mpr hnodup, ?_⟩
            intro q hq
            have hminf : ∀ e ∈ st.open_set, e0.1 ≤ e.1 := by
              intro e he
              exact keyLt_fst_le (hmin e he)
            have hgefv : gcur ≤ e0.1 := by
              rcases hinv.open_f e0 hmem with ⟨gx, hgx, hle⟩ | h0
              · rw [hcur] at hgx
                obtain rfl := Option.some_injective _ hgx.symm
                rw [hend, heuristic_self] at hle
                omega
              · have h1 : e0.1 = 0 := by rw [h0]
                have h2 : e0.2 = m.start := by rw [h0]
                rw [h2, hinv.g_start] at hcur
                obtain rfl := Option.some_injective _ hcur.symm
                omega
            have hbound := astar_reach_g_bound m st h7 e0.1 hminf gcur hgend hgefv
              q.length q m.start hq ⟨0, hinv.g_start, by omega⟩
            rw [List.length_reverse]
            omega
        · -- expand the popped cell
          have hinvP : AInv m { st with open_set := rest } := by
            have hrmem : ∀ e ∈ rest, e ∈ st.open_set := by
              intro e he
              rw [hrest] at he
              exact List.mem_of_mem_erase he
            refine ⟨hinv.g_start, hinv.cf_step, hinv.dom, hinv.g_grid, ?_, ?_, hinv.g_bound, ?_⟩
            · intro e he
              exact hinv.open_g e (hrmem e he)
            · intro e he
              exact hinv.open_f e (hrmem e he)
            · intro hd
              obtain ⟨e, he, he2⟩ := hinv.end_pend hd
              have hne0 : e ≠ e0 := by
                intro h
                rw [h] at he2
                exact hend he2
              refine ⟨e, ?_, he2⟩
              rw [hrest]
              exact (List.mem_erase_of_ne hne0).mpr he
          have h7P : A7except m { st with open_set := rest } e0.2 := by
            intro x gx hx hxc
            rcases h7 x gx hx with ⟨e, he, he2, hle⟩ | hrel
            · have hne0 : e ≠ e0 := by
                intro h
                rw [h] at he2
                exact hxc he2.symm
              refine Or.inl ⟨e, ?_, he2, hle⟩
              show e ∈ rest
              rw [hrest]
              exact (List.mem_erase_of_ne hne0).mpr he
            · exact Or.inr hrel
          obtain ⟨k1, k2, k3, k4, k5⟩ := relaxFold_spec m e0.2 gcur
            (m._get_connected_neighbors e0.2.1 e0.2.2) (fun n hn => hn)
            { st with open_set := rest } hinvP hcur h7P
            (fun n hn hn' => absurd hn hn')
          have h7full : AStarA7 m
              ((m._get_connected_neighbors e0.2.1 e0.2.2).foldl
                (relaxNeighbor m e0.2) { st with open_set := rest }) := by
            intro x gx hx
            by_cases hxc : x = e0.2
            · refine Or.inr ?_
              intro n hn
              rw [hxc] at hn hx
              rw [k2] at hx
              obtain rfl := Option.some_injective _ hx.symm
              exact k4 n hn
            · exact k5 x gx hx hxc
          have hlenrest : rest.length + 1 = st.open_set.length := by
            have h1 : rest.length = st.open_set.length - 1 := by
              rw [hrest]
              exact List.length_erase_of_mem hmem
            have h2 : 0 < st.open_set.length := List.length_pos.mpr (by
              intro h
              rw [h] at hmem
              exact absurd hmem (List.not_mem_nil e0))
            omega
          have hphiP : phiA m { st with open_set := rest } + 1 = phiA m st := by
            rw [phiA, phiA]
            dsimp only
            omega
          obtain ⟨r, hr, h1, h2⟩ := ih _ k1 h7full (by omega)
          refine ⟨r, ?_, h1, h2⟩
          rw [astarLoop_succ, hpop]
          dsimp only
          rw [if_neg hend]
          exact hr

theorem astarInit_gscore (m : Maze) (p : ℤ × ℤ) :
    (astarInit m).g_score p = if p = m.start then some 0 else none := rfl

theorem astarInit_spec (m : Maze) (hWF : WF m) :
    AInv m (astarInit m) ∧ AStarA7 m (astarInit m) ∧
      phiA m (astarInit m) + gridN m = gridN m * gridN m + 1 := by
  have hstartg : m.start ∈ gridFinset m := by
    rw [mem_gridFinset]
    obtain ⟨hw, hh, _, hst, _⟩ := hWF
    rw [inGrid, hst]
    exact ⟨le_refl 0, by omega, le_refl 0, by omega⟩
  have hgs : (astarInit m).g_score m.start = some 0 := by
    rw [astarInit_gscore, if_pos rfl]
  refine ⟨⟨hgs, ?_, ?_, ?_, ?_, ?_, ?_, ?_⟩, ?_, ?_⟩
  · intro n c hn
    exact absurd hn (by simp [astarInit])
  · intro n hn
    rw [astarInit_gscore] at hn
    by_cases hns : n = m.start
    · exact Or.inl hns
    · rw [if_neg hns] at hn
      exact absurd hn (by simp)
  · intro n hn
    rw [astarInit_gscore] at hn
    by_cases hns : n = m.start
    · rw [hns]
      exact hstartg
    · rw [if_neg hns] at hn
      exact absurd hn (by simp)
  · intro e he
    have he' : e = (0, m.start) := by
      have : (astarInit m).open_set = [(0, m.start)] := rfl
      rw [this, List.mem_singleton] at he
      exact he
    rw [he', hgs]
    rfl
  · intro e he
    have he' : e = (0, m.start) := by
      have : (astarInit m).open_set = [(0, m.start)] := rfl
      rw [this, List.mem_singleton] at he
      exact he
    exact Or.inr he'
  · intro x gx hx
    rw [astarInit_gscore] at hx
    by_cases hxs : x = m.start
    · rw [if_pos hxs] at hx
      obtain rfl := Option.some_injective _ hx.symm
      have hmem : m.start ∈ gDefined m (astarInit m) := by
        rw [gDefined, Finset.mem_filter]
        refine ⟨hstartg, ?_⟩
        rw [hgs]
        rfl
      have := Finset.card_pos.mpr ⟨m.start, hmem⟩
      omega
    · rw [if_neg hxs] at hx
      exact absurd hx (by simp)
  · intro hd
    rw [astarInit_gscore] at hd
    by_cases hes : m.end_ = m.start
    · refine ⟨(0, m.start), ?_, ?_⟩
      · show (0, m.start) ∈ [(0, m.start)]
        exact List.mem_singleton_self _
      · show m.start = m.end_
        rw [hes]
    · rw [if_neg hes] at hd
      exact absurd hd (by simp)
  · intro x gx hx
    rw [astarInit_gscore] at hx
    by_cases hxs : x = m.start
    · refine Or.inl ⟨(0, m.start), ?_, ?_, ?_⟩
      · show (0, m.start) ∈ [(0, m.start)]
        exact List.mem_singleton_self _
      · show m.start = x
        rw [hxs]
      · show (0 : ℕ) ≤ gx + heuristic x m.end_
        omega
    · rw [if_neg hxs] at hx
      exact absurd hx (by simp)
  · have hsum := sum_getD_if (gridFinset m) (fun _ => none) m.start hstartg 0 (gridN m)
    have hconst : ((gridFinset m).sum fun _ => gridN m) = gridN m * gridN m := by
      rw [Finset.sum_const, smul_eq_mul, card_gridFinset]
    have hphi : phiA m (astarInit m) =
        1 + (gridFinset m).sum fun p => (if p = m.start then some 0 else none).getD (gridN m) := by
      rw [phiA]
      have hlen : (astarInit m).open_set.length = 1 := rfl
      rw [hlen]
      have hsum2 : ((gridFinset m).sum fun p => ((astarInit m).g_score p).getD (gridN m)) =
          (gridFinset m).sum fun p => (if p = m.start then some 0 else none).getD (gridN m) := by
        refine Finset.sum_congr rfl ?_
        intro p _
        rw [astarInit_gscore]
      rw [hsum2]
    rw [hphi]
    simp only [Option.getD_none] at hsum
    rw [hconst] at hsum
    omega

theorem solve_astar_spec (m : Maze) (hWF : WF m) :
    (m.solve_astar = [] → ¬ ReachesEnd m) ∧
    (m.solve_astar ≠ [] → ValidPath m m.solve_astar ∧ m.solve_astar.Nodup ∧
      ∀ q, ValidPath m q → m.solve_astar.length ≤ q.length) := by
  obtain ⟨hinv0, h70, hphi0⟩ := astarInit_spec m hWF
  have hfa : astarFuel m = gridN m * gridN m + 2 := rfl
  obtain ⟨r, hr, hempty, hval⟩ := astarLoop_correct m (astarFuel m) (astarInit m)
    hinv0 h70 (by omega)
  have hres : m.solve_astar = r := by
    simp only [Maze.solve_astar, hr, Option.getD_some]
  rw [hres]
  exact ⟨hempty, hval⟩

/-! ## Claims C3, C4, C5, C10: the three solvers -/

/-- Claim C3: on a structurally well-formed maze whose connectivity graph
reaches the end from the start, `solve_bfs` and `solve_astar` each return a
shortest start-to-end path over the connectivity graph; in particular the
two returned lengths are equal, and equal to the optimum. -/
theorem bfs_astar_return_shortest_paths (m : Maze) (hWF : WF m)
    (hreach : ReachesEnd m) :
    IsShortestPath m m.solve_bfs ∧ IsShortestPath m m.solve_astar ∧
      m.solve_bfs.length = m.solve_astar.length := by
  obtain ⟨hbe, hbv⟩ := solve_bfs_spec m hWF
  obtain ⟨hae, hav⟩ := solve_astar_spec m hWF
  have hbne : m.solve_bfs ≠ [] := fun h => (hbe h) hreach
  have hane : m.solve_astar ≠ [] := fun h => (hae h) hreach
  obtain ⟨hbs, _⟩ := hbv hbne
  obtain ⟨hav1, _, hav3⟩ := hav hane
  refine ⟨hbs, ⟨hav1, hav3⟩, ?_⟩
  have h1 := hbs.2 m.solve_astar hav1
  have h2 := hav3 m.solve_bfs hbs.1
  omega

/-- Claim C4: on a structurally well-formed maze that reaches its end, each
of the three solvers returns a path whose first element is the start, whose
last element is the end, and whose consecutive elements are
connectivity-adjacent (one grid step apart with no wall offered between). -/
theorem solvers_return_valid_paths (m : Maze) (hWF : WF m)
    (hreach : ReachesEnd m) :
    ValidPath m m.solve_bfs ∧ ValidPath m m.solve_dfs ∧ ValidPath m m.solve_astar := by
  obtain ⟨hbe, hbv⟩ := solve_bfs_spec m hWF
  obtain ⟨hde, hdv⟩ := solve_dfs_spec m hWF
  obtain ⟨hae, hav⟩ := solve_astar_spec m hWF
  have hbne : m.solve_bfs ≠ [] := fun h => (hbe h) hreach
  have hdne : m.solve_dfs ≠ [] := fun h => (hde h) hreach
  have hane : m.solve_astar ≠ [] := fun h => (hae h) hreach
  exact ⟨(hbv hbne).1.1, (hdv hdne).1, (hav hane).1⟩

/-- Claim C5: for every structurally well-formed maze value, with arbitrary
(possibly asymmetric or disconnected) wall contents, each solver terminates
and returns the empty path exactly when the end is unreachable from the
start in the connectivity graph. -/
theorem solvers_empty_iff_unreachable (m : Maze) (hWF : WF m) :
    (m.solve_bfs = [] ↔ ¬ ReachesEnd m) ∧ (m.solve_dfs = [] ↔ ¬ ReachesEnd m) ∧
      (m.solve_astar = [] ↔ ¬ ReachesEnd m) := by
  obtain ⟨hbe, hbv⟩ := solve_bfs_spec m hWF
  obtain ⟨hde, hdv⟩ := solve_dfs_spec m hWF
  obtain ⟨hae, hav⟩ := solve_astar_spec m hWF
  refine ⟨⟨hbe, ?_⟩, ⟨hde, ?_⟩, ⟨hae, ?_⟩⟩
  · intro hnr
    by_contra hne
    exact hnr ⟨m.solve_bfs, (hbv hne).1.1⟩
  · intro hnr
    by_contra hne
    exact hnr ⟨m.solve_dfs, (hdv hne).1⟩
  · intro hnr
    by_contra hne
    exact hnr ⟨m.solve_astar, (hav hne).1⟩

/-- Claim C10: every path returned by any of the three solvers on a
structurally well-formed maze is simple: no coordinate pair occurs more
than once in the returned sequence (trivially so for the empty result). -/
theorem solver_paths_are_simple (m : Maze) (hWF : WF m) :
    m.solve_bfs.Nodup ∧ m.solve_dfs.Nodup ∧ m.solve_astar.Nodup := by
  obtain ⟨hbe, hbv⟩ := solve_bfs_spec m hWF
  obtain ⟨hde, hdv⟩ := solve_dfs_spec m hWF
  obtain ⟨hae, hav⟩ := solve_astar_spec m hWF
  refine ⟨?_, ?_, ?_⟩
  · by_cases h : m.solve_bfs = []
    · rw [h]
      exact List.nodup_nil
    · exact (hbv h).2
  · by_cases h : m.solve_dfs = []
    · rw [h]
      exact List.nodup_nil
    · exact (hdv h).2
  · by_cases h : m.solve_astar = []
    · rw [h]
      exact List.nodup_nil
    · exact (hav h).2.1

/-- A concrete 2×1 maze value whose single interior wall-pair is removed. -/
def pairMaze : Maze :=
  { width := 2, height := 1, cell_size := 20,
    cells := [[(Cell.init 0 0).remove_wall Direction.east],
              [(Cell.init 1 0).remove_wall Direction.west]],
    start := (0, 0), end_ := (1, 0) }

theorem pairMaze_reaches_end : ReachesEnd pairMaze :=
  ⟨[(0, 0), (1, 0)], rfl, rfl, List.chain'_pair.mpr (by decide)⟩

theorem bfs_astar_return_shortest_paths_witness :
    IsShortestPath pairMaze pairMaze.solve_bfs ∧
      IsShortestPath pairMaze pairMaze.solve_astar ∧
      pairMaze.solve_bfs.length = pairMaze.solve_astar.length :=
  bfs_astar_return_shortest_paths pairMaze (by decide) pairMaze_reaches_end

theorem solvers_return_valid_paths_witness :
    ValidPath pairMaze pairMaze.solve_bfs ∧ ValidPath pairMaze pairMaze.solve_dfs ∧
      ValidPath pairMaze pairMaze.solve_astar :=
  solvers_return_valid_paths pairMaze (by decide) pairMaze_reaches_end

theorem solvers_empty_iff_unreachable_witness :
    (pairMaze.solve_bfs = [] ↔ ¬ ReachesEnd pairMaze) ∧
      (pairMaze.solve_dfs = [] ↔ ¬ ReachesEnd pairMaze) ∧
      (pairMaze.solve_astar = [] ↔ ¬ ReachesEnd pairMaze) :=
  solvers_empty_iff_unreachable pairMaze (by decide)

theorem solver_paths_are_simple_witness :
    pairMaze.solve_bfs.Nodup ∧ pairMaze.solve_dfs.Nodup ∧
      pairMaze.solve_astar.Nodup :=
  solver_paths_are_simple pairMaze (by decide)
